import Mathlib

/-!
# Zipf's-law word counter: the `dictionary` class

A shallow embedding of `dictionary.h` / `dictionary.cpp` (configured build:
`BFN_DEF 1`, hence `DICT_MAX_CHARS 11`, and `BLOOMISH true`).

Modelling conventions.

* `BFN` values (the hash) are exact rationals.  The macro `LOC_H_LT_HINT` compares the
  bit patterns of the two doubles as unsigned 64-bit integers (`RE_CAST_BIN`): the
  function `binLt` is that order, which agrees with `<` on two non-negative hashes and
  puts every negative hash above every non-negative one.  `LOC_H_IS_HINT` is equality.
* The table `word ** list` is a list of `capacity + 1` slots, each holding `nullptr`
  (`none`) or an address (`some p`).  Addresses point into `store`, the free store:
  `store[p] = some w` is a live `word` object, `store[p] = none` an object that has
  been `delete`d.  `new` appends to `store`.
* A computation returns a `Run`: a value, `oob` when the C++ code would read or write
  a slot outside the allocated array, `ub` when it would dereference a deleted object
  (or index outside the `frequency` vector of `print`), or `fuel` when the recursion
  budget given to the recursive functions is spent.
* `size_t` arithmetic on occurrence counts wraps at `2^64`, and `--count.size` wraps at 0;
  `capacity` and `size` otherwise grow as natural numbers (an array of `2^61`
  pointers cannot be allocated).
-/

set_option autoImplicit false

/-! ## Results of computations -/

/-- Outcome of running a piece of the program: a value, undefined behaviour other than
an access outside the slot array (`ub`), a read or write of a slot outside the
allocated array (`oob`), or an exhausted recursion budget (`fuel`). -/
inductive Run (α : Type) where
  | ok (a : α)
  | ub
  | fuel
  | oob
deriving DecidableEq, Repr

/-- Sequencing: continue with `f` when the first computation produced a value. -/
def Run.bind {α β : Type} (x : Run α) (f : α → Run β) : Run β :=
  match x with
  | Run.ok a => f a
  | Run.ub => Run.ub
  | Run.fuel => Run.fuel
  | Run.oob => Run.oob

/-! ## Constants and the string order -/

/-- The word-size modulus of `size_t`. -/
def SIZE_MOD : ℕ := 2 ^ 64

/-- The constant `DICT_MAX_CHARS` for the 64-bit hash type. -/
def DICT_MAX_CHARS : ℕ := 11

/-- The apostrophe character. -/
def APOSTROPHE : Char := Char.ofNat 39

/-- The table `POW28` of `dictionary.cpp`, entry `i` being `28^(i+1)`. -/
def POW28_TABLE : List ℚ :=
  [ 28,
    784,
    21952,
    614656,
    17210368,
    481890304,
    13492928512,
    377801998336,
    10578455953408,
    296196766695424,
    8293509467471872,
    232218265089212416,
    6502111422497947648,
    182059119829942534144,
    5097655355238390956032,
    142734349946674946768896,
    3996561798506898509529088,
    111903730358193158266814464,
    3133304450029408431470804992,
    87732524600823436081182539776,
    2456510688823056210273111113728,
    68782299287045573887647111184384,
    1925904380037276068854119113162752,
    53925322641043729927915335168557056,
    1509909033949224437981629384719597568 ]

/-- Lookup `POW28[i]`. -/
def POW28 (i : ℕ) : ℚ := POW28_TABLE.getD i 0

/-- The overloaded `operator <` on strings of `dictionary.cpp`: compare character by
character up to the shorter length, then compare the lengths. -/
def strLt : List Char → List Char → Bool
  | [], [] => false
  | [], _ :: _ => true
  | _ :: _, [] => false
  | a :: as, b :: bs =>
    if a < b then true
    else if b < a then false
    else strLt as bs

/-- Character `str[i]` as an integer code. -/
def charAt (str : List Char) (i : ℕ) : ℤ := ((str.getD i (Char.ofNat 0)).toNat : ℤ)

/-- One round of the `for` loop of `dictionary::hash`. -/
def hashStep (str : List Char) (h : ℚ) (i : ℕ) : ℚ :=
  if str.getD i (Char.ofNat 0) ≠ APOSTROPHE then h + ((charAt str i - 96 : ℤ) : ℚ) / POW28 i
  else h

/-- The function `dictionary::hash`. -/
def dictionary.hash (str : List Char) : ℚ :=
  if str ≠ [] then
    let h0 : ℚ := ((charAt str 0 - 97 : ℤ) : ℚ) / 27
    let length := if str.length > DICT_MAX_CHARS then DICT_MAX_CHARS else str.length
    let h1 := (List.range' 1 (length - 1)).foldl (hashStep str) h0
    if str.length > length ∧ str.getD (length - 1) (Char.ofNat 0) = APOSTROPHE then
      h1 + ((charAt str length - 96 : ℤ) : ℚ) / POW28 length
    else h1
  else -1

/-! ## Data model -/

/-- The `word` struct: hash, number of occurrences, text. -/
structure word where
  hash : ℚ
  num : ℕ
  str : List Char
deriving DecidableEq, Repr

/-- The `dictionary` class: the two counters, the slot array and the free store. -/
structure dictionary where
  capacity : ℕ
  size : ℕ
  list : List (Option ℕ)
  store : List (Option word)
deriving DecidableEq, Repr

/-- The constructor `dictionary::dictionary(num)`: `num + 1` null slots. -/
def dictionary.ctor (num : ℕ) : dictionary :=
  { capacity := num, size := 0, list := List.replicate (num + 1) none, store := [] }

/-- Read the pointer in slot `i`; reading outside the array is undefined. -/
def dictionary.slot (d : dictionary) (i : ℕ) : Run (Option ℕ) :=
  match d.list[i]? with
  | some s => Run.ok s
  | none => Run.oob

/-- Dereference an address; a deleted or never allocated object is undefined. -/
def dictionary.deref (d : dictionary) (p : ℕ) : Run word :=
  match d.store[p]? with
  | some (some w) => Run.ok w
  | _ => Run.ub

/-- Write a pointer into slot `i`. -/
def dictionary.setSlot (d : dictionary) (i : ℕ) (s : Option ℕ) : dictionary :=
  { d with list := d.list.set i s }

/-- The expression `new word(str, num, H)`: allocate at a fresh address. -/
def dictionary.alloc (d : dictionary) (w : word) : dictionary × ℕ :=
  ({ d with store := d.store ++ [some w] }, d.store.length)

/-- The conversion `size_t(H * capacity)`: the product is truncated; a product in
`(-1, 0)` truncates to 0. -/
def slotIndex (capacity : ℕ) (H : ℚ) : ℕ :=
  Int.toNat ⌊H * (capacity : ℚ)⌋

/-- The start index `size_t(H * count.capacity)`. -/
def dictionary.index (d : dictionary) (H : ℚ) : ℕ :=
  slotIndex d.capacity H

/-- The test `RE_CAST_BIN(a) < RE_CAST_BIN(b)` of `LOC_H_LT_HINT`: the two doubles are
read as unsigned 64-bit integers.  The sign bit is the top bit, so a non-negative
value lies below every negative one; two non-negative values compare as numbers, and
two negative values compare by magnitude, the other way round. -/
def binLt (a b : ℚ) : Bool :=
  if 0 ≤ a then (if 0 ≤ b then decide (a < b) else true)
  else (if 0 ≤ b then false else decide (b < a))

/-- First scan loop: `while ( *location && LOC_H_LT_HINT ) ++location;`.
The first argument bounds the number of slots left in the array. -/
def dictionary.scanHash (d : dictionary) (H : ℚ) : ℕ → ℕ → Run ℕ
  | 0, _ => Run.oob
  | n + 1, loc =>
    (d.slot loc).bind fun s =>
    match s with
    | none => Run.ok loc
    | some p =>
      (d.deref p).bind fun w =>
      if binLt w.hash H then dictionary.scanHash d H n (loc + 1) else Run.ok loc

/-- Second scan loop: `while ( *location && LOC_STR_LT_STR ) ++location;`. -/
def dictionary.scanStr (d : dictionary) (str : List Char) : ℕ → ℕ → Run ℕ
  | 0, _ => Run.oob
  | n + 1, loc =>
    (d.slot loc).bind fun s =>
    match s with
    | none => Run.ok loc
    | some p =>
      (d.deref p).bind fun w =>
      if strLt w.str str then dictionary.scanStr d str n (loc + 1) else Run.ok loc

/-- The two scan loops shared by `insert`, `find` and `remove`, started at
`&list[size_t(H * count.capacity)]`. -/
def dictionary.locate (d : dictionary) (H : ℚ) (str : List Char) : Run ℕ :=
  (d.scanHash H (d.list.length + 1 - d.index H) (d.index H)).bind fun l1 =>
  d.scanStr str (d.list.length + 1 - l1) l1

/-- The shifting loop `while ( *location ) { std::swap( *location, temp ); ++location; }`.
Returns the table, the final location and the pointer left in `temp`. -/
def dictionary.shift : ℕ → dictionary → ℕ → ℕ → Run (dictionary × ℕ × ℕ)
  | 0, _, _, _ => Run.oob
  | n + 1, d, loc, temp =>
    (d.slot loc).bind fun s =>
    match s with
    | none => Run.ok (d, loc, temp)
    | some p => dictionary.shift n (d.setSlot loc (some temp)) (loc + 1) p

/-- The loop of `resize` that moves every word of the old list with the private
`insert`, here the parameter `ins`. -/
def dictionary.moveAll (ins : dictionary → ℕ → Run (dictionary × ℕ)) :
    List (Option ℕ) → dictionary → Run dictionary
  | [], d => Run.ok d
  | none :: rest, d => dictionary.moveAll ins rest d
  | some p :: rest, d => (ins d p).bind fun r => dictionary.moveAll ins rest r.1

/-- Body of `dictionary::resize(newSize)`, the private `insert` being `ins`. -/
def dictionary.resizeWith (ins : dictionary → ℕ → Run (dictionary × ℕ))
    (d : dictionary) (newSize : ℕ) : Run dictionary :=
  dictionary.moveAll ins (d.list.take d.capacity)
    { d with list := List.replicate (newSize + 1) none, capacity := newSize }

/-- The private `dictionary::insert( word * W )`; the first argument bounds the depth
of the resize-and-retry recursion. -/
def dictionary.insertW : ℕ → dictionary → ℕ → Run (dictionary × ℕ)
  | 0, _, _ => Run.fuel
  | f + 1, d, W =>
    if 4 * d.size > 3 * d.capacity then
      (dictionary.resizeWith (dictionary.insertW f) d (d.capacity <<< 1)).bind fun d1 =>
      dictionary.insertW f d1 W
    else
      (d.deref W).bind fun w =>
      (d.locate w.hash w.str).bind fun loc =>
      (d.slot loc).bind fun s =>
      match s with
      | none =>
        if loc = d.capacity then
          (dictionary.resizeWith (dictionary.insertW f) d (d.capacity <<< 1)).bind fun d1 =>
          dictionary.insertW f d1 W
        else Run.ok (d.setSlot loc (some W), w.num)
      | some _ =>
        (dictionary.shift (d.list.length + 1 - loc) d loc W).bind fun r =>
        if r.2.1 = r.1.capacity then
          (dictionary.resizeWith (dictionary.insertW f) r.1 (r.1.capacity <<< 1)).bind fun d2 =>
          (dictionary.insertW f d2 r.2.2).bind fun r3 => Run.ok (r3.1, w.num)
        else Run.ok (r.1.setSlot r.2.1 (some r.2.2), w.num)

/-- The function `dictionary::resize(newSize)`. -/
def dictionary.resize (f : ℕ) (d : dictionary) (newSize : ℕ) : Run dictionary :=
  dictionary.resizeWith (dictionary.insertW f) d newSize

/-- The public `dictionary::insert( str, num )`; the first argument bounds the depth
of the resize-and-retry recursion. -/
def dictionary.insert : ℕ → dictionary → List Char → ℕ → Run (dictionary × ℕ)
  | 0, d, str, _ => if str ≠ [] then Run.fuel else Run.ok (d, 0)
  | f + 1, d, str, num =>
    if str ≠ [] then
      if 4 * d.size > 3 * d.capacity then
        (d.resize f (d.capacity <<< 1)).bind fun d1 => dictionary.insert f d1 str num
      else
        let H := dictionary.hash str
        (d.locate H str).bind fun loc =>
        (d.slot loc).bind fun s =>
        match s with
        | none =>
          if loc = d.capacity then
            (d.resize f (d.capacity <<< 1)).bind fun d1 =>
            let a := dictionary.alloc { d1 with size := d1.size + 1 } ⟨H, num, str⟩
            dictionary.insertW f a.1 a.2
          else
            let a := d.alloc ⟨H, num, str⟩
            Run.ok ({ a.1.setSlot loc (some a.2) with size := d.size + 1 }, num)
        | some p =>
          (d.deref p).bind fun w =>
          if w.hash = H ∧ w.str = str then
            let n := (w.num + num) % SIZE_MOD
            Run.ok ({ d with store := d.store.set p (some { w with num := n }) }, n)
          else
            let a := d.alloc ⟨H, num, str⟩
            (dictionary.shift (d.list.length + 1 - loc) { a.1 with size := d.size + 1 } loc a.2).bind
              fun r =>
            if r.2.1 = r.1.capacity then
              (dictionary.resize f r.1 (r.1.capacity <<< 1)).bind fun d2 =>
              (dictionary.insertW f d2 r.2.2).bind fun r3 => Run.ok (r3.1, num)
            else Run.ok (r.1.setSlot r.2.1 (some r.2.2), num)
    else Run.ok (d, 0)

/-- The function `dictionary::find( str )`. -/
def dictionary.find (d : dictionary) (str : List Char) : Run ℕ :=
  if str ≠ [] then
    let H := dictionary.hash str
    (d.locate H str).bind fun loc =>
    (d.slot loc).bind fun s =>
    match s with
    | none => Run.ok 0
    | some p =>
      (d.deref p).bind fun w =>
      if w.hash = H ∧ w.str = str then Run.ok w.num else Run.ok 0
  else Run.ok 0

/-- The statement `--count.size` on a `size_t`: 0 wraps to `2^64 - 1`. -/
def decrement (n : ℕ) : ℕ := if n = 0 then SIZE_MOD - 1 else n - 1

/-- The compaction loop of `remove`:
`while ( *(location+1) && location >= &list[size_t((*(location+1))->hash*capacity)] )`. -/
def dictionary.compact : ℕ → dictionary → ℕ → Run (dictionary × ℕ)
  | 0, _, _ => Run.oob
  | n + 1, d, loc =>
    (d.slot (loc + 1)).bind fun s =>
    match s with
    | none => Run.ok (d, loc)
    | some q =>
      (d.deref q).bind fun w =>
      if loc ≥ d.index w.hash then dictionary.compact n (d.setSlot loc (some q)) (loc + 1)
      else Run.ok (d, loc)

/-- The function `dictionary::remove( str, num )`. -/
def dictionary.remove (d : dictionary) (str : List Char) (num : ℕ) : Run (dictionary × ℕ) :=
  if str ≠ [] then
    let H := dictionary.hash str
    (d.locate H str).bind fun loc =>
    (d.slot loc).bind fun s =>
    match s with
    | none => Run.ok (d, 0)
    | some p =>
      (d.deref p).bind fun w =>
      if w.hash = H ∧ w.str = str then
        if num ≥ w.num then
          let d1 : dictionary := { d with store := d.store.set p none }
          (dictionary.compact (d1.list.length + 1 - loc) d1 loc).bind fun r =>
          (r.1.slot (r.2 + 1)).bind fun _ =>
          Run.ok ({ r.1.setSlot (r.2 + 1) none with size := decrement r.1.size }, 0)
        else
          let n := w.num - num
          Run.ok ({ d with store := d.store.set p (some { w with num := n }) }, n)
      else Run.ok (d, 0)
  else Run.ok (d, 0)

/-! ## What a scan sees -/

/-- The content of slot `k` as the scan loops see it: `none` when the access is
undefined (outside the array, or a deleted object), `some none` for `nullptr`,
`some (some w)` for a pointer to the live word `w`. -/
def dictionary.cell (d : dictionary) (k : ℕ) : Option (Option word) :=
  match d.list[k]? with
  | none => none
  | some none => some none
  | some (some p) =>
    match d.store[p]? with
    | some (some w) => some (some w)
    | _ => none

/-- A scan loop over a table view `T`, stepping over the words that satisfy `pass`. -/
def scanP (T : ℕ → Option (Option word)) (pass : word → Bool) : ℕ → ℕ → Run ℕ
  | 0, _ => Run.ub
  | n + 1, loc =>
    match T loc with
    | none => Run.ub
    | some none => Run.ok loc
    | some (some w) => if pass w then scanP T pass n (loc + 1) else Run.ok loc

/-- The scan from `loc` steps over occupied passing slots and stops at `q`. -/
def Scan (T : ℕ → Option (Option word)) (pass : word → Bool) (loc q : ℕ) : Prop :=
  loc ≤ q ∧ (∀ k, loc ≤ k → k < q → ∃ w, T k = some (some w) ∧ pass w = true) ∧
    (T q = some none ∨ ∃ w, T q = some (some w) ∧ pass w = false)

/-- The test of the first loop as the code makes it, on the bit patterns. -/
def passB (H : ℚ) (w : word) : Bool := binLt w.hash H

/-- The test of the first loop read as a comparison of numbers; `binLt` is this
comparison when neither hash is negative. -/
def passH (H : ℚ) (w : word) : Bool := decide (w.hash < H)

/-- The test of the second loop. -/
def passS (str : List Char) (w : word) : Bool := strLt w.str str

/-- Both loops with the first test read as a comparison of numbers: the first stops at
some `k1`, the second goes on from there to `q`.  On a table of non-negative hashes,
probed for a non-negative hash, this is what the code does. -/
def Loc (T : ℕ → Option (Option word)) (i : ℕ) (H : ℚ) (str : List Char) (q : ℕ) : Prop :=
  ∃ k1, Scan T (passH H) i k1 ∧ Scan T (passS str) k1 q

/-- Both loops as the code runs them, the first one on the bit patterns. -/
def LocB (T : ℕ → Option (Option word)) (i : ℕ) (H : ℚ) (str : List Char) (q : ℕ) : Prop :=
  ∃ k1, Scan T (passB H) i k1 ∧ Scan T (passS str) k1 q

/-- Every stored word is reached by its own scan: started at the word's ideal index,
the two loops stop exactly at the slot that holds the word. -/
def SF (cap : ℕ) (T : ℕ → Option (Option word)) : Prop :=
  ∀ j w, T j = some (some w) → Loc T (slotIndex cap w.hash) w.hash w.str j

/-- The non-null pointers of the slot array, in slot order. -/
def dictionary.ptrs (d : dictionary) : List ℕ := d.list.filterMap id

/-- A `word` object as `insert` builds it: the stored hash is the hash of the text,
and it lies below `25/26`. -/
def wordW (w : word) : Prop := w.hash = dictionary.hash w.str ∧ w.hash * 26 < 25

/-- A `word` object as `insert` builds it from a text whose hash is not negative. -/
def wordOK (w : word) : Prop :=
  w.hash = dictionary.hash w.str ∧ w.hash * 26 < 25 ∧ 0 ≤ w.hash

/-- A list of addresses of pairwise different live well-formed words with non-negative
hashes and pairwise different texts. -/
def PtrsOK (store : List (Option word)) (L : List ℕ) : Prop :=
  L.Nodup ∧ (∀ p ∈ L, ∃ w, store[p]? = some (some w) ∧ wordOK w) ∧
  (∀ p1 ∈ L, ∀ p2 ∈ L, ∀ w1 w2, store[p1]? = some (some w1) → store[p2]? = some (some w2) →
    w1.str = w2.str → p1 = p2)

/-- The shape of a table of non-negative hashes: positive capacity, `capacity + 1`
slots, an empty sentinel slot, and every stored word reachable by its own scan. -/
structure TableOK (d : dictionary) : Prop where
  cap_pos : 0 < d.capacity
  len : d.list.length = d.capacity + 1
  sentinel : d.list[d.capacity]? = some none
  sf : SF d.capacity d.cell

/-- The invariant of the table between two public calls as long as no word with a
negative hash was inserted (in particular when every word has at most 11 characters). -/
structure DictInv (d : dictionary) : Prop where
  table : TableOK d
  ptrs : PtrsOK d.store d.ptrs
  size_eq : d.size = d.ptrs.length

/-- Every stored word sits at or after its start index, and every slot from the start
index up to the word is occupied: the probe for the word's hash walks over occupied
slots only until it reaches the word. -/
def Contig (cap : ℕ) (T : ℕ → Option (Option word)) : Prop :=
  ∀ j w, T j = some (some w) → slotIndex cap w.hash ≤ j ∧
    ∀ k, slotIndex cap w.hash ≤ k → k < j → ∃ v, T k = some (some v)

/-- A list of pairwise different addresses of live word objects built by `insert`. -/
def PtrsW (store : List (Option word)) (L : List ℕ) : Prop :=
  L.Nodup ∧ ∀ p ∈ L, ∃ w, store[p]? = some (some w) ∧ wordW w

/-- The shape of a table whatever the hashes of its words: positive capacity,
`capacity + 1` slots, an empty sentinel slot, and contiguous probe runs. -/
structure TableW (d : dictionary) : Prop where
  cap_pos : 0 < d.capacity
  len : d.list.length = d.capacity + 1
  sentinel : d.list[d.capacity]? = some none
  contig : Contig d.capacity d.cell

/-- The part of the invariant that holds for every sequence of `insert` calls on
normalized words, negative hashes included. -/
structure WInv (d : dictionary) : Prop where
  table : TableW d
  ptrs : PtrsW d.store d.ptrs
  size_eq : d.size = d.ptrs.length

/-- The table holds the word object `w`. -/
def dictionary.Holds (d : dictionary) (w : word) : Prop :=
  ∃ p ∈ d.ptrs, d.store[p]? = some (some w)

/-- Contract of the private `insert( word * W )` run with recursion budget `f`: on a
well-formed table of non-negative hashes that does not hold `W` yet, with a budget that covers the doublings
still needed, the call returns `W->num`, keeps the table well formed, leaves the free
store and `size` alone, never shrinks the capacity, and adds exactly `W`. -/
def InsertWSpec (f : ℕ) : Prop :=
  ∀ (d : dictionary) (W : ℕ) (w : word),
    TableOK d → PtrsOK d.store (W :: d.ptrs) → d.store[W]? = some (some w) →
    d.ptrs.length < d.size → 1 ≤ f → 26 * d.size + 1 ≤ f + d.capacity →
    ∃ d', dictionary.insertW f d W = Run.ok (d', w.num) ∧ TableOK d' ∧
      d'.store = d.store ∧ d'.size = d.size ∧ d.capacity ≤ d'.capacity ∧
      d'.ptrs.Perm (W :: d.ptrs)

/-- Contract of the private `insert( word * W )` for tables of any hashes: the call
returns `W->num`, keeps the shape of the table, leaves the free store and `size` alone,
never shrinks the capacity, and adds exactly `W`. -/
def InsertWSpecW (f : ℕ) : Prop :=
  ∀ (d : dictionary) (W : ℕ) (w : word),
    TableW d → PtrsW d.store (W :: d.ptrs) → d.store[W]? = some (some w) →
    d.ptrs.length < d.size → 1 ≤ f → 26 * d.size + 1 ≤ f + d.capacity →
    ∃ d', dictionary.insertW f d W = Run.ok (d', w.num) ∧ TableW d' ∧
      d'.store = d.store ∧ d'.size = d.size ∧ d.capacity ≤ d'.capacity ∧
      d'.ptrs.Perm (W :: d.ptrs)

/-- Effect of a public `insert( str, num )` on a table of any hashes: either a scan
stopped at a stored object with the hash and the text of `str`, whose count was raised,
or one new object was allocated and linked into the table. -/
def InsertPostW (d : dictionary) (str : List Char) (num : ℕ) (d' : dictionary) (r : ℕ) :
    Prop :=
  WInv d' ∧ d.capacity ≤ d'.capacity ∧
  ((∃ p w, p ∈ d.ptrs ∧ d.store[p]? = some (some w) ∧ w.str = str ∧
      r = (w.num + num) % SIZE_MOD ∧
      d'.store = d.store.set p (some { w with num := r }) ∧
      d'.ptrs.Perm d.ptrs ∧ d'.size = d.size) ∨
   (r = num ∧
      d'.store = d.store ++ [some ⟨dictionary.hash str, num, str⟩] ∧
      d'.ptrs.Perm (d.store.length :: d.ptrs) ∧ d'.size = d.size + 1))

/-- Effect of a public `insert( str, num )` that took a table of non-negative hashes
`d` to `d'` and returned `r`: either the word was stored at some address `p` and only its count changed, or it was
not stored and one new object was allocated and linked into the table. -/
def InsertPost (d : dictionary) (str : List Char) (num : ℕ) (d' : dictionary) (r : ℕ) : Prop :=
  DictInv d' ∧ d.capacity ≤ d'.capacity ∧
  ((∃ p w, p ∈ d.ptrs ∧ d.store[p]? = some (some w) ∧ w.str = str ∧
      r = (w.num + num) % SIZE_MOD ∧
      d'.store = d.store.set p (some { w with num := r }) ∧
      d'.ptrs.Perm d.ptrs ∧ d'.size = d.size) ∨
   ((∀ v, d.Holds v → v.str ≠ str) ∧ r = num ∧
      d'.store = d.store ++ [some ⟨dictionary.hash str, num, str⟩] ∧
      d'.ptrs.Perm (d.store.length :: d.ptrs) ∧ d'.size = d.size + 1))

/-! ## Normalized words and runs of the program -/

/-- A lowercase letter `a`..`z`. -/
def isLetter (c : Char) : Bool := decide (97 ≤ c.toNat ∧ c.toNat ≤ 122)

/-- A character of a token: a lowercase letter or an apostrophe. -/
def isWordChar (c : Char) : Bool := isLetter c || decide (c = APOSTROPHE)

/-- A normalized word as `getword` produces it: non-empty, letters and apostrophes
only, the first and the last character letters. -/
def normalized (s : List Char) : Bool :=
  s.all isWordChar &&
  (match s.head? with
   | some c => isLetter c
   | none => false) &&
  (match s.getLast? with
   | some c => isLetter c
   | none => false)

/-- A sequence of public `insert( word, count )` calls, run one after the other with
recursion budget `f` each (the loop of `main` with a count per token). -/
def dictionary.insertAll (f : ℕ) : dictionary → List (List Char × ℕ) → Run dictionary
  | d, [] => Run.ok d
  | d, op :: rest =>
    (dictionary.insert f d op.1 op.2).bind fun r => dictionary.insertAll f r.1 rest

/-- The sum of the counts that the calls `ops` insert for the word `w`. -/
def countOf (ops : List (List Char × ℕ)) (w : List Char) : ℕ :=
  ((ops.filter (fun op => decide (op.1 = w))).map Prod.snd).sum

/-- The dictionaries reachable from construction with capacity at least 1 by public
`insert` calls on normalized words, each with a count of at least 1 that does not
overflow the stored 64-bit count. -/
inductive Reachable : dictionary → Prop
  | ctor (cap : ℕ) (h : 1 ≤ cap) : Reachable (dictionary.ctor cap)
  | insert (d d' : dictionary) (f : ℕ) (str : List Char) (num r c : ℕ) :
      Reachable d → normalized str = true → 1 ≤ num → d.find str = Run.ok c →
      c + num < SIZE_MOD → dictionary.insert f d str num = Run.ok (d', r) → Reachable d'

/-- Every stored occurrence count is a positive 64-bit number. -/
def CountsOK (d : dictionary) : Prop :=
  ∀ v, d.Holds v → 1 ≤ v.num ∧ v.num < SIZE_MOD

/-- The tokens of the end-to-end scenario, each inserted with count 1. -/
def demoTokens : List (List Char × ℕ) :=
  ["the", "quick", "the", "fox", "the", "quick"].map fun s => (s.toList, 1)

/-- The effect of one call of the private insert on the counters and the pointer set. -/
def InsKeeps (ins : dictionary → ℕ → Run (dictionary × ℕ)) : Prop :=
  ∀ d W r, ins d W = Run.ok r →
    r.1.store = d.store ∧ r.1.size = d.size ∧ d.capacity ≤ r.1.capacity ∧
      (∀ p ∈ r.1.ptrs, p ∈ d.ptrs ∨ p = W)

/-- The address `p` points to a live object. -/
def isLive (store : List (Option word)) (p : ℕ) : Bool :=
  match store[p]? with
  | some (some _) => true
  | _ => false

/-- What holds of the counters of any table, well formed or not: `size` is at least
the number of different live objects the slots point to, and the table is at most one
word over 75% full. -/
def LoadInv (d : dictionary) : Prop :=
  (∃ L : List ℕ, L.Nodup ∧ (∀ p ∈ L, p < d.store.length) ∧
    (∀ p ∈ d.ptrs, isLive d.store p = true → p ∈ L) ∧ L.length ≤ d.size) ∧
  4 * d.size ≤ 3 * d.capacity + 4

/-- A public call: `insert( w, n )` or `remove( w, n )`. -/
inductive Call where
  | insert (w : List Char) (n : ℕ)
  | remove (w : List Char) (n : ℕ)

/-- A sequence of public `insert` and `remove` calls, each `insert` run with recursion
budget `f`. -/
def dictionary.runCalls (f : ℕ) : dictionary → List Call → Run dictionary
  | d, [] => Run.ok d
  | d, Call.insert w n :: rest =>
    (dictionary.insert f d w n).bind fun r => dictionary.runCalls f r.1 rest
  | d, Call.remove w n :: rest =>
    (dictionary.remove d w n).bind fun r => dictionary.runCalls f r.1 rest

/-- The calls of the load-factor scenario: four inserts, then one removal. -/
def loadCalls : List Call :=
  [Call.insert "a".toList 1, Call.insert "b".toList 1, Call.insert "c".toList 1,
   Call.insert "d".toList 1, Call.remove "d".toList (SIZE_MOD - 1)]

/-- The table `loadCalls` leaves behind when run on `dictionary(4)`. -/
def loadCallsResult : dictionary :=
  dictionary.mk 4 3 [some 0, some 1, some 2, some 3, none]
    [some ⟨dictionary.hash "a".toList, 1, "a".toList⟩,
     some ⟨dictionary.hash "b".toList, 1, "b".toList⟩,
     some ⟨dictionary.hash "c".toList, 1, "c".toList⟩,
     none]

/-! ## The hash formulas of the documentation -/

/-- The digit of a character: 0 for an apostrophe, 1..26 for `a`..`z`. -/
def letterDigit (c : Char) : ℤ := if c = APOSTROPHE then 0 else (c.toNat : ℤ) - 96

/-- The digit `d_i` of the `i`-th character of `w`, positions counted from 1. -/
def digitAt (w : List Char) (i : ℕ) : ℤ := letterDigit (w.getD (i - 1) (Char.ofNat 0))

/-- The formula in the doc comment of `dictionary::hash` in `dictionary.h`:
`(c_1 - 'a') / 27` plus the sum over `i = 2..L` of `d_i / 28^i`. -/
def docHash (w : List Char) : ℚ :=
  ((charAt w 0 - 97 : ℤ) : ℚ) / 27 +
    ((List.range' 2 (w.length - 1)).map fun i => (digitAt w i : ℚ) / 28 ^ i).sum

/-- The hash as section 4.1 of the specification words it: the sum over
`i = 1..L` of `d_i / 27^i`, the first digit reduced by one. -/
def specHash27 (w : List Char) : ℚ :=
  ((List.range' 1 w.length).map fun i =>
    (((if i = 1 then digitAt w i - 1 else digitAt w i) : ℤ) : ℚ) / 27 ^ i).sum

/-- The base-27 fraction with the base the code uses at each position: 27 at the
first position, 28 from the second position on; the first digit is reduced by one. -/
def mixedHash (w : List Char) : ℚ :=
  ((List.range' 1 w.length).map fun i =>
    (((if i = 1 then digitAt w i - 1 else digitAt w i) : ℤ) : ℚ) /
      (if i = 1 then 27 else 28) ^ i).sum

/-! ## The report -/

/-- The records of the table in slot order: the objects the non-null slots point to. -/
def dictionary.words (d : dictionary) : List word :=
  d.ptrs.filterMap fun p => d.store.getD p none

/-- One frequency level as `print` writes it: the number of occurrences `i + 1`, the
string `ranks`, the value `avg`, the words of the level in the order printed, and the
three numbers of the CSV row.  Column widths and the precision of the text output are
not part of the model. -/
structure FreqGroup where
  freq : ℕ
  ranks : String
  avg : ℚ
  words : List (List Char)
  csv : ℚ × ℕ × ℚ
deriving DecidableEq

/-- Conversion of a `size_t` value to `int` (32 bits, two's complement). -/
def sizeToInt (n : ℕ) : ℤ :=
  if n % 2 ^ 32 < 2 ^ 31 then ((n % 2 ^ 32 : ℕ) : ℤ) else ((n % 2 ^ 32 : ℕ) : ℤ) - 2 ^ 32

/-- The first loop of `print` over the slot indices given: a word with `num`
occurrences is appended to `frequency[num - 1]`, the vector being resized to `num`
entries first when it is shorter. -/
def dictionary.printFill (d : dictionary) :
    List ℕ → List (List (List Char)) → Run (List (List (List Char)))
  | [], frequency => Run.ok frequency
  | i :: rest, frequency =>
    (d.slot i).bind fun s =>
    match s with
    | none => d.printFill rest frequency
    | some p =>
      (d.deref p).bind fun w =>
      let fr := if w.num > frequency.length
        then frequency ++ List.replicate (w.num - frequency.length) [] else frequency
      let k := (w.num + SIZE_MOD - 1) % SIZE_MOD
      if k < fr.length then d.printFill rest (fr.set k (fr.getD k [] ++ [w.str]))
      else Run.ub

/-- The second loop of `print`, `for ( int i = .. ; i >= 0; --i )`, with `n = i + 1`
iterations left and `printed` words printed so far.  The rational `avg` stands for the
`double` of the source. -/
def printEmit (frequency : List (List (List Char))) : ℕ → ℕ → Run (List FreqGroup)
  | 0, _ => Run.ok []
  | i + 1, printed =>
    match frequency[i]? with
    | none => Run.ub
    | some b =>
      if b ≠ [] then
        if i + 1 < 2 ^ 31 then
          let avg0 : ℚ := ((printed + 1 : ℕ) : ℚ)
          let ranks := if b.length > 1
            then toString (printed + 1) ++ "-" ++ toString (printed + b.length)
            else toString (printed + 1)
          let printed1 := if b.length > 1 then printed + b.length else printed + 1
          let avg := avg0 + ((printed1 : ℚ) - avg0) / 2
          (printEmit frequency i printed1).bind fun gs =>
          Run.ok (⟨i + 1, ranks, avg, b, (avg, i + 1, avg * ((i + 1 : ℕ) : ℚ))⟩ :: gs)
        else Run.ub
      else printEmit frequency i printed

/-- The function `dictionary::print`: the frequency levels written, highest first. -/
def dictionary.print (d : dictionary) : Run (List FreqGroup) :=
  (d.printFill (List.range d.capacity) []).bind fun frequency =>
  printEmit frequency
    (sizeToInt ((frequency.length + SIZE_MOD - 1) % SIZE_MOD) + 1).toNat 0

/-- The number of words in the levels before level `j`. -/
def rankBase (gs : List FreqGroup) (j : ℕ) : ℕ :=
  ((gs.take j).map fun g => g.words.length).sum

/-- The `frequency` vector holds the words `ws`: entry `k` lists the texts of the
words with `k + 1` occurrences in the order of `ws`, and the vector is as long as the
largest number of occurrences. -/
def Buckets (frequency : List (List (List Char))) (ws : List word) : Prop :=
  (∀ k, frequency.getD k [] = (ws.filter fun v => decide (v.num = k + 1)).map word.str) ∧
  (∀ v ∈ ws, v.num ≤ frequency.length) ∧
  (∀ B, (∀ v ∈ ws, v.num ≤ B) → frequency.length ≤ B)

/-- The calls of the rank scenario: `the` 5 times, `a` 5 times, `quick` 3 times. -/
def rankOps : List (List Char × ℕ) :=
  [("the".toList, 5), ("a".toList, 5), ("quick".toList, 3)]

/-- The table that `rankOps` builds from a dictionary of capacity 1. -/
def rankTable : dictionary :=
  dictionary.mk 4 3 [some 1, none, some 2, some 0, none]
    [some ⟨dictionary.hash "the".toList, 5, "the".toList⟩,
     some ⟨dictionary.hash "a".toList, 5, "a".toList⟩,
     some ⟨dictionary.hash "quick".toList, 3, "quick".toList⟩]

/-- Two calls, the first with a count above `2^32`. -/
def bigOps : List (List Char × ℕ) := [("a".toList, 2 ^ 32 + 1), ("b".toList, 1)]

/-- The table that `bigOps` builds from a dictionary of capacity 1. -/
def bigTable : dictionary :=
  dictionary.mk 2 2 [some 0, some 1, none]
    [some ⟨dictionary.hash "a".toList, 2 ^ 32 + 1, "a".toList⟩,
     some ⟨dictionary.hash "b".toList, 1, "b".toList⟩]

/-! ## The probe in the words of the specification -/

/-- The test of the probe as the specification states it: the occupant is stepped
over when `occupant.hash < h`, or `occupant.hash == h` and `occupant.text < w`. -/
def passSpec (H : ℚ) (str : List Char) (w : word) : Bool :=
  decide (w.hash < H) || (decide (w.hash = H) && strLt w.str str)

/-- The probe as the specification states it: one scan from `floor(h x capacity)`
while the slot is occupied and the occupant passes `passSpec`. -/
def dictionary.specLocate (d : dictionary) (H : ℚ) (str : List Char) : Run ℕ :=
  scanP d.cell (passSpec H str) (d.list.length + 1 - d.index H) (d.index H)

/-- The table that holds `aaaaaaaaab` once, at capacity 1. -/
def stemTable : dictionary :=
  dictionary.mk 1 1 [some 0, none]
    [some ⟨dictionary.hash "aaaaaaaaab".toList, 1, "aaaaaaaaab".toList⟩]

/-- The digits of a string read as a fraction in base 28: `d_1/28 + d_2/28^2 + ..`,
with digit 0 for an apostrophe and 1..26 for the letters. -/
def frac28 : List Char → ℚ
  | [] => 0
  | c :: cs => ((letterDigit c : ℚ) + frac28 cs) / 28

/-! ## Slot accesses -/

/-- What every public call relies on: positive capacity, `capacity + 1` slots, an empty
sentinel slot, and a hash below `25/26` in every live object of the free store. -/
def Bounded (d : dictionary) : Prop :=
  1 ≤ d.capacity ∧ d.list.length = d.capacity + 1 ∧ d.list[d.capacity]? = some none ∧
  ∀ (p : ℕ) (w : word), d.store[p]? = some (some w) → w.hash * 26 < 25

/-- The computation `x` accesses no slot outside the array, and a value it returns
satisfies `P`. -/
def Safe {α : Type} (x : Run α) (P : α → Prop) : Prop :=
  x ≠ Run.oob ∧ ∀ a, x = Run.ok a → P a

/-- The word a public call is about. -/
def Call.word : Call → List Char
  | Call.insert w _ => w
  | Call.remove w _ => w

/-- The calls of the use-after-free scenario: `insert("the")`, `remove("the")`,
`insert("the")`. -/
def reuseCalls : List Call :=
  [Call.insert "the".toList 1, Call.remove "the".toList 1, Call.insert "the".toList 1]

/-! ## Words with a negative hash in the table -/

/-- A normalized word with apostrophes at characters 11 and 12: its hash is
`-57 / 28^12`, a negative number. -/
def wordNeg : List Char := "a'''''''''''b".toList

/-- The word `eaaaaaaaaa` followed by two apostrophes and `x`: its hash is the hash of
`eaaaaaaaaa` minus `57 / 28^12`. -/
def wordTail : List Char := "eaaaaaaaaa''x".toList

/-- The word `eaaaaaaaaa`. -/
def wordStem : List Char := "eaaaaaaaaa".toList

/-- The calls `ops`, run in order from `d` with recursion budget `f`, are calls that
the definition of `Reachable` admits: every word is normalized, every count is at least
1, the count that `find` reports before a call plus the count inserted stays below
`2^64`, and every call returns. -/
def dictionary.admits (f : ℕ) : dictionary → List (List Char × ℕ) → Bool
  | _, [] => true
  | d, op :: rest =>
    normalized op.1 && decide (1 ≤ op.2) &&
    (match d.find op.1 with
     | Run.ok c => decide (c + op.2 < SIZE_MOD)
     | _ => false) &&
    (match dictionary.insert f d op.1 op.2 with
     | Run.ok r => dictionary.admits f r.1 rest
     | _ => false)

/-- Four inserts into a dictionary of capacity 8: `wordNeg`, `wordTail`, `wordStem`
and `a`, once each. -/
def lostOps : List (List Char × ℕ) :=
  [(wordNeg, 1), (wordTail, 1), (wordStem, 1), ("a".toList, 1)]

/-- The table that `lostOps` builds from a dictionary of capacity 8: `a` in slot 0,
`wordNeg` in slot 1, `wordTail` in slot 2 and `wordStem` in slot 3. -/
def lostTable : dictionary :=
  dictionary.mk 8 4 [some 3, some 0, some 1, some 2, none, none, none, none, none]
    [some ⟨dictionary.hash wordNeg, 1, wordNeg⟩,
     some ⟨dictionary.hash wordTail, 1, wordTail⟩,
     some ⟨dictionary.hash wordStem, 1, wordStem⟩,
     some ⟨dictionary.hash "a".toList, 1, "a".toList⟩]

/-- The table after one more `insert(wordStem)` on `lostTable`: a second record of
`wordStem` in slot 2, before `wordTail`, and the first one in slot 4. -/
def twiceTable : dictionary :=
  dictionary.mk 8 5 [some 3, some 0, some 4, some 1, some 2, none, none, none, none]
    [some ⟨dictionary.hash wordNeg, 1, wordNeg⟩,
     some ⟨dictionary.hash wordTail, 1, wordTail⟩,
     some ⟨dictionary.hash wordStem, 1, wordStem⟩,
     some ⟨dictionary.hash "a".toList, 1, "a".toList⟩,
     some ⟨dictionary.hash wordStem, 1, wordStem⟩]

/-- Eleven inserts into a dictionary of capacity 8: `wordNeg`, `wordTail`, five times
`wordStem`, then `a`, `wordStem`, `p` and `s`. -/
def dupOps : List (List Char × ℕ) :=
  [(wordNeg, 1), (wordTail, 1), (wordStem, 1), (wordStem, 1), (wordStem, 1), (wordStem, 1),
   (wordStem, 1), ("a".toList, 1), (wordStem, 1), ("p".toList, 1), ("s".toList, 1)]

/-- The table that `dupOps` builds from a dictionary of capacity 8: `wordStem` is
stored twice, with count 1 in slot 2 and with count 5 in slot 4. -/
def dupTable : dictionary :=
  dictionary.mk 8 7 [some 3, some 0, some 4, some 1, some 2, some 5, some 6, none, none]
    [some ⟨dictionary.hash wordNeg, 1, wordNeg⟩,
     some ⟨dictionary.hash wordTail, 1, wordTail⟩,
     some ⟨dictionary.hash wordStem, 5, wordStem⟩,
     some ⟨dictionary.hash "a".toList, 1, "a".toList⟩,
     some ⟨dictionary.hash wordStem, 1, wordStem⟩,
     some ⟨dictionary.hash "p".toList, 1, "p".toList⟩,
     some ⟨dictionary.hash "s".toList, 1, "s".toList⟩]

/-- Eight inserts into a dictionary of capacity 8: `wordNeg`, `wordTail`, `wordStem`
with count `2^64 - 1`, then `a`, `wordStem`, `p`, `s` and `wordStem` once each. -/
def wrapOps : List (List Char × ℕ) :=
  [(wordNeg, 1), (wordTail, 1), (wordStem, SIZE_MOD - 1), ("a".toList, 1), (wordStem, 1),
   ("p".toList, 1), ("s".toList, 1), (wordStem, 1)]

/-- The table that `wrapOps` builds from a dictionary of capacity 8: the last call
doubled the capacity and added 1 to the record of `wordStem` that held `2^64 - 1`. -/
def wrapTable : dictionary :=
  dictionary.mk 16 7
    [some 3, some 0, some 2, some 4, some 1, none, none, none, some 5, none, some 6, none,
     none, none, none, none, none]
    [some ⟨dictionary.hash wordNeg, 1, wordNeg⟩,
     some ⟨dictionary.hash wordTail, 1, wordTail⟩,
     some ⟨dictionary.hash wordStem, 0, wordStem⟩,
     some ⟨dictionary.hash "a".toList, 1, "a".toList⟩,
     some ⟨dictionary.hash wordStem, 1, wordStem⟩,
     some ⟨dictionary.hash "p".toList, 1, "p".toList⟩,
     some ⟨dictionary.hash "s".toList, 1, "s".toList⟩]

/-- The table after `insert("the", 0)` on a dictionary of capacity 1. -/
def zeroTable : dictionary :=
  dictionary.mk 1 1 [some 0, none] [some ⟨dictionary.hash "the".toList, 0, "the".toList⟩]

/-! ## Elementary facts about `Run` -/

@[simp] theorem Run.bind_ok {α β : Type} (a : α) (f : α → Run β) :
    (Run.ok a).bind f = f a := rfl

@[simp] theorem Run.bind_ub {α β : Type} (f : α → Run β) :
    (Run.ub : Run α).bind f = Run.ub := rfl

@[simp] theorem Run.bind_fuel {α β : Type} (f : α → Run β) :
    (Run.fuel : Run α).bind f = Run.fuel := rfl

theorem Run.bind_eq_ok {α β : Type} {x : Run α} {f : α → Run β} {b : β} :
    x.bind f = Run.ok b ↔ ∃ a, x = Run.ok a ∧ f a = Run.ok b := by
  cases x <;> simp [Run.bind]

/-! ## The empty string -/

/-- Claim C8: for every dictionary state, every count and every recursion budget,
`insert("", n)`, `find("")` and `remove("", n)` return 0 and leave the whole
dictionary (slots, size, capacity, free store) unchanged; no resize is attempted. -/
theorem empty_string_noop (f : ℕ) (d : dictionary) (n : ℕ) :
    dictionary.insert f d [] n = Run.ok (d, 0) ∧
    dictionary.find d [] = Run.ok 0 ∧
    dictionary.remove d [] n = Run.ok (d, 0) := by
  refine ⟨?_, ?_, ?_⟩
  · cases f <;> simp [dictionary.insert]
  · simp [dictionary.find]
  · simp [dictionary.remove]

/-! ## The scan loops -/

theorem scanHash_eq_scanP (d : dictionary) (H : ℚ) (n loc q : ℕ) :
    d.scanHash H n loc = Run.ok q ↔ scanP d.cell (passB H) n loc = Run.ok q := by
  induction n generalizing loc with
  | zero => simp [dictionary.scanHash, scanP]
  | succ n ih =>
    simp only [dictionary.scanHash, scanP, dictionary.cell, dictionary.slot, dictionary.deref]
    cases h1 : d.list[loc]? with
    | none => simp [Run.bind]
    | some s =>
      cases s with
      | none => rfl
      | some p =>
        simp only [Run.bind_ok]
        cases h2 : d.store[p]? with
        | none => simp [Run.bind]
        | some o =>
          cases o with
          | none => simp [Run.bind]
          | some w =>
            simp only [passB, Run.bind_ok]
            split
            · exact ih (loc + 1)
            · exact Iff.rfl

theorem scanStr_eq_scanP (d : dictionary) (str : List Char) (n loc q : ℕ) :
    d.scanStr str n loc = Run.ok q ↔ scanP d.cell (passS str) n loc = Run.ok q := by
  induction n generalizing loc with
  | zero => simp [dictionary.scanStr, scanP]
  | succ n ih =>
    simp only [dictionary.scanStr, scanP, dictionary.cell, dictionary.slot, dictionary.deref]
    cases h1 : d.list[loc]? with
    | none => simp [Run.bind]
    | some s =>
      cases s with
      | none => rfl
      | some p =>
        simp only [Run.bind_ok]
        cases h2 : d.store[p]? with
        | none => simp [Run.bind]
        | some o =>
          cases o with
          | none => simp [Run.bind]
          | some w =>
            simp only [passS, Run.bind_ok]
            split
            · exact ih (loc + 1)
            · exact Iff.rfl

theorem scanP_sound (T : ℕ → Option (Option word)) (pass : word → Bool) (n loc q : ℕ)
    (h : scanP T pass n loc = Run.ok q) : Scan T pass loc q := by
  induction n generalizing loc with
  | zero => simp [scanP] at h
  | succ n ih =>
    unfold scanP at h
    cases hT : T loc with
    | none => simp [hT] at h
    | some o =>
      cases o with
      | none =>
        simp only [hT, Run.ok.injEq] at h
        subst h
        exact ⟨le_refl _, fun k h1 h2 => absurd h1 (by omega), Or.inl hT⟩
      | some w =>
        simp only [hT] at h
        by_cases hp : pass w = true
        · simp only [hp, if_true] at h
          obtain ⟨h1, h2, h3⟩ := ih _ h
          refine ⟨by omega, fun k hk1 hk2 => ?_, h3⟩
          by_cases hk : k = loc
          · subst hk; exact ⟨w, hT, hp⟩
          · exact h2 k (by omega) hk2
        · simp only [hp] at h
          simp only [Bool.false_eq_true, if_false, Run.ok.injEq] at h
          subst h
          exact ⟨le_refl _, fun k h1 h2 => absurd h1 (by omega),
            Or.inr ⟨w, hT, by simpa using hp⟩⟩

theorem scanP_complete (T : ℕ → Option (Option word)) (pass : word → Bool) (n loc q : ℕ)
    (h : Scan T pass loc q) (hn : q < loc + n) : scanP T pass n loc = Run.ok q := by
  induction n generalizing loc with
  | zero => obtain ⟨h1, _, _⟩ := h; omega
  | succ n ih =>
    obtain ⟨h1, h2, h3⟩ := h
    unfold scanP
    by_cases hq : loc = q
    · subst hq
      rcases h3 with h3 | ⟨w, h3, h4⟩
      · simp [h3]
      · simp [h3, h4]
    · obtain ⟨w, hw, hp⟩ := h2 loc (le_refl _) (by omega)
      simp only [hw, hp, if_true]
      exact ih (loc + 1) ⟨by omega, fun k hk1 hk2 => h2 k (by omega) hk2, h3⟩ (by omega)

theorem Scan.unique {T : ℕ → Option (Option word)} {pass : word → Bool} {loc q q' : ℕ}
    (h : Scan T pass loc q) (h' : Scan T pass loc q') : q = q' := by
  have e1 := scanP_complete T pass (q + q' + 1) loc q h (by omega)
  have e2 := scanP_complete T pass (q + q' + 1) loc q' h' (by omega)
  rw [e1] at e2
  exact Run.ok.inj e2

theorem Loc.stop_eq {T : ℕ → Option (Option word)} {i : ℕ} {H : ℚ} {str : List Char} {q q' : ℕ}
    (h : Loc T i H str q) (h' : Loc T i H str q') : q = q' := by
  obtain ⟨k, hk1, hk2⟩ := h
  obtain ⟨k', hk1', hk2'⟩ := h'
  have := hk1.unique hk1'
  subst this
  exact hk2.unique hk2'

theorem Scan.congr {T T' : ℕ → Option (Option word)} {pass : word → Bool} {loc q : ℕ}
    (h : Scan T pass loc q) (hT : ∀ k, loc ≤ k → k ≤ q → T' k = T k) : Scan T' pass loc q := by
  obtain ⟨h1, h2, h3⟩ := h
  refine ⟨h1, fun k hk1 hk2 => ?_, ?_⟩
  · rw [hT k hk1 (by omega)]; exact h2 k hk1 hk2
  · rw [hT q h1 (le_refl _)]; exact h3

theorem cell_lt_length {d : dictionary} {k : ℕ} {o : Option word} (h : d.cell k = some o) :
    k < d.list.length := by
  by_contra hk
  have : d.list[k]? = none := List.getElem?_eq_none (by omega)
  simp [dictionary.cell, this] at h

theorem locate_eq_ok_iffB (d : dictionary) (H : ℚ) (str : List Char) (q : ℕ) :
    d.locate H str = Run.ok q ↔ LocB d.cell (d.index H) H str q := by
  unfold dictionary.locate LocB
  rw [Run.bind_eq_ok]
  constructor
  · rintro ⟨k1, h1, h2⟩
    rw [scanHash_eq_scanP] at h1
    rw [scanStr_eq_scanP] at h2
    exact ⟨k1, scanP_sound _ _ _ _ _ h1, scanP_sound _ _ _ _ _ h2⟩
  · rintro ⟨k1, h1, h2⟩
    have hq : q < d.list.length := by
      rcases h2.2.2 with h | ⟨w, h, _⟩ <;> exact cell_lt_length h
    have hk1 : k1 < d.list.length := by
      rcases h1.2.2 with h | ⟨w, h, _⟩ <;> exact cell_lt_length h
    refine ⟨k1, ?_, ?_⟩
    · rw [scanHash_eq_scanP]
      exact scanP_complete _ _ _ _ _ h1 (by have := h1.1; omega)
    · rw [scanStr_eq_scanP]
      exact scanP_complete _ _ _ _ _ h2 (by have := h2.1; omega)

theorem binLt_eq_lt {a b : ℚ} (ha : 0 ≤ a) (hb : 0 ≤ b) : binLt a b = decide (a < b) := by
  simp [binLt, ha, hb]

theorem Scan.pass_congr {T : ℕ → Option (Option word)} {pass pass' : word → Bool} {loc q : ℕ}
    (h : Scan T pass loc q) (hp : ∀ k w, T k = some (some w) → pass w = pass' w) :
    Scan T pass' loc q := by
  obtain ⟨h1, h2, h3⟩ := h
  refine ⟨h1, fun k hk1 hk2 => ?_, ?_⟩
  · obtain ⟨w, hw, hpw⟩ := h2 k hk1 hk2
    exact ⟨w, hw, by rw [← hp k w hw]; exact hpw⟩
  · rcases h3 with h3 | ⟨w, hw, hpw⟩
    · exact Or.inl h3
    · exact Or.inr ⟨w, hw, by rw [← hp q w hw]; exact hpw⟩

/-- On a table of non-negative hashes, probed for a non-negative hash, the scan of the
code is the scan by numeric comparison. -/
theorem locate_eq_ok_iff (d : dictionary) (H : ℚ) (str : List Char) (q : ℕ)
    (hH0 : 0 ≤ H) (hT : ∀ k w, d.cell k = some (some w) → 0 ≤ w.hash) :
    d.locate H str = Run.ok q ↔ Loc d.cell (d.index H) H str q := by
  rw [locate_eq_ok_iffB]
  constructor
  · rintro ⟨k1, h1, h2⟩
    exact ⟨k1, h1.pass_congr (fun k w hw => by
      simp only [passB, passH]; exact binLt_eq_lt (hT k w hw) hH0), h2⟩
  · rintro ⟨k1, h1, h2⟩
    exact ⟨k1, h1.pass_congr (fun k w hw => by
      simp only [passB, passH]; exact (binLt_eq_lt (hT k w hw) hH0).symm), h2⟩

/-! ## The string order and the start index -/

theorem strLt_irrefl (a : List Char) : strLt a a = false := by
  induction a with
  | nil => rfl
  | cons c cs ih => simp [strLt, ih]

theorem strLt_trans {a b c : List Char} (h1 : strLt a b = true) (h2 : strLt b c = true) :
    strLt a c = true := by
  induction a generalizing b c with
  | nil =>
    cases b with
    | nil => simp [strLt] at h1
    | cons y ys =>
      cases c with
      | nil => simp [strLt] at h2
      | cons z zs => simp [strLt]
  | cons x xs ih =>
    cases b with
    | nil => simp [strLt] at h1
    | cons y ys =>
      cases c with
      | nil => simp [strLt] at h2
      | cons z zs =>
        simp only [strLt] at h1 h2 ⊢
        by_cases hxy : x < y
        · by_cases hyz : y < z
          · simp [lt_trans hxy hyz]
          · simp only [hyz, if_false] at h2
            by_cases hzy : z < y
            · simp [hzy] at h2
            · have : y = z := le_antisymm (not_lt.mp hzy) (not_lt.mp hyz)
              subst this
              simp [hxy]
        · simp only [hxy, if_false] at h1
          by_cases hyx : y < x
          · simp [hyx] at h1
          · simp only [hyx, if_false] at h1
            have : x = y := le_antisymm (not_lt.mp hyx) (not_lt.mp hxy)
            subst this
            by_cases hxz : x < z
            · simp [hxz]
            · simp only [hxz, if_false] at h2 ⊢
              by_cases hzx : z < x
              · simp [hzx] at h2
              · simp only [hzx, if_false] at h2 ⊢
                exact ih h1 h2

theorem strLt_total {a b : List Char} (h1 : strLt a b = false) (h2 : a ≠ b) :
    strLt b a = true := by
  induction a generalizing b with
  | nil =>
    cases b with
    | nil => exact absurd rfl h2
    | cons y ys => simp [strLt] at h1
  | cons x xs ih =>
    cases b with
    | nil => simp [strLt]
    | cons y ys =>
      simp only [strLt] at h1 ⊢
      by_cases hxy : x < y
      · simp [hxy] at h1
      · simp only [hxy, if_false] at h1
        by_cases hyx : y < x
        · simp [hyx]
        · simp only [hyx, if_false] at h1 ⊢
          have : x = y := le_antisymm (not_lt.mp hyx) (not_lt.mp hxy)
          subst this
          simp only [lt_self_iff_false, if_false]
          exact ih h1 (fun h => h2 (by rw [h]))

theorem slotIndex_mono (cap : ℕ) {H1 H2 : ℚ} (h : H1 ≤ H2) :
    slotIndex cap H1 ≤ slotIndex cap H2 := by
  unfold slotIndex
  apply Int.toNat_le_toNat
  apply Int.floor_le_floor
  exact mul_le_mul_of_nonneg_right h (by positivity)

theorem lt_of_slotIndex_lt {cap : ℕ} {H1 H2 : ℚ} (h : slotIndex cap H1 < slotIndex cap H2) :
    H1 < H2 := by
  by_contra hc
  have := slotIndex_mono cap (not_lt.mp hc)
  omega

/-! ## Inserting into the ordered run keeps every word reachable

From here to the public insert the first scan loop is read as a comparison of
numbers (`passH`, `Loc`); `locate_eq_ok_iff` ties this reading to the code for tables
and probes without a negative hash. -/

theorem Scan.shift {T T' : ℕ → Option (Option word)} {pass : word → Bool} {a b : ℕ}
    (h : Scan T pass a b) (hT : ∀ k, a ≤ k → k ≤ b → T' (k + 1) = T k) :
    Scan T' pass (a + 1) (b + 1) := by
  obtain ⟨h1, h2, h3⟩ := h
  refine ⟨by omega, fun k hk1 hk2 => ?_, ?_⟩
  · obtain ⟨k0, rfl⟩ : ∃ k0, k = k0 + 1 := ⟨k - 1, by omega⟩
    rw [hT k0 (by omega) (by omega)]
    exact h2 k0 (by omega) (by omega)
  · rw [hT b h1 (le_refl _)]; exact h3

theorem SF.index_le {cap : ℕ} {T : ℕ → Option (Option word)} (h : SF cap T) {j : ℕ} {w : word}
    (hj : T j = some (some w)) : slotIndex cap w.hash ≤ j := by
  obtain ⟨k1, s1, s2⟩ := h j w hj
  have := s1.1
  have := s2.1
  omega

theorem SF_insert {cap : ℕ} {T T' : ℕ → Option (Option word)} {X : word} {q e : ℕ}
    (hSF : SF cap T)
    (hX : Loc T (slotIndex cap X.hash) X.hash X.str q)
    (hqe : q ≤ e)
    (hocc : ∀ k, q ≤ k → k < e → ∃ w, T k = some (some w))
    (he : T e = some none)
    (hnew : ∀ j w, T j = some (some w) → w.str ≠ X.str)
    (hq : T' q = some (some X))
    (hmid : ∀ k, q ≤ k → k < e → T' (k + 1) = T k)
    (hout : ∀ k, (k < q ∨ e < k) → T' k = T k) : SF cap T' := by
  have hmid' : ∀ k, q < k → k ≤ e → T' k = T (k - 1) := by
    intro k h1 h2
    have := hmid (k - 1) (by omega) (by omega)
    rwa [Nat.sub_add_cancel (by omega)] at this
  intro j w hj
  rcases lt_trichotomy j q with hjq | hjq | hjq
  · -- a word before the insertion point
    rw [hout j (Or.inl hjq)] at hj
    obtain ⟨k1, s1, s2⟩ := hSF j w hj
    have := s2.1
    exact ⟨k1, s1.congr (fun k _ hk => hout k (Or.inl (by omega))),
      s2.congr (fun k _ hk => hout k (Or.inl (by omega)))⟩
  · -- the inserted word itself
    subst hjq
    rw [hq] at hj
    obtain rfl : X = w := by simpa using hj
    obtain ⟨kx, x1, x2⟩ := hX
    refine ⟨kx, ?_, ?_⟩
    · rcases Nat.lt_or_ge kx j with hk | hk
      · exact x1.congr (fun k _ hk' => hout k (Or.inl (by omega)))
      · have hkj : kx = j := le_antisymm x2.1 hk
        subst hkj
        refine ⟨x1.1, fun k hk1 hk2 => ?_, Or.inr ⟨X, hq, by simp [passH]⟩⟩
        rw [hout k (Or.inl hk2)]; exact x1.2.1 k hk1 hk2
    · refine ⟨x2.1, fun k hk1 hk2 => ?_, Or.inr ⟨X, hq, by simp [passS, strLt_irrefl]⟩⟩
      rw [hout k (Or.inl hk2)]; exact x2.2.1 k hk1 hk2
  · rcases Nat.lt_or_ge e j with hje | hje
    · -- a word after the first empty slot
      rw [hout j (Or.inr hje)] at hj
      obtain ⟨k1, s1, s2⟩ := hSF j w hj
      have hi : e < slotIndex cap w.hash := by
        by_contra hc
        rcases Nat.lt_or_ge e k1 with h | h
        · obtain ⟨w', hw', _⟩ := s1.2.1 e (by omega) h
          rw [he] at hw'; simp at hw'
        · obtain ⟨w', hw', _⟩ := s2.2.1 e h hje
          rw [he] at hw'; simp at hw'
      have := s1.1
      exact ⟨k1, s1.congr (fun k hk _ => hout k (Or.inr (by omega))),
        s2.congr (fun k hk _ => hout k (Or.inr (by omega)))⟩
    · -- a word that was moved one slot forward
      obtain ⟨j0, rfl⟩ : ∃ j0, j = j0 + 1 := ⟨j - 1, by omega⟩
      have hj0 : T j0 = some (some w) := by rw [← hmid j0 (by omega) (by omega)]; exact hj
      obtain ⟨k1, s1, s2⟩ := hSF j0 w hj0
      obtain ⟨kx, x1, x2⟩ := hX
      obtain ⟨Z, hZ⟩ := hocc q (le_refl _) (by omega)
      have h1le := s1.1
      have h2le := s2.1
      have hx1le := x1.1
      have hx2le := x2.1
      have hXZ : strLt X.str Z.str = true := by
        rcases x2.2.2 with h | ⟨w', h, hp⟩
        · rw [hZ] at h; simp at h
        · rw [hZ] at h
          obtain rfl : Z = w' := by simpa using h
          exact strLt_total (by simpa [passS] using hp) (hnew q Z hZ)
      have hXw : k1 ≤ q → strLt X.str w.str = true := by
        intro hk
        rcases Nat.lt_or_ge q j0 with h | h
        · obtain ⟨w', hw', hp⟩ := s2.2.1 q hk h
          rw [hZ] at hw'
          obtain rfl : Z = w' := by simpa using hw'
          exact strLt_trans hXZ (by simpa [passS] using hp)
        · have : q = j0 := by omega
          subst this
          rw [hZ] at hj0
          obtain rfl : Z = w := by simpa using hj0
          exact hXZ
      rcases Nat.lt_or_ge q (slotIndex cap w.hash) with hi | hi
      · -- the scan of `w` starts after the insertion point
        obtain ⟨r', hr'⟩ := hocc (slotIndex cap w.hash - 1) (by omega) (by omega)
        have hr'lt : r'.hash < w.hash := by
          apply @lt_of_slotIndex_lt cap
          have := hSF.index_le hr'
          omega
        refine ⟨k1 + 1, ⟨by omega, fun k hk1 hk2 => ?_, ?_⟩,
          s2.shift (fun k hk1 hk2 => hmid k (by omega) (by omega))⟩
        · rw [hmid' k (by omega) (by omega)]
          rcases Nat.lt_or_ge (slotIndex cap w.hash) k with hk | hk
          · exact s1.2.1 (k - 1) (by omega) (by omega)
          · have : k = slotIndex cap w.hash := by omega
            subst this
            exact ⟨r', hr', by simpa [passH] using hr'lt⟩
        · rw [hmid k1 (by omega) (by omega)]; exact s1.2.2
      · rcases Nat.lt_or_ge k1 q with hk1 | hk1
        · -- the first loop of `w` stops before the insertion point
          refine ⟨k1, s1.congr (fun k _ hk => hout k (Or.inl (by omega))),
            ⟨by omega, fun k hk1' hk2 => ?_, ?_⟩⟩
          · rcases lt_trichotomy k q with hk | hk | hk
            · rw [hout k (Or.inl hk)]; exact s2.2.1 k hk1' (by omega)
            · subst hk
              exact ⟨X, hq, by simpa [passS] using hXw (by omega)⟩
            · rw [hmid' k hk (by omega)]
              exact s2.2.1 (k - 1) (by omega) (by omega)
          · rw [hmid j0 (by omega) (by omega)]; exact s2.2.2
        · by_cases hh : X.hash < w.hash
          · -- the new word is stepped over by the first loop
            refine ⟨k1 + 1, ⟨by omega, fun k hk1' hk2 => ?_, ?_⟩,
              s2.shift (fun k hk1 hk2 => hmid k (by omega) (by omega))⟩
            · rcases lt_trichotomy k q with hk | hk | hk
              · rw [hout k (Or.inl hk)]; exact s1.2.1 k hk1' (by omega)
              · subst hk
                exact ⟨X, hq, by simpa [passH] using hh⟩
              · rw [hmid' k hk (by omega)]
                exact s1.2.1 (k - 1) (by omega) (by omega)
            · rw [hmid k1 (by omega) (by omega)]; exact s1.2.2
          · -- the first loop of `w` now stops at the new word
            have hk1q : k1 = q := by
              by_contra hne
              obtain ⟨w', hw', hp⟩ := s1.2.1 q hi (by omega)
              rw [hZ] at hw'
              obtain rfl : Z = w' := by simpa using hw'
              have hZw : Z.hash < w.hash := by simpa [passH] using hp
              rcases Nat.lt_or_ge kx q with hkx | hkx
              · obtain ⟨K, hK, _⟩ := x2.2.1 kx (le_refl _) hkx
                have hKX : ¬ K.hash < X.hash := by
                  rcases x1.2.2 with h | ⟨w', h, hp'⟩
                  · rw [hK] at h; simp at h
                  · rw [hK] at h
                    obtain rfl : K = w' := by simpa using h
                    simpa [passH] using hp'
                have hKw : K.hash < w.hash := by
                  rcases Nat.lt_or_ge kx (slotIndex cap w.hash) with h | h
                  · apply @lt_of_slotIndex_lt cap
                    have := hSF.index_le hK
                    omega
                  · obtain ⟨w', hw', hp'⟩ := s1.2.1 kx h (by omega)
                    rw [hK] at hw'
                    obtain rfl : K = w' := by simpa using hw'
                    simpa [passH] using hp'
                exact hKX (lt_of_lt_of_le hKw (not_lt.mp hh))
              · have : kx = q := by omega
                subst this
                rcases x1.2.2 with h | ⟨w', h, hp'⟩
                · rw [hZ] at h; simp at h
                · rw [hZ] at h
                  obtain rfl : Z = w' := by simpa using h
                  have : ¬ Z.hash < X.hash := by simpa [passH] using hp'
                  exact this (lt_of_lt_of_le hZw (not_lt.mp hh))
            subst hk1q
            refine ⟨k1, ⟨s1.1, fun k hk1' hk2 => ?_, Or.inr ⟨X, hq, by simpa [passH] using hh⟩⟩,
              ⟨by omega, fun k hk1' hk2 => ?_, ?_⟩⟩
            · rw [hout k (Or.inl hk2)]; exact s1.2.1 k hk1' hk2
            · rcases Nat.lt_or_ge k1 k with hk | hk
              · rw [hmid' k hk (by omega)]
                exact s2.2.1 (k - 1) (by omega) (by omega)
              · have : k = k1 := by omega
                subst this
                exact ⟨X, hq, by simpa [passS] using hXw (le_refl _)⟩
            · rw [hmid j0 (by omega) (by omega)]; exact s2.2.2

/-! ## Pointers and cells -/

theorem PtrsOK.perm {store : List (Option word)} {L L' : List ℕ} (h : PtrsOK store L)
    (hp : L'.Perm L) : PtrsOK store L' := by
  obtain ⟨h1, h2, h3⟩ := h
  refine ⟨hp.nodup_iff.mpr h1, fun p hpm => h2 p (hp.mem_iff.mp hpm), ?_⟩
  intro p1 hp1 p2 hp2
  exact h3 p1 (hp.mem_iff.mp hp1) p2 (hp.mem_iff.mp hp2)

theorem mem_ptrs_iff (d : dictionary) (p : ℕ) :
    p ∈ d.ptrs ↔ ∃ k : ℕ, d.list[k]? = some (some p) := by
  unfold dictionary.ptrs
  rw [List.mem_filterMap]
  constructor
  · rintro ⟨a, ha, h⟩
    simp only [id] at h
    subst h
    obtain ⟨k, hk⟩ := List.mem_iff_getElem?.mp ha
    exact ⟨k, hk⟩
  · rintro ⟨k, hk⟩
    exact ⟨some p, List.mem_iff_getElem?.mpr ⟨k, hk⟩, rfl⟩

theorem cell_some_iff (d : dictionary) (k : ℕ) (w : word) :
    d.cell k = some (some w) ↔
      ∃ p, d.list[k]? = some (some p) ∧ d.store[p]? = some (some w) := by
  unfold dictionary.cell
  cases h1 : d.list[k]? with
  | none => simp
  | some s =>
    cases s with
    | none => simp
    | some p =>
      cases h2 : d.store[p]? with
      | none => simp [h2]
      | some o =>
        cases o with
        | none => simp [h2]
        | some w' => simp [h2]

theorem cell_none_iff (d : dictionary) (k : ℕ) :
    d.cell k = some none ↔ d.list[k]? = some none := by
  unfold dictionary.cell
  cases h1 : d.list[k]? with
  | none => simp
  | some s =>
    cases s with
    | none => simp
    | some p =>
      cases h2 : d.store[p]? with
      | none => simp [h2]
      | some o =>
        cases o with
        | none => simp [h2]
        | some w' => simp [h2]

theorem holds_iff_cell (d : dictionary) (w : word) :
    d.Holds w ↔ ∃ k, d.cell k = some (some w) := by
  unfold dictionary.Holds
  constructor
  · rintro ⟨p, hp, hw⟩
    obtain ⟨k, hk⟩ := (mem_ptrs_iff d p).mp hp
    exact ⟨k, (cell_some_iff d k w).mpr ⟨p, hk, hw⟩⟩
  · rintro ⟨k, hk⟩
    obtain ⟨p, hp, hw⟩ := (cell_some_iff d k w).mp hk
    exact ⟨p, (mem_ptrs_iff d p).mpr ⟨k, hp⟩, hw⟩

/-- Slots that are all occupied are counted by the pointer list. -/
theorem cell_nonneg {d : dictionary} {L : List ℕ} (hp : PtrsOK d.store L)
    (hsub : ∀ p ∈ d.ptrs, p ∈ L) (k : ℕ) (w : word) (hk : d.cell k = some (some w)) :
    0 ≤ w.hash := by
  obtain ⟨p, h1, h2⟩ := (cell_some_iff d k w).mp hk
  obtain ⟨v, hv, hok⟩ := hp.2.1 p (hsub p ((mem_ptrs_iff d p).mpr ⟨k, h1⟩))
  rw [h2] at hv
  cases hv
  exact hok.2.2

theorem occupied_le_length (l : List (Option ℕ)) (a b : ℕ)
    (h : ∀ k, a ≤ k → k < b → ∃ p, l[k]? = some (some p)) :
    b - a ≤ (l.filterMap id).length := by
  induction l generalizing a b with
  | nil =>
    by_contra hc
    obtain ⟨p, hp⟩ := h a (le_refl _) (by omega)
    simp at hp
  | cons x xs ih =>
    rcases Nat.eq_zero_or_pos b with hb | hb
    · omega
    · cases a with
      | zero =>
        obtain ⟨p, hp⟩ := h 0 (le_refl _) hb
        simp only [List.getElem?_cons_zero, Option.some.injEq] at hp
        subst hp
        have := ih 0 (b - 1) (fun k _ hk => by
          have := h (k + 1) (by omega) (by omega)
          simpa using this)
        simp only [List.filterMap_cons, id, List.length_cons]
        omega
      | succ a =>
        have := ih a (b - 1) (fun k hk1 hk2 => by
          have := h (k + 1) (by omega) (by omega)
          simpa using this)
        have hle : (xs.filterMap id).length ≤ ((x :: xs).filterMap id).length := by
          cases x <;> simp [List.filterMap_cons]
        omega

theorem filterMap_set_some_perm (l : List (Option ℕ)) (i p t : ℕ)
    (h : l[i]? = some (some p)) :
    (p :: (l.set i (some t)).filterMap id).Perm (t :: l.filterMap id) := by
  induction l generalizing i with
  | nil => simp at h
  | cons x xs ih =>
    cases i with
    | zero =>
      simp only [List.getElem?_cons_zero, Option.some.injEq] at h
      subst h
      simp only [List.set_cons_zero, List.filterMap_cons, id]
      exact List.Perm.swap _ _ _
    | succ i =>
      simp only [List.getElem?_cons_succ] at h
      have := ih i h
      cases x with
      | none => simpa [List.filterMap_cons] using this
      | some y =>
        simp only [List.set_cons_succ, List.filterMap_cons, id]
        exact ((List.Perm.swap _ _ _).trans (this.cons y)).trans (List.Perm.swap _ _ _)

theorem filterMap_set_none_perm (l : List (Option ℕ)) (i t : ℕ)
    (h : l[i]? = some none) :
    ((l.set i (some t)).filterMap id).Perm (t :: l.filterMap id) := by
  induction l generalizing i with
  | nil => simp at h
  | cons x xs ih =>
    cases i with
    | zero =>
      simp only [List.getElem?_cons_zero, Option.some.injEq] at h
      subst h
      simp [List.filterMap_cons]
    | succ i =>
      simp only [List.getElem?_cons_succ] at h
      have := ih i h
      cases x with
      | none => simpa [List.filterMap_cons] using this
      | some y =>
        simp only [List.set_cons_succ, List.filterMap_cons, id]
        exact (this.cons y).trans (List.Perm.swap _ _ _)

theorem cell_setSlot (d : dictionary) (i : ℕ) (s : Option ℕ) (k : ℕ) (hk : k ≠ i) :
    (d.setSlot i s).cell k = d.cell k := by
  unfold dictionary.cell dictionary.setSlot
  simp only
  rw [List.getElem?_set_ne (Ne.symm hk)]

theorem cell_setSlot_self (d : dictionary) (i W : ℕ) (w : word) (hi : i < d.list.length)
    (hW : d.store[W]? = some (some w)) :
    (d.setSlot i (some W)).cell i = some (some w) := by
  unfold dictionary.cell dictionary.setSlot
  simp only
  rw [List.getElem?_set_self hi]
  simp [hW]

theorem cell_congr {d d' : dictionary} {k k' : ℕ} (hs : d'.store = d.store)
    (hl : d'.list[k']? = d.list[k]?) : d'.cell k' = d.cell k := by
  unfold dictionary.cell
  rw [hs, hl]

theorem slotIndex_bound {cap : ℕ} {H : ℚ} (hc : 0 < cap) (hH : H * 26 < 25) :
    26 * slotIndex cap H < 25 * cap := by
  unfold slotIndex
  rcases le_or_lt (⌊H * (cap : ℚ)⌋) 0 with h | h
  · rw [Int.toNat_of_nonpos h]; omega
  · have h1 : ((⌊H * (cap : ℚ)⌋ : ℤ) : ℚ) ≤ H * cap := Int.floor_le _
    have hcq : (0 : ℚ) < cap := by exact_mod_cast hc
    have h2 : ((⌊H * (cap : ℚ)⌋ : ℤ) : ℚ) * 26 < 25 * cap := by
      calc ((⌊H * (cap : ℚ)⌋ : ℤ) : ℚ) * 26 ≤ H * cap * 26 := by
            apply mul_le_mul_of_nonneg_right h1 (by norm_num)
        _ = (H * 26) * cap := by ring
        _ < 25 * cap := by apply mul_lt_mul_of_pos_right hH hcq
    have h3 : (⌊H * (cap : ℚ)⌋ : ℤ) * 26 < 25 * (cap : ℤ) := by exact_mod_cast h2
    omega

theorem scan_exists (T : ℕ → Option (Option word)) (pass : word → Bool) (cap : ℕ)
    (hlive : ∀ k, k ≤ cap → T k ≠ none) (hs : T cap = some none) (loc : ℕ) (hloc : loc ≤ cap) :
    ∃ q, q ≤ cap ∧ Scan T pass loc q := by
  obtain ⟨m, hm⟩ : ∃ m, cap - loc = m := ⟨_, rfl⟩
  induction m generalizing loc with
  | zero =>
    have : loc = cap := by omega
    subst this
    exact ⟨loc, le_refl _, le_refl _, fun k h1 h2 => absurd h1 (by omega), Or.inl hs⟩
  | succ m ih =>
    cases hT : T loc with
    | none => exact absurd hT (hlive loc hloc)
    | some o =>
      cases o with
      | none => exact ⟨loc, hloc, le_refl _, fun k h1 h2 => absurd h1 (by omega), Or.inl hT⟩
      | some w =>
        by_cases hp : pass w = true
        · obtain ⟨q, hq, h1, h2, h3⟩ := ih (loc + 1) (by omega) (by omega)
          refine ⟨q, hq, by omega, fun k hk1 hk2 => ?_, h3⟩
          by_cases hk : k = loc
          · subst hk; exact ⟨w, hT, hp⟩
          · exact h2 k (by omega) hk2
        · exact ⟨loc, hloc, le_refl _, fun k h1 h2 => absurd h1 (by omega),
            Or.inr ⟨w, hT, by simpa using hp⟩⟩

theorem first_null (l : List (Option ℕ)) (cap : ℕ) (hs : l[cap]? = some none) (q : ℕ)
    (hq : q ≤ cap) :
    ∃ e, q ≤ e ∧ e ≤ cap ∧ (∀ k, q ≤ k → k < e → ∃ p, l[k]? = some (some p)) ∧
      l[e]? = some none := by
  obtain ⟨m, hm⟩ : ∃ m, cap - q = m := ⟨_, rfl⟩
  induction m generalizing q with
  | zero =>
    have : q = cap := by omega
    subst this
    exact ⟨q, le_refl _, le_refl _, fun k h1 h2 => absurd h1 (by omega), hs⟩
  | succ m ih =>
    have hlen : cap < l.length := by
      by_contra hc
      rw [List.getElem?_eq_none (by omega)] at hs
      simp at hs
    cases hl : l[q]? with
    | none =>
      rw [List.getElem?_eq_none_iff] at hl
      omega
    | some o =>
      cases o with
      | none => exact ⟨q, le_refl _, hq, fun k h1 h2 => absurd h1 (by omega), hl⟩
      | some p =>
        obtain ⟨e, he1, he2, he3, he4⟩ := ih (q + 1) (by omega) (by omega)
        refine ⟨e, by omega, he2, fun k hk1 hk2 => ?_, he4⟩
        by_cases hk : k = q
        · subst hk; exact ⟨p, hl⟩
        · exact he3 k (by omega) hk2

theorem shift_spec (n : ℕ) (d : dictionary) (q e W : ℕ) (hqe : q ≤ e) (hn : e < q + n)
    (hocc : ∀ k, q ≤ k → k < e → ∃ p, d.list[k]? = some (some p))
    (he : d.list[e]? = some none) :
    ∃ d' t, dictionary.shift n d q W = Run.ok (d', e, t) ∧ d'.capacity = d.capacity ∧
      d'.size = d.size ∧ d'.store = d.store ∧ d'.list.length = d.list.length ∧
      d'.list[e]? = some none ∧
      (∀ k, k < q ∨ e < k → d'.list[k]? = d.list[k]?) ∧
      (∀ k, q ≤ k → k + 1 < e → d'.list[k + 1]? = d.list[k]?) ∧
      (q < e → d'.list[q]? = some (some W) ∧ d.list[e - 1]? = some (some t)) ∧
      (q = e → t = W ∧ d' = d) ∧
      (t :: d'.ptrs).Perm (W :: d.ptrs) := by
  induction n generalizing d q W with
  | zero => omega
  | succ n ih =>
    unfold dictionary.shift
    rcases Nat.eq_or_lt_of_le hqe with hq | hq
    · subst hq
      simp only [dictionary.slot, he, Run.bind_ok]
      exact ⟨d, W, rfl, rfl, rfl, rfl, rfl, he, fun _ _ => rfl,
        fun k h1 h2 => absurd h1 (by omega),
        fun h => absurd h (lt_irrefl _), fun _ => ⟨rfl, rfl⟩, List.Perm.refl _⟩
    · obtain ⟨p, hp⟩ := hocc q (le_refl _) hq
      simp only [dictionary.slot, hp, Run.bind_ok]
      have hset : ∀ k, k ≠ q → (d.setSlot q (some W)).list[k]? = d.list[k]? := by
        intro k hk
        simp only [dictionary.setSlot]
        rw [List.getElem?_set_ne (Ne.symm hk)]
      have hqlen : q < d.list.length := by
        by_contra hc
        rw [List.getElem?_eq_none (by omega)] at hp
        simp at hp
      obtain ⟨d', t, h0, h1, h2, h3, h4, h5, h6, h7, h8, h9, h10⟩ :=
        ih (d.setSlot q (some W)) (q + 1) p (by omega) (by omega)
          (fun k hk1 hk2 => by rw [hset k (by omega)]; exact hocc k (by omega) hk2)
          (by rw [hset e (by omega)]; exact he)
      refine ⟨d', t, h0, h1, h2, h3, ?_, h5, ?_, ?_, ?_, fun h => absurd h (by omega), ?_⟩
      · rw [h4]; simp [dictionary.setSlot]
      · intro k hk
        rcases hk with hk | hk
        · rw [h6 k (Or.inl (by omega)), hset k (by omega)]
        · rw [h6 k (Or.inr hk), hset k (by omega)]
      · intro k hk1 hk2
        rcases Nat.eq_or_lt_of_le hk1 with hk | hk
        · subst hk
          rw [(h8 (by omega)).1, hp]
        · rw [h7 k (by omega) hk2, hset k (by omega)]
      · intro _
        refine ⟨?_, ?_⟩
        · rw [h6 q (Or.inl (by omega))]
          simp only [dictionary.setSlot]
          rw [List.getElem?_set_self hqlen]
        · rcases Nat.eq_or_lt_of_le (Nat.succ_le_of_lt hq) with hqe' | hqe'
          · have ht := (h9 hqe').1
            subst ht
            have : e - 1 = q := by omega
            rw [this]; exact hp
          · have := (h8 hqe').2
            rwa [hset (e - 1) (by omega)] at this
      · refine h10.trans ?_
        exact filterMap_set_some_perm d.list q p W hp

/-! ## Placing a word in a well-formed table -/

theorem PtrsOK.sublist {store : List (Option word)} {L L' : List ℕ} (h : PtrsOK store L)
    (hs : L'.Sublist L) : PtrsOK store L' := by
  obtain ⟨h1, h2, h3⟩ := h
  refine ⟨h1.sublist hs, fun p hp => h2 p (hs.subset hp), ?_⟩
  intro p1 hp1 p2 hp2
  exact h3 p1 (hs.subset hp1) p2 (hs.subset hp2)

theorem cell_ne_none {d : dictionary} (ht : d.list.length = d.capacity + 1)
    (hp : ∀ p ∈ d.ptrs, ∃ w, d.store[p]? = some (some w)) (k : ℕ) (hk : k ≤ d.capacity) :
    d.cell k ≠ none := by
  have hlt : k < d.list.length := by omega
  unfold dictionary.cell
  rw [List.getElem?_eq_getElem hlt]
  cases hs : d.list[k] with
  | none => simp
  | some p =>
    have hmem : p ∈ d.ptrs := (mem_ptrs_iff d p).mpr ⟨k, by rw [List.getElem?_eq_getElem hlt, hs]⟩
    obtain ⟨w, hw⟩ := hp p hmem
    simp [hw]

theorem locate_exists {d : dictionary} (ht : TableOK d)
    (hp : ∀ p ∈ d.ptrs, ∃ w, d.store[p]? = some (some w)) (H : ℚ) (hH : H * 26 < 25)
    (str : List Char) :
    ∃ q, q ≤ d.capacity ∧ Loc d.cell (slotIndex d.capacity H) H str q := by
  have hlive := cell_ne_none ht.len hp
  have hsent : d.cell d.capacity = some none := (cell_none_iff d _).mpr ht.sentinel
  have hidx : slotIndex d.capacity H ≤ d.capacity := by
    have := slotIndex_bound ht.cap_pos hH
    omega
  obtain ⟨k1, hk1, s1⟩ := scan_exists d.cell (passH H) d.capacity hlive hsent _ hidx
  obtain ⟨q, hq, s2⟩ := scan_exists d.cell (passS str) d.capacity hlive hsent k1 hk1
  exact ⟨q, hq, k1, s1, s2⟩

/-- When the scan and the run that follows it are fully occupied up to `e`, the table
holds at least `e - index` words. -/
theorem run_le_ptrs {d : dictionary} {H : ℚ} {str : List Char} {q e : ℕ}
    (hloc : Loc d.cell (slotIndex d.capacity H) H str q)
    (hocc : ∀ k, q ≤ k → k < e → ∃ p, d.list[k]? = some (some p)) :
    e - slotIndex d.capacity H ≤ d.ptrs.length := by
  obtain ⟨k1, s1, s2⟩ := hloc
  apply occupied_le_length
  intro k hk1 hk2
  rcases Nat.lt_or_ge k q with h | h
  · rcases Nat.lt_or_ge k k1 with h' | h'
    · obtain ⟨w, hw, _⟩ := s1.2.1 k hk1 h'
      obtain ⟨p, hp, _⟩ := (cell_some_iff d k w).mp hw
      exact ⟨p, hp⟩
    · obtain ⟨w, hw, _⟩ := s2.2.1 k h' h
      obtain ⟨p, hp, _⟩ := (cell_some_iff d k w).mp hw
      exact ⟨p, hp⟩
  · exact hocc k h hk2

theorem place_table {d d' : dictionary} {W : ℕ} {w : word} {q e : ℕ}
    (ht : TableOK d) (hp : PtrsOK d.store (W :: d.ptrs)) (hW : d.store[W]? = some (some w))
    (hloc : Loc d.cell (slotIndex d.capacity w.hash) w.hash w.str q)
    (hqe : q ≤ e) (hec : e < d.capacity)
    (hocc : ∀ k, q ≤ k → k < e → ∃ p, d.list[k]? = some (some p))
    (he : d.list[e]? = some none)
    (hcap : d'.capacity = d.capacity) (hstore : d'.store = d.store)
    (hlen : d'.list.length = d.list.length)
    (hq : d'.list[q]? = some (some W))
    (hmid : ∀ k, q ≤ k → k < e → d'.list[k + 1]? = d.list[k]?)
    (hout : ∀ k, k < q ∨ e < k → d'.list[k]? = d.list[k]?) : TableOK d' := by
  refine ⟨by rw [hcap]; exact ht.cap_pos, by rw [hlen, hcap]; exact ht.len, ?_, ?_⟩
  · rw [hcap, hout _ (Or.inr hec)]; exact ht.sentinel
  · rw [hcap]
    refine SF_insert (X := w) (q := q) (e := e) ht.sf hloc hqe ?_ ((cell_none_iff d e).mpr he)
      ?_ ?_ ?_ ?_
    · intro k hk1 hk2
      obtain ⟨p, hpk⟩ := hocc k hk1 hk2
      obtain ⟨v, hv, _⟩ := hp.2.1 p (List.mem_cons_of_mem _ ((mem_ptrs_iff d p).mpr ⟨k, hpk⟩))
      exact ⟨v, (cell_some_iff d k v).mpr ⟨p, hpk, hv⟩⟩
    · intro j v hv hstr
      obtain ⟨p, hpj, hpv⟩ := (cell_some_iff d j v).mp hv
      have hmem : p ∈ d.ptrs := (mem_ptrs_iff d p).mpr ⟨j, hpj⟩
      have := hp.2.2 p (List.mem_cons_of_mem _ hmem) W (List.mem_cons_self _ _) v w hpv hW hstr
      subst this
      exact (List.nodup_cons.mp hp.1).1 hmem
    · rw [cell_some_iff]
      exact ⟨W, hq, by rw [hstore]; exact hW⟩
    · intro k hk1 hk2
      exact cell_congr hstore (hmid k hk1 hk2)
    · intro k hk
      exact cell_congr hstore (hout k hk)

theorem ptrs_take {d : dictionary} (hlen : d.list.length = d.capacity + 1)
    (hs : d.list[d.capacity]? = some none) :
    (d.list.take d.capacity).filterMap id = d.ptrs := by
  unfold dictionary.ptrs
  have h1 : d.list = d.list.take d.capacity ++ d.list.drop d.capacity :=
    (List.take_append_drop _ _).symm
  have h2 : d.list.drop d.capacity = [none] := by
    have hl : (d.list.drop d.capacity).length = 1 := by simp [hlen]
    match hd : d.list.drop d.capacity with
    | [] => rw [hd] at hl; simp at hl
    | [x] =>
      have : (d.list.drop d.capacity)[0]? = some none := by
        rw [List.getElem?_drop]; simpa using hs
      rw [hd] at this
      simp at this
      rw [this]
    | _ :: _ :: _ => rw [hd] at hl; simp at hl
  conv_rhs => rw [h1, h2]
  simp [List.filterMap_append]

/-! ## Resizing -/

theorem moveAll_spec (f : ℕ) (hf : InsertWSpec f) (rest : List (Option ℕ)) :
    ∀ (d : dictionary), TableOK d → PtrsOK d.store (d.ptrs ++ rest.filterMap id) →
      d.ptrs.length + (rest.filterMap id).length ≤ d.size → 1 ≤ f →
      26 * d.size + 1 ≤ f + d.capacity →
      ∃ d', dictionary.moveAll (dictionary.insertW f) rest d = Run.ok d' ∧ TableOK d' ∧
        d'.store = d.store ∧ d'.size = d.size ∧ d.capacity ≤ d'.capacity ∧
        d'.ptrs.Perm (d.ptrs ++ rest.filterMap id) := by
  induction rest with
  | nil =>
    intro d ht _ _ _ _
    exact ⟨d, rfl, ht, rfl, rfl, le_refl _, by simp⟩
  | cons x rest ih =>
    intro d ht hp hsz h1 hfuel
    cases x with
    | none =>
      simp only [List.filterMap_cons, id] at hp hsz ⊢
      exact ih d ht hp hsz h1 hfuel
    | some p =>
      simp only [List.filterMap_cons, id, List.length_cons] at hp hsz ⊢
      have hperm : (d.ptrs ++ p :: rest.filterMap id).Perm ((p :: d.ptrs) ++ rest.filterMap id) := by
        simp
      have hp2 : PtrsOK d.store ((p :: d.ptrs) ++ rest.filterMap id) := hp.perm hperm.symm
      have hp3 : PtrsOK d.store (p :: d.ptrs) := hp2.sublist (List.sublist_append_left _ _)
      obtain ⟨w, hw, _⟩ := hp3.2.1 p (List.mem_cons_self _ _)
      obtain ⟨d1, e1, t1, s1, z1, c1, m1⟩ := hf d p w ht hp3 hw (by omega) h1 hfuel
      have hp4 : PtrsOK d1.store (d1.ptrs ++ rest.filterMap id) := by
        rw [s1]
        exact hp2.perm (List.Perm.append_right _ m1)
      obtain ⟨d2, e2, t2, s2, z2, c2, m2⟩ := ih d1 t1 hp4
        (by rw [z1, m1.length_eq]; simp only [List.length_cons]; omega) h1 (by rw [z1]; omega)
      refine ⟨d2, ?_, t2, by rw [s2, s1], by rw [z2, z1], by omega, ?_⟩
      · simp only [dictionary.moveAll, e1, Run.bind_ok]
        exact e2
      · exact m2.trans ((List.Perm.append_right _ m1).trans hperm.symm)

theorem resize_spec (f : ℕ) (hf : InsertWSpec f) (d : dictionary) (newSize : ℕ)
    (hnew : 0 < newSize) (hlen : d.list.length = d.capacity + 1)
    (hs : d.list[d.capacity]? = some none) (hp : PtrsOK d.store d.ptrs)
    (hsz : d.ptrs.length ≤ d.size) (h1 : 1 ≤ f) (hfuel : 26 * d.size + 1 ≤ f + newSize) :
    ∃ d', dictionary.resizeWith (dictionary.insertW f) d newSize = Run.ok d' ∧ TableOK d' ∧
      d'.store = d.store ∧ d'.size = d.size ∧ newSize ≤ d'.capacity ∧ d'.ptrs.Perm d.ptrs := by
  unfold dictionary.resizeWith
  have hptr0 : dictionary.ptrs (dictionary.mk newSize d.size (List.replicate (newSize + 1) none) d.store) = [] := by
    simp [dictionary.ptrs, List.filterMap_replicate]
  have ht0 : TableOK (dictionary.mk newSize d.size (List.replicate (newSize + 1) none) d.store) := by
    refine ⟨hnew, by simp, by simp [List.getElem?_replicate], ?_⟩
    intro j w hj
    exfalso
    obtain ⟨p, hpj, _⟩ := (cell_some_iff _ j w).mp hj
    simp [List.getElem?_replicate] at hpj
  obtain ⟨d', e1, t1, s1, z1, c1, m1⟩ := moveAll_spec f hf (d.list.take d.capacity)
    (dictionary.mk newSize d.size (List.replicate (newSize + 1) none) d.store) ht0
    (by rw [hptr0, ptrs_take hlen hs]; simpa using hp)
    (by rw [hptr0, ptrs_take hlen hs]; simpa using hsz) h1 hfuel
  refine ⟨d', e1, t1, s1, z1, c1, ?_⟩
  rw [hptr0, ptrs_take hlen hs] at m1
  simpa using m1

/-! ## The private insert -/

theorem shiftLeft_one (n : ℕ) : n <<< 1 = 2 * n := by
  rw [Nat.shiftLeft_eq]; omega

theorem slot_eq_ok {d : dictionary} {k : ℕ} {s : Option ℕ} (h : d.list[k]? = some s) :
    d.slot k = Run.ok s := by
  simp [dictionary.slot, h]

theorem deref_eq_ok {d : dictionary} {p : ℕ} {w : word} (h : d.store[p]? = some (some w)) :
    d.deref p = Run.ok w := by
  simp [dictionary.deref, h]

theorem insertW_spec (f : ℕ) : InsertWSpec f := by
  induction f with
  | zero =>
    intro d W w _ _ _ _ h1 _
    omega
  | succ f ih =>
    intro d W w ht hp hW hsz _ hfuel
    have hpd : PtrsOK d.store d.ptrs := hp.sublist (List.sublist_cons_self _ _)
    have hlive : ∀ p ∈ d.ptrs, ∃ w, d.store[p]? = some (some w) := fun p hpm => by
      obtain ⟨v, hv, _⟩ := hpd.2.1 p hpm
      exact ⟨v, hv⟩
    have hwok : wordOK w := by
      obtain ⟨v, hv, hok⟩ := hp.2.1 W (List.mem_cons_self _ _)
      rw [hW] at hv
      obtain rfl : w = v := by simpa using hv
      exact hok
    have hcap := ht.cap_pos
    rw [dictionary.insertW]
    by_cases hpre : 4 * d.size > 3 * d.capacity
    · -- over 75% full: resize and retry
      rw [if_pos hpre, shiftLeft_one]
      obtain ⟨d1, e1, t1, s1, z1, c1, m1⟩ := resize_spec f ih d (2 * d.capacity) (by omega)
        ht.len ht.sentinel hpd (by omega) (by omega) (by omega)
      obtain ⟨d2, e2, t2, s2, z2, c2, m2⟩ := ih d1 W w t1
        (by rw [s1]; exact hp.perm (List.Perm.cons _ m1)) (by rw [s1]; exact hW)
        (by rw [z1, m1.length_eq]; exact hsz) (by omega) (by rw [z1]; omega)
      refine ⟨d2, ?_, t2, by rw [s2, s1], by rw [z2, z1], by omega,
        m2.trans (List.Perm.cons _ m1)⟩
      rw [e1, Run.bind_ok]; exact e2
    · rw [if_neg hpre, deref_eq_ok hW, Run.bind_ok]
      obtain ⟨q, hq, hloc⟩ := locate_exists ht hlive w.hash hwok.2.1 w.str
      have hlocate : d.locate w.hash w.str = Run.ok q :=
        (locate_eq_ok_iff d _ _ q hwok.2.2
          (cell_nonneg hp (fun p h => List.mem_cons_of_mem _ h))).mpr hloc
      rw [hlocate, Run.bind_ok]
      have hidx := slotIndex_bound hcap hwok.2.1
      have hqlen : q < d.list.length := by rw [ht.len]; omega
      cases hs : d.list[q] with
      | none =>
        have hsq : d.list[q]? = some none := by rw [List.getElem?_eq_getElem hqlen, hs]
        rw [slot_eq_ok hsq, Run.bind_ok]
        simp only []
        by_cases hqc : q = d.capacity
        · -- the scan ran into the sentinel: resize and retry
          rw [if_pos hqc, shiftLeft_one]
          have hrun := run_le_ptrs (e := q) hloc (fun k h1 h2 => absurd h1 (by omega))
          obtain ⟨d1, e1, t1, s1, z1, c1, m1⟩ := resize_spec f ih d (2 * d.capacity) (by omega)
            ht.len ht.sentinel hpd (by omega) (by omega) (by omega)
          obtain ⟨d2, e2, t2, s2, z2, c2, m2⟩ := ih d1 W w t1
            (by rw [s1]; exact hp.perm (List.Perm.cons _ m1)) (by rw [s1]; exact hW)
            (by rw [z1, m1.length_eq]; exact hsz) (by omega) (by rw [z1]; omega)
          refine ⟨d2, ?_, t2, by rw [s2, s1], by rw [z2, z1], by omega,
            m2.trans (List.Perm.cons _ m1)⟩
          rw [e1, Run.bind_ok]; exact e2
        · -- an empty slot inside the table
          rw [if_neg hqc]
          refine ⟨d.setSlot q (some W), rfl, ?_, rfl, rfl, le_refl _, ?_⟩
          · refine place_table (q := q) (e := q) ht hp hW hloc (le_refl _) (by omega)
              (fun k h1 h2 => absurd h1 (by omega)) hsq rfl rfl (by simp [dictionary.setSlot])
              ?_ (fun k h1 h2 => absurd h1 (by omega)) ?_
            · simp only [dictionary.setSlot]
              rw [List.getElem?_set_self hqlen]
            · intro k hk
              simp only [dictionary.setSlot]
              rw [List.getElem?_set_ne (by omega)]
          · exact filterMap_set_none_perm d.list q W hsq
      | some p0 =>
        have hsq : d.list[q]? = some (some p0) := by rw [List.getElem?_eq_getElem hqlen, hs]
        rw [slot_eq_ok hsq, Run.bind_ok]
        simp only []
        obtain ⟨e, he1, he2, he3, he4⟩ := first_null d.list d.capacity ht.sentinel q hq
        obtain ⟨d1, t, h0, h1, h2, h3, h4, h5, h6, h7, h8, h9, h10⟩ :=
          shift_spec (d.list.length + 1 - q) d q e W he1 (by rw [ht.len]; omega) he3 he4
        rw [h0, Run.bind_ok]
        simp only []
        have hqe : q < e := by
          rcases Nat.eq_or_lt_of_le he1 with h | h
          · subst h; rw [hsq] at he4; simp at he4
          · exact h
        by_cases hec : e = d1.capacity
        · -- the shift ran into the sentinel: resize, then insert the last word
          rw [if_pos hec, shiftLeft_one]
          have hrun := run_le_ptrs hloc he3
          have hpt : PtrsOK d1.store (t :: d1.ptrs) := by rw [h3]; exact hp.perm h10
          obtain ⟨wt, hwt, _⟩ := hpt.2.1 t (List.mem_cons_self _ _)
          have hlen1 : d1.ptrs.length = d.ptrs.length := by
            have := h10.length_eq
            simpa using this
          obtain ⟨d2, e2, t2, s2, z2, c2, m2⟩ := resize_spec f ih d1 (2 * d1.capacity)
            (by omega) (by rw [h4, h1]; exact ht.len) (by rw [← hec]; exact h5)
            (hpt.sublist (List.sublist_cons_self _ _)) (by omega) (by omega) (by omega)
          obtain ⟨d3, e3, t3, s3, z3, c3, m3⟩ := ih d2 t wt t2
            (by rw [s2]; exact hpt.perm (List.Perm.cons _ m2)) (by rw [s2]; exact hwt)
            (by rw [z2, m2.length_eq]; omega) (by omega) (by rw [z2]; omega)
          refine ⟨d3, ?_, t3, by rw [s3, s2, h3], by rw [z3, z2, h2], by omega,
            m3.trans ((List.Perm.cons _ m2).trans h10)⟩
          rw [e2, Run.bind_ok, e3, Run.bind_ok]
        · -- the shift ended on an empty slot inside the table
          rw [if_neg hec]
          have helen : e < d1.list.length := by rw [h4, ht.len]; omega
          refine ⟨d1.setSlot e (some t), rfl, ?_, h3, h2, by simp [dictionary.setSlot, h1], ?_⟩
          · refine place_table (q := q) (e := e) ht hp hW hloc he1 (by omega) he3 he4
              (by simp [dictionary.setSlot, h1]) (by simp [dictionary.setSlot, h3])
              (by simp [dictionary.setSlot, h4]) ?_ ?_ ?_
            · simp only [dictionary.setSlot]
              rw [List.getElem?_set_ne (by omega)]
              exact (h8 hqe).1
            · intro k hk1 hk2
              simp only [dictionary.setSlot]
              rcases Nat.lt_or_ge (k + 1) e with h | h
              · rw [List.getElem?_set_ne (by omega)]
                exact h7 k hk1 h
              · have hk : k + 1 = e := by omega
                rw [hk, List.getElem?_set_self helen]
                have := (h8 hqe).2
                rw [← this]
                congr 1
                omega
            · intro k hk
              simp only [dictionary.setSlot]
              rw [List.getElem?_set_ne (by omega)]
              exact h6 k hk
          · exact (filterMap_set_none_perm d1.list e t h5).trans h10

/-! ## Allocation, count updates and absent words -/

theorem Scan.map {T : ℕ → Option (Option word)} {pass : word → Bool} {loc q : ℕ}
    (g : word → word) (hg : ∀ w, pass (g w) = pass w) (h : Scan T pass loc q) :
    Scan (fun k => (T k).map (Option.map g)) pass loc q := by
  obtain ⟨h1, h2, h3⟩ := h
  refine ⟨h1, fun k hk1 hk2 => ?_, ?_⟩
  · obtain ⟨w, hw, hp⟩ := h2 k hk1 hk2
    exact ⟨g w, by simp [hw], by rw [hg]; exact hp⟩
  · rcases h3 with h3 | ⟨w, hw, hp⟩
    · left; simp [h3]
    · right; exact ⟨g w, by simp [hw], by rw [hg]; exact hp⟩

theorem SF_map {cap : ℕ} {T : ℕ → Option (Option word)} (g : word → word)
    (hg : ∀ w, (g w).hash = w.hash ∧ (g w).str = w.str) (h : SF cap T) :
    SF cap (fun k => (T k).map (Option.map g)) := by
  intro j w' hj
  cases hT : T j with
  | none => simp [hT] at hj
  | some o =>
    cases o with
    | none => simp [hT] at hj
    | some w =>
      simp only [hT, Option.map_some'] at hj
      obtain rfl : g w = w' := by simpa using hj
      obtain ⟨k1, s1, s2⟩ := h j w hT
      rw [(hg w).1, (hg w).2]
      exact ⟨k1, s1.map g (fun v => by simp [passH, (hg v).1]),
        s2.map g (fun v => by simp [passS, (hg v).2])⟩

theorem getElem?_append_some {α : Type} {l : List α} {x : α} {p : ℕ} {a : α}
    (h : l[p]? = some a) : (l ++ [x])[p]? = some a := by
  have hp : p < l.length := by
    by_contra hc
    rw [List.getElem?_eq_none (by omega)] at h
    simp at h
  rw [List.getElem?_append_left hp]
  exact h

/-- Allocation does not change what the scans see, provided no slot dangles. -/
theorem cell_alloc {d : dictionary} (hlive : ∀ p ∈ d.ptrs, ∃ w, d.store[p]? = some (some w))
    (x : Option word) (list' : List (Option ℕ)) (hl : list' = d.list) (c s : ℕ) (k : ℕ) :
    (dictionary.mk c s list' (d.store ++ [x])).cell k = d.cell k := by
  subst hl
  unfold dictionary.cell
  simp only
  cases h1 : d.list[k]? with
  | none => rfl
  | some o =>
    cases o with
    | none => rfl
    | some p =>
      obtain ⟨w, hw⟩ := hlive p ((mem_ptrs_iff d p).mpr ⟨k, h1⟩)
      simp only [getElem?_append_some hw, hw]

/-- A word whose scan does not end on it is not in the table. -/
theorem absent_of_loc {d : dictionary} (ht : TableOK d) (hp : PtrsOK d.store d.ptrs)
    {str : List Char} {q : ℕ}
    (hloc : Loc d.cell (slotIndex d.capacity (dictionary.hash str)) (dictionary.hash str) str q)
    (hq : ∀ v, d.cell q = some (some v) → v.str ≠ str) :
    ∀ v, d.Holds v → v.str ≠ str := by
  intro v hv hstr
  obtain ⟨p, hpm, hpv⟩ := hv
  obtain ⟨k, hk⟩ := (mem_ptrs_iff d p).mp hpm
  have hcell : d.cell k = some (some v) := (cell_some_iff d k v).mpr ⟨p, hk, hpv⟩
  obtain ⟨v', hv', hok⟩ := hp.2.1 p hpm
  rw [hpv] at hv'
  obtain rfl : v = v' := by simpa using hv'
  have hl := ht.sf k v hcell
  rw [hok.1, hstr] at hl
  have := hl.stop_eq hloc
  subst this
  exact hq v hcell hstr

/-- A stored word is found by the scan for its text. -/
theorem loc_of_holds {d : dictionary} (ht : TableOK d) (hp : PtrsOK d.store d.ptrs)
    {p : ℕ} {v : word} (hpm : p ∈ d.ptrs) (hpv : d.store[p]? = some (some v)) :
    ∃ k, d.list[k]? = some (some p) ∧
      Loc d.cell (slotIndex d.capacity (dictionary.hash v.str)) (dictionary.hash v.str) v.str k := by
  obtain ⟨k, hk⟩ := (mem_ptrs_iff d p).mp hpm
  have hcell : d.cell k = some (some v) := (cell_some_iff d k v).mpr ⟨p, hk, hpv⟩
  obtain ⟨v', hv', hok⟩ := hp.2.1 p hpm
  rw [hpv] at hv'
  obtain rfl : v = v' := by simpa using hv'
  have hl := ht.sf k v hcell
  rw [hok.1] at hl
  exact ⟨k, hk, hl⟩

/-- Changing the count of the word at address `p` keeps the table well formed. -/
theorem tableOK_set_num {d : dictionary} (ht : TableOK d) (hp : PtrsOK d.store d.ptrs)
    {p : ℕ} {w : word} (hpm : p ∈ d.ptrs) (hw : d.store[p]? = some (some w)) (n : ℕ) :
    TableOK { d with store := d.store.set p (some { w with num := n }) } ∧
    PtrsOK (d.store.set p (some { w with num := n })) d.ptrs := by
  have hplen : p < d.store.length := by
    by_contra hc
    rw [List.getElem?_eq_none (by omega)] at hw
    simp at hw
  have hget : ∀ p', (d.store.set p (some { w with num := n }))[p']? =
      if p' = p then some (some { w with num := n }) else d.store[p']? := by
    intro p'
    by_cases h : p' = p
    · subst h; simp [List.getElem?_set_self hplen]
    · rw [List.getElem?_set_ne (Ne.symm h)]; simp [h]
  constructor
  · refine ⟨ht.cap_pos, ht.len, ht.sentinel, ?_⟩
    let g : word → word := fun v => if v.str = w.str then { v with num := n } else v
    have hg : ∀ v, (g v).hash = v.hash ∧ (g v).str = v.str := by
      intro v
      simp only [g]
      split <;> simp
    have hcell : dictionary.cell { d with store := d.store.set p (some { w with num := n }) } =
        fun k => (d.cell k).map (Option.map g) := by
      funext k
      unfold dictionary.cell
      simp only
      cases h1 : d.list[k]? with
      | none => rfl
      | some o =>
        cases o with
        | none => rfl
        | some p' =>
          have hpm' : p' ∈ d.ptrs := (mem_ptrs_iff d p').mpr ⟨k, h1⟩
          obtain ⟨v, hv, _⟩ := hp.2.1 p' hpm'
          simp only [hget p']
          by_cases h : p' = p
          · subst h
            rw [hw] at hv
            obtain rfl : w = v := by simpa using hv
            simp [hw, g]
          · have hne : v.str ≠ w.str := fun hs => h (hp.2.2 p' hpm' p hpm v w hv hw hs)
            simp [h, hv, g, hne]
    show SF d.capacity (dictionary.cell { d with store := d.store.set p (some { w with num := n }) })
    rw [hcell]
    exact SF_map g hg ht.sf
  · refine ⟨hp.1, fun p' hp' => ?_, ?_⟩
    · obtain ⟨v, hv, hok⟩ := hp.2.1 p' hp'
      rw [hget p']
      by_cases h : p' = p
      · subst h
        rw [hw] at hv
        obtain rfl : w = v := by simpa using hv
        exact ⟨{ w with num := n }, by simp, hok⟩
      · exact ⟨v, by simp [h, hv], hok⟩
    · intro p1 hp1 p2 hp2 w1 w2 h1 h2 hs
      obtain ⟨v1, hv1, _⟩ := hp.2.1 p1 hp1
      obtain ⟨v2, hv2, _⟩ := hp.2.1 p2 hp2
      rw [hget p1] at h1
      rw [hget p2] at h2
      have e1 : w1.str = v1.str := by
        by_cases h : p1 = p
        · subst h
          rw [hw] at hv1
          obtain rfl : w = v1 := by simpa using hv1
          simp only [if_true, Option.some.injEq] at h1
          rw [← h1]
        · simp only [h, if_false] at h1
          rw [hv1] at h1
          obtain rfl : v1 = w1 := by simpa using h1
          rfl
      have e2 : w2.str = v2.str := by
        by_cases h : p2 = p
        · subst h
          rw [hw] at hv2
          obtain rfl : w = v2 := by simpa using hv2
          simp only [if_true, Option.some.injEq] at h2
          rw [← h2]
        · simp only [h, if_false] at h2
          rw [hv2] at h2
          obtain rfl : v2 = w2 := by simpa using h2
          rfl
      exact hp.2.2 p1 hp1 p2 hp2 v1 v2 hv1 hv2 (by rw [← e1, ← e2]; exact hs)

/-! ## The public insert -/

theorem alloc_ok {d : dictionary} (ht : TableOK d) (hp : PtrsOK d.store d.ptrs) {X : word}
    (hX : wordOK X) (habs : ∀ v, d.Holds v → v.str ≠ X.str) (s : ℕ) :
    TableOK (dictionary.mk d.capacity s d.list (d.store ++ [some X])) ∧
    PtrsOK (d.store ++ [some X]) (d.store.length :: d.ptrs) ∧
    (d.store ++ [some X])[d.store.length]? = some (some X) ∧
    (dictionary.mk d.capacity s d.list (d.store ++ [some X])).ptrs = d.ptrs := by
  have hlive : ∀ p ∈ d.ptrs, ∃ w, d.store[p]? = some (some w) := fun p hpm => by
    obtain ⟨v, hv, _⟩ := hp.2.1 p hpm
    exact ⟨v, hv⟩
  have hlt : ∀ p ∈ d.ptrs, p < d.store.length := fun p hpm => by
    obtain ⟨v, hv⟩ := hlive p hpm
    by_contra hc
    rw [List.getElem?_eq_none (by omega)] at hv
    simp at hv
  have hnew : (d.store ++ [some X])[d.store.length]? = some (some X) := by
    simp
  have hold : ∀ p ∈ d.ptrs, (d.store ++ [some X])[p]? = d.store[p]? := fun p hpm => by
    rw [List.getElem?_append_left (hlt p hpm)]
  refine ⟨⟨ht.cap_pos, ht.len, ht.sentinel, ?_⟩, ⟨?_, ?_, ?_⟩, hnew, rfl⟩
  · have : dictionary.cell (dictionary.mk d.capacity s d.list (d.store ++ [some X])) = d.cell := by
      funext k
      exact cell_alloc hlive (some X) d.list rfl d.capacity s k
    show SF d.capacity (dictionary.cell (dictionary.mk d.capacity s d.list (d.store ++ [some X])))
    rw [this]
    exact ht.sf
  · exact List.nodup_cons.mpr ⟨fun h => absurd (hlt _ h) (lt_irrefl _), hp.1⟩
  · intro p hpm
    rcases List.mem_cons.mp hpm with h | h
    · subst h; exact ⟨X, hnew, hX⟩
    · obtain ⟨v, hv, hok⟩ := hp.2.1 p h
      exact ⟨v, by rw [hold p h]; exact hv, hok⟩
  · intro p1 hp1 p2 hp2 w1 w2 h1 h2 hs
    rcases List.mem_cons.mp hp1 with e1 | e1 <;> rcases List.mem_cons.mp hp2 with e2 | e2
    · rw [e1, e2]
    · exfalso
      subst e1
      rw [hnew] at h1
      obtain rfl : X = w1 := by simpa using h1
      rw [hold p2 e2] at h2
      exact habs w2 ⟨p2, e2, h2⟩ hs.symm
    · exfalso
      subst e2
      rw [hnew] at h2
      obtain rfl : X = w2 := by simpa using h2
      rw [hold p1 e1] at h1
      exact habs w1 ⟨p1, e1, h1⟩ hs
    · rw [hold p1 e1] at h1
      rw [hold p2 e2] at h2
      exact hp.2.2 p1 e1 p2 e2 w1 w2 h1 h2 hs

theorem holds_congr {d d' : dictionary} (hs : d'.store = d.store) (hp : d'.ptrs.Perm d.ptrs)
    (v : word) : d'.Holds v ↔ d.Holds v := by
  unfold dictionary.Holds
  rw [hs]
  constructor
  · rintro ⟨p, h1, h2⟩; exact ⟨p, hp.mem_iff.mp h1, h2⟩
  · rintro ⟨p, h1, h2⟩; exact ⟨p, hp.mem_iff.mpr h1, h2⟩

theorem insert_spec (f : ℕ) : ∀ (d : dictionary) (str : List Char) (num : ℕ),
    DictInv d → str ≠ [] → dictionary.hash str * 26 < 25 → 0 ≤ dictionary.hash str → 1 ≤ f →
    26 * (d.size + 1) + 1 ≤ f + d.capacity →
    ∃ d' r, dictionary.insert f d str num = Run.ok (d', r) ∧ InsertPost d str num d' r := by
  induction f with
  | zero => intro d str num _ _ _ _ h1 _; omega
  | succ f ih =>
    intro d str num hinv hne hH hH0 _ hfuel
    have ht := hinv.table
    have hpd := hinv.ptrs
    have hsz := hinv.size_eq
    have hcap := ht.cap_pos
    have hlive : ∀ p ∈ d.ptrs, ∃ w, d.store[p]? = some (some w) := fun p hpm => by
      obtain ⟨v, hv, _⟩ := hpd.2.1 p hpm
      exact ⟨v, hv⟩
    have hXok : wordOK (word.mk (dictionary.hash str) num str) := ⟨rfl, hH, hH0⟩
    rw [dictionary.insert, if_pos hne]
    by_cases hpre : 4 * d.size > 3 * d.capacity
    · -- over 75% full: resize and retry
      rw [if_pos hpre, shiftLeft_one]
      obtain ⟨d1, e1, t1, s1, z1, c1, m1⟩ := resize_spec f (insertW_spec f) d (2 * d.capacity)
        (by omega) ht.len ht.sentinel hpd (by omega) (by omega) (by omega)
      have hinv1 : DictInv d1 :=
        ⟨t1, by rw [s1]; exact hpd.perm m1, by rw [z1, m1.length_eq]; exact hsz⟩
      obtain ⟨d2, r, e2, i2, c2, hcase⟩ := ih d1 str num hinv1 hne hH hH0 (by omega)
        (by rw [z1]; omega)
      refine ⟨d2, r, ?_, i2, by omega, ?_⟩
      · simp only [dictionary.resize]
        rw [e1, Run.bind_ok]; exact e2
      · rcases hcase with ⟨p, w, h1, h2, h3, h4, h5, h6, h7⟩ | ⟨h1, h2, h3, h4, h5⟩
        · left
          exact ⟨p, w, m1.mem_iff.mp h1, by rw [← s1]; exact h2, h3, h4, by rw [h5, s1],
            h6.trans m1, by rw [h7, z1]⟩
        · right
          exact ⟨fun v hv => h1 v ((holds_congr s1 m1 v).mpr hv), h2, by rw [h3, s1],
            by rw [← s1]; exact h4.trans (List.Perm.cons _ m1), by rw [h5, z1]⟩
    · rw [if_neg hpre]
      simp only []
      obtain ⟨q, hq, hloc⟩ := locate_exists ht hlive (dictionary.hash str) hH str
      have hlocate : d.locate (dictionary.hash str) str = Run.ok q :=
        (locate_eq_ok_iff d _ _ q hH0 (cell_nonneg hpd (fun p h => h))).mpr hloc
      rw [hlocate, Run.bind_ok]
      have hidx := slotIndex_bound hcap hH
      have hqlen : q < d.list.length := by rw [ht.len]; omega
      cases hs : d.list[q] with
      | none =>
        have hsq : d.list[q]? = some none := by rw [List.getElem?_eq_getElem hqlen, hs]
        have habs : ∀ v, d.Holds v → v.str ≠ str := by
          apply absent_of_loc ht hpd hloc
          intro v hv
          rw [(cell_none_iff d q).mpr hsq] at hv
          simp at hv
        obtain ⟨ta, pa, na, ea⟩ := alloc_ok ht hpd hXok habs (d.size + 1)
        rw [slot_eq_ok hsq, Run.bind_ok]
        simp only []
        by_cases hqc : q = d.capacity
        · -- the scan ran into the sentinel: resize, then insert the new word
          rw [if_pos hqc, shiftLeft_one]
          have hrun := run_le_ptrs (e := q) hloc (fun k h1 h2 => absurd h1 (by omega))
          obtain ⟨d1, e1, t1, s1, z1, c1, m1⟩ := resize_spec f (insertW_spec f) d
            (2 * d.capacity) (by omega) ht.len ht.sentinel hpd (by omega) (by omega) (by omega)
          have habs1 : ∀ v, d1.Holds v → v.str ≠ str :=
            fun v hv => habs v ((holds_congr s1 m1 v).mp hv)
          obtain ⟨ta1, pa1, na1, ea1⟩ := alloc_ok t1 (by rw [s1]; exact hpd.perm m1) hXok habs1
            (d1.size + 1)
          obtain ⟨d2, e2, t2, s2, z2, c2, m2⟩ := insertW_spec f
            (dictionary.mk d1.capacity (d1.size + 1) d1.list
              (d1.store ++ [some (word.mk (dictionary.hash str) num str)]))
            d1.store.length (word.mk (dictionary.hash str) num str) ta1
            (by rw [ea1]; exact pa1) na1
            (by
              have hl := congrArg List.length ea1
              rw [m1.length_eq] at hl
              rw [hl]
              show d.ptrs.length < d1.size + 1
              omega) (by omega)
            (by
              show 26 * (d1.size + 1) + 1 ≤ f + d1.capacity
              rw [z1]; omega)
          refine ⟨d2, num, ?_, ⟨t2, ?_, ?_⟩, ?_, Or.inr ⟨habs, rfl, ?_, ?_, ?_⟩⟩
          · simp only [dictionary.resize]
            rw [e1, Run.bind_ok]
            exact e2
          · rw [s2]
            exact pa1.perm (by rw [ea1] at m2; exact m2)
          · rw [z2, m2.length_eq, ea1]
            simp only [List.length_cons]
            rw [m1.length_eq, z1, hsz]
          · simp only at c2; omega
          · rw [s2, s1]
          · rw [ea1] at m2
            rw [← s1]
            exact m2.trans (List.Perm.cons _ m1)
          · rw [z2]; simp only; rw [z1]
        · -- an empty slot inside the table
          rw [if_neg hqc]
          refine ⟨_, num, rfl, ⟨?_, ?_, ?_⟩, le_refl _, Or.inr ⟨habs, rfl, rfl, ?_, rfl⟩⟩
          · refine place_table (d := dictionary.mk d.capacity (d.size + 1) d.list
                (d.store ++ [some (word.mk (dictionary.hash str) num str)]))
              (W := d.store.length) (w := word.mk (dictionary.hash str) num str)
              (q := q) (e := q) ta (by rw [ea]; exact pa) na
              ?_ (le_refl _) (by simp only; omega)
              (fun k h1 h2 => absurd h1 (by omega)) hsq rfl rfl
              (by simp [dictionary.setSlot, dictionary.alloc])
              ?_ (fun k h1 h2 => absurd h1 (by omega)) ?_
            · have : dictionary.cell (dictionary.mk d.capacity (d.size + 1) d.list
                  (d.store ++ [some (word.mk (dictionary.hash str) num str)])) = d.cell := by
                funext k
                exact cell_alloc hlive _ d.list rfl d.capacity _ k
              rw [this]
              exact hloc
            · simp only [dictionary.setSlot, dictionary.alloc]
              rw [List.getElem?_set_self hqlen]
            · intro k hk
              simp only [dictionary.setSlot, dictionary.alloc]
              rw [List.getElem?_set_ne (by omega)]
          · simp only [dictionary.setSlot, dictionary.alloc]
            refine pa.perm ?_
            exact filterMap_set_none_perm d.list q d.store.length hsq
          · simp only [dictionary.setSlot, dictionary.alloc, dictionary.ptrs]
            rw [(filterMap_set_none_perm d.list q d.store.length hsq).length_eq]
            simp only [List.length_cons]
            rw [hsz]; rfl
          · simp only [dictionary.setSlot, dictionary.alloc]
            exact filterMap_set_none_perm d.list q d.store.length hsq
      | some p0 =>
        have hsq : d.list[q]? = some (some p0) := by rw [List.getElem?_eq_getElem hqlen, hs]
        have hp0 : p0 ∈ d.ptrs := (mem_ptrs_iff d p0).mpr ⟨q, hsq⟩
        obtain ⟨w0, hw0, hw0ok⟩ := hpd.2.1 p0 hp0
        rw [slot_eq_ok hsq, Run.bind_ok]
        simp only []
        rw [deref_eq_ok hw0, Run.bind_ok]
        by_cases hfound : w0.hash = dictionary.hash str ∧ w0.str = str
        · -- the word is already stored: add to its count
          rw [if_pos hfound]
          obtain ⟨tn, pn⟩ := tableOK_set_num ht hpd hp0 hw0 ((w0.num + num) % SIZE_MOD)
          exact ⟨_, _, rfl, ⟨tn, pn, hsz⟩, le_refl _,
            Or.inl ⟨p0, w0, hp0, hw0, hfound.2, rfl, rfl, List.Perm.refl _, rfl⟩⟩
        · -- a new word that goes before the word at `q`
          rw [if_neg hfound]
          have habs : ∀ v, d.Holds v → v.str ≠ str := by
            apply absent_of_loc ht hpd hloc
            intro v hv hvs
            obtain ⟨p', hp', hv'⟩ := (cell_some_iff d q v).mp hv
            rw [hsq] at hp'
            obtain rfl : p0 = p' := by simpa using hp'
            rw [hw0] at hv'
            obtain rfl : w0 = v := by simpa using hv'
            exact hfound ⟨by rw [hw0ok.1, hvs], hvs⟩
          obtain ⟨ta, pa, na, ea⟩ := alloc_ok ht hpd hXok habs (d.size + 1)
          obtain ⟨e, he1, he2, he3, he4⟩ := first_null d.list d.capacity ht.sentinel q hq
          obtain ⟨d1, t, h0, h1, h2, h3, h4, h5, h6, h7, h8, h9, h10⟩ :=
            shift_spec (d.list.length + 1 - q)
              (dictionary.mk d.capacity (d.size + 1) d.list
                (d.store ++ [some (word.mk (dictionary.hash str) num str)]))
              q e d.store.length he1 (by rw [ht.len]; omega) he3 he4
          simp only [dictionary.alloc]
          rw [h0, Run.bind_ok]
          simp only [] at h1 h2 h3 h4 h6 h7 h8 ⊢
          rw [ea] at h10
          have hqe : q < e := by
            rcases Nat.eq_or_lt_of_le he1 with h | h
            · subst h; rw [hsq] at he4; simp at he4
            · exact h
          have hcellA : dictionary.cell (dictionary.mk d.capacity (d.size + 1) d.list
              (d.store ++ [some (word.mk (dictionary.hash str) num str)])) = d.cell := by
            funext k
            exact cell_alloc hlive _ d.list rfl d.capacity _ k
          by_cases hec : e = d1.capacity
          · -- the shift ran into the sentinel: resize, then insert the last word
            rw [if_pos hec, shiftLeft_one]
            have hrun := run_le_ptrs hloc he3
            have hpt : PtrsOK d1.store (t :: d1.ptrs) := by rw [h3]; exact pa.perm h10
            obtain ⟨wt, hwt, _⟩ := hpt.2.1 t (List.mem_cons_self _ _)
            have hlen1 : d1.ptrs.length = d.ptrs.length := by
              have := h10.length_eq
              simpa using this
            obtain ⟨d2, e2, t2, s2, z2, c2, m2⟩ := resize_spec f (insertW_spec f) d1
              (2 * d1.capacity)
              (by omega) (by rw [h4, h1]; exact ht.len) (by rw [← hec]; exact h5)
              (hpt.sublist (List.sublist_cons_self _ _)) (by omega) (by omega) (by omega)
            obtain ⟨d3, e3, t3, s3, z3, c3, m3⟩ := insertW_spec f d2 t wt t2
              (by rw [s2]; exact hpt.perm (List.Perm.cons _ m2)) (by rw [s2]; exact hwt)
              (by rw [z2, m2.length_eq]; omega) (by omega) (by rw [z2]; omega)
            have hm : d3.ptrs.Perm (d.store.length :: d.ptrs) :=
              m3.trans ((List.Perm.cons _ m2).trans h10)
            refine ⟨d3, num, ?_, ⟨t3, ?_, ?_⟩, by omega, Or.inr ⟨habs, rfl, ?_, hm, ?_⟩⟩
            · simp only [dictionary.resize]
              rw [e2, Run.bind_ok, e3, Run.bind_ok]
            · rw [s3, s2, h3]; exact pa.perm hm
            · rw [z3, z2, h2, hm.length_eq]
              simp only [List.length_cons]; omega
            · rw [s3, s2, h3]
            · rw [z3, z2, h2]
          · -- the shift ended on an empty slot inside the table
            rw [if_neg hec]
            have helen : e < d1.list.length := by rw [h4, ht.len]; omega
            have hm : (d1.setSlot e (some t)).ptrs.Perm (d.store.length :: d.ptrs) :=
              (filterMap_set_none_perm d1.list e t h5).trans h10
            refine ⟨_, num, rfl, ⟨?_, ?_, ?_⟩, by simp [dictionary.setSlot, h1],
              Or.inr ⟨habs, rfl, h3, hm, h2⟩⟩
            · refine place_table (d := dictionary.mk d.capacity (d.size + 1) d.list
                  (d.store ++ [some (word.mk (dictionary.hash str) num str)]))
                (W := d.store.length) (w := word.mk (dictionary.hash str) num str)
                (q := q) (e := e) ta (by rw [ea]; exact pa) na
                (by rw [hcellA]; exact hloc) he1 (by simp only; omega) he3 he4
                (by simp [dictionary.setSlot, h1]) (by simp [dictionary.setSlot, h3])
                (by simp [dictionary.setSlot, h4]) ?_ ?_ ?_
              · simp only [dictionary.setSlot]
                rw [List.getElem?_set_ne (by omega)]
                exact (h8 hqe).1
              · intro k hk1 hk2
                simp only [dictionary.setSlot]
                rcases Nat.lt_or_ge (k + 1) e with h | h
                · rw [List.getElem?_set_ne (by omega)]
                  exact h7 k hk1 h
                · have hk : k + 1 = e := by omega
                  rw [hk, List.getElem?_set_self helen]
                  have := (h8 hqe).2
                  rw [← this]
                  congr 1
                  omega
              · intro k hk
                simp only [dictionary.setSlot]
                rw [List.getElem?_set_ne (by omega)]
                exact h6 k hk
            · show PtrsOK (d1.setSlot e (some t)).store _
              simp only [dictionary.setSlot, h3]
              exact pa.perm hm
            · show (d1.setSlot e (some t)).size = _
              rw [hm.length_eq]
              simp only [dictionary.setSlot, h2, List.length_cons]
              omega

/-! ## A larger recursion budget never changes a result -/

theorem moveAll_mono {ins ins' : dictionary → ℕ → Run (dictionary × ℕ)}
    (h : ∀ d p r, ins d p = Run.ok r → ins' d p = Run.ok r) (rest : List (Option ℕ)) :
    ∀ d r, dictionary.moveAll ins rest d = Run.ok r → dictionary.moveAll ins' rest d = Run.ok r := by
  induction rest with
  | nil => intro d r hr; exact hr
  | cons x rest ih =>
    intro d r hr
    cases x with
    | none => exact ih d r hr
    | some p =>
      simp only [dictionary.moveAll] at hr ⊢
      obtain ⟨a, ha, hb⟩ := Run.bind_eq_ok.mp hr
      rw [h d p a ha, Run.bind_ok]
      exact ih _ _ hb

theorem resizeWith_mono {ins ins' : dictionary → ℕ → Run (dictionary × ℕ)}
    (h : ∀ d p r, ins d p = Run.ok r → ins' d p = Run.ok r) (d : dictionary) (n : ℕ)
    (r : dictionary) (hr : dictionary.resizeWith ins d n = Run.ok r) :
    dictionary.resizeWith ins' d n = Run.ok r :=
  moveAll_mono h _ _ _ hr

theorem insertW_mono (f : ℕ) : ∀ d W r, dictionary.insertW f d W = Run.ok r →
    dictionary.insertW (f + 1) d W = Run.ok r := by
  induction f with
  | zero => intro d W r h; simp [dictionary.insertW] at h
  | succ f ih =>
    intro d W r h
    have hres := fun d n r => @resizeWith_mono (dictionary.insertW f)
      (dictionary.insertW (f + 1)) ih d n r
    rw [dictionary.insertW] at h ⊢
    by_cases hpre : 4 * d.size > 3 * d.capacity
    · rw [if_pos hpre] at h ⊢
      obtain ⟨d1, h1, h2⟩ := Run.bind_eq_ok.mp h
      rw [hres _ _ _ h1, Run.bind_ok]
      exact ih _ _ _ h2
    · rw [if_neg hpre] at h ⊢
      obtain ⟨w, hw, h⟩ := Run.bind_eq_ok.mp h
      obtain ⟨loc, hloc, h⟩ := Run.bind_eq_ok.mp h
      obtain ⟨s, hs, h⟩ := Run.bind_eq_ok.mp h
      rw [hw, Run.bind_ok, hloc, Run.bind_ok, hs, Run.bind_ok]
      cases s with
      | none =>
        simp only [] at h ⊢
        by_cases hc : loc = d.capacity
        · rw [if_pos hc] at h ⊢
          obtain ⟨d1, h1, h2⟩ := Run.bind_eq_ok.mp h
          rw [hres _ _ _ h1, Run.bind_ok]
          exact ih _ _ _ h2
        · rw [if_neg hc] at h ⊢
          exact h
      | some p =>
        simp only [] at h ⊢
        obtain ⟨a, ha, h⟩ := Run.bind_eq_ok.mp h
        rw [ha, Run.bind_ok]
        by_cases hc : a.2.1 = a.1.capacity
        · rw [if_pos hc] at h ⊢
          obtain ⟨d2, h1, h⟩ := Run.bind_eq_ok.mp h
          obtain ⟨r3, h2, h⟩ := Run.bind_eq_ok.mp h
          rw [hres _ _ _ h1, Run.bind_ok, ih _ _ _ h2, Run.bind_ok]
          exact h
        · rw [if_neg hc] at h ⊢
          exact h

theorem insertW_mono_le {f f' : ℕ} (hle : f ≤ f') {d : dictionary} {W : ℕ}
    {r : dictionary × ℕ} (h : dictionary.insertW f d W = Run.ok r) :
    dictionary.insertW f' d W = Run.ok r := by
  induction hle with
  | refl => exact h
  | step _ ih => exact insertW_mono _ _ _ _ ih

theorem insert_mono (f : ℕ) : ∀ d str num r, dictionary.insert f d str num = Run.ok r →
    dictionary.insert (f + 1) d str num = Run.ok r := by
  induction f with
  | zero =>
    intro d str num r h
    by_cases hne : str ≠ []
    · simp [dictionary.insert, hne] at h
    · simp only [dictionary.insert, hne, if_false] at h ⊢
      exact h
  | succ f ih =>
    intro d str num r h
    have hres : ∀ d n r, dictionary.resize f d n = Run.ok r →
        dictionary.resize (f + 1) d n = Run.ok r := fun d n r =>
      @resizeWith_mono (dictionary.insertW f) (dictionary.insertW (f + 1))
        (insertW_mono f) d n r
    rw [dictionary.insert] at h ⊢
    by_cases hne : str ≠ []
    · rw [if_pos hne] at h ⊢
      by_cases hpre : 4 * d.size > 3 * d.capacity
      · rw [if_pos hpre] at h ⊢
        obtain ⟨d1, h1, h2⟩ := Run.bind_eq_ok.mp h
        rw [hres _ _ _ h1, Run.bind_ok]
        exact ih _ _ _ _ h2
      · rw [if_neg hpre] at h ⊢
        simp only [] at h ⊢
        obtain ⟨loc, hloc, h⟩ := Run.bind_eq_ok.mp h
        obtain ⟨s, hs, h⟩ := Run.bind_eq_ok.mp h
        rw [hloc, Run.bind_ok, hs, Run.bind_ok]
        cases s with
        | none =>
          simp only [] at h ⊢
          by_cases hc : loc = d.capacity
          · rw [if_pos hc] at h ⊢
            obtain ⟨d1, h1, h2⟩ := Run.bind_eq_ok.mp h
            rw [hres _ _ _ h1, Run.bind_ok]
            exact insertW_mono _ _ _ _ h2
          · rw [if_neg hc] at h ⊢
            exact h
        | some p =>
          simp only [] at h ⊢
          obtain ⟨w, hw, h⟩ := Run.bind_eq_ok.mp h
          rw [hw, Run.bind_ok]
          by_cases hfound : w.hash = dictionary.hash str ∧ w.str = str
          · rw [if_pos hfound] at h ⊢
            exact h
          · rw [if_neg hfound] at h ⊢
            obtain ⟨a, ha, h⟩ := Run.bind_eq_ok.mp h
            rw [ha, Run.bind_ok]
            by_cases hc : a.2.1 = a.1.capacity
            · rw [if_pos hc] at h ⊢
              obtain ⟨d2, h1, h⟩ := Run.bind_eq_ok.mp h
              obtain ⟨r3, h2, h⟩ := Run.bind_eq_ok.mp h
              rw [hres _ _ _ h1, Run.bind_ok, insertW_mono _ _ _ _ h2, Run.bind_ok]
              exact h
            · rw [if_neg hc] at h ⊢
              exact h
    · rw [if_neg hne] at h ⊢
      exact h

theorem insert_mono_le {f f' : ℕ} (hle : f ≤ f') {d : dictionary} {str : List Char} {num : ℕ}
    {r : dictionary × ℕ} (h : dictionary.insert f d str num = Run.ok r) :
    dictionary.insert f' d str num = Run.ok r := by
  induction hle with
  | refl => exact h
  | step _ ih => exact insert_mono _ _ _ _ _ ih

/-- Any successful run of the public `insert` on a well-formed table has the
documented effect, whatever the recursion budget was. -/
theorem insert_post {f : ℕ} {d : dictionary} {str : List Char} {num : ℕ}
    {d' : dictionary} {r : ℕ} (hinv : DictInv d) (hne : str ≠ [])
    (hH : dictionary.hash str * 26 < 25) (hH0 : 0 ≤ dictionary.hash str)
    (h : dictionary.insert f d str num = Run.ok (d', r)) : InsertPost d str num d' r := by
  obtain ⟨d2, r2, e2, p2⟩ := insert_spec (f + 26 * (d.size + 1) + 1) d str num hinv hne hH hH0
    (by omega) (by omega)
  have := @insert_mono_le f (f + 26 * (d.size + 1) + 1) (by omega) _ _ _ _ h
  rw [e2] at this
  simp only [Run.ok.injEq, Prod.mk.injEq] at this
  obtain ⟨rfl, rfl⟩ := this
  exact p2

/-! ## The hash of a normalized word stays below 25/26 -/

theorem POW28_eq (i : ℕ) (h : i < 25) : POW28 i = 28 ^ (i + 1) := by
  interval_cases i <;> norm_num [POW28, POW28_TABLE]

theorem charAt_le {str : List Char} (h : ∀ c ∈ str, isWordChar c = true) (i : ℕ) :
    str.getD i (Char.ofNat 0) = APOSTROPHE ∨ charAt str i - 96 ≤ 26 := by
  unfold charAt
  rcases Nat.lt_or_ge i str.length with hi | hi
  · have hmem : str.getD i (Char.ofNat 0) ∈ str := by
      rw [List.getD_eq_getElem _ _ hi]
      exact List.getElem_mem hi
    have := h _ hmem
    simp only [isWordChar, isLetter, Bool.or_eq_true, decide_eq_true_eq] at this
    rcases this with h1 | h1
    · right; omega
    · left; exact h1
  · right
    rw [List.getD_eq_default _ _ hi]
    simp

theorem hashStep_le {str : List Char} (h : ∀ c ∈ str, isWordChar c = true) (x : ℚ) (i : ℕ)
    (hi : i < 25) : hashStep str x i ≤ x + 26 / 28 ^ (i + 1) := by
  unfold hashStep
  have hpos : (0 : ℚ) < 28 ^ (i + 1) := by positivity
  split
  · rename_i hne
    rcases charAt_le h i with h1 | h1
    · exact absurd h1 hne
    · rw [POW28_eq i hi]
      have : ((charAt str i - 96 : ℤ) : ℚ) ≤ 26 := by exact_mod_cast h1
      have := div_le_div_of_nonneg_right this hpos.le
      linarith
  · have : (0 : ℚ) ≤ 26 / 28 ^ (i + 1) := by positivity
    linarith

theorem hashFold_le {str : List Char} (h : ∀ c ∈ str, isWordChar c = true) (n : ℕ) :
    ∀ (i : ℕ) (x : ℚ), i + n ≤ 25 →
      (List.range' i n).foldl (hashStep str) x ≤
        x + 26 / (27 * 28 ^ i) - 26 / (27 * 28 ^ (i + n)) := by
  induction n with
  | zero => intro i x _; simp
  | succ n ih =>
    intro i x hin
    rw [List.range'_succ, List.foldl_cons]
    have h1 := ih (i + 1) (hashStep str x i) (by omega)
    have h2 := hashStep_le h x i (by omega)
    have e : i + 1 + n = i + (n + 1) := by omega
    rw [e] at h1
    have hp : (0 : ℚ) < 28 ^ i := by positivity
    have e2 : (26 : ℚ) / 28 ^ (i + 1) + 26 / (27 * 28 ^ (i + 1)) = 26 / (27 * 28 ^ i) := by
      rw [pow_succ]
      field_simp
      ring
    linarith

theorem normalized_chars {s : List Char} (h : normalized s = true) :
    s ≠ [] ∧ (∀ c ∈ s, isWordChar c = true) ∧ charAt s 0 - 97 ≤ 25 := by
  unfold normalized at h
  simp only [Bool.and_eq_true, List.all_eq_true] at h
  obtain ⟨⟨h1, h2⟩, _⟩ := h
  cases s with
  | nil => simp at h2
  | cons c cs =>
    refine ⟨by simp, h1, ?_⟩
    simp only [List.head?_cons] at h2
    simp only [isLetter, decide_eq_true_eq] at h2
    simp only [charAt, List.getD_cons_zero]
    omega

theorem hash_bound {s : List Char} (h : normalized s = true) : dictionary.hash s * 26 < 25 := by
  obtain ⟨hne, hch, h0⟩ := normalized_chars h
  unfold dictionary.hash
  rw [if_pos hne]
  simp only []
  have hlen : 0 < s.length := List.length_pos.mpr hne
  have hh0 : (((charAt s 0 - 97 : ℤ) : ℚ)) / 27 ≤ 25 / 27 := by
    have : ((charAt s 0 - 97 : ℤ) : ℚ) ≤ 25 := by exact_mod_cast h0
    linarith
  generalize (((charAt s 0 - 97 : ℤ) : ℚ)) / 27 = x0 at hh0 ⊢
  by_cases hL : s.length > DICT_MAX_CHARS
  · simp only [hL, if_true, true_and]
    have hf := hashFold_le hch (DICT_MAX_CHARS - 1) 1 x0 (by simp [DICT_MAX_CHARS])
    simp only [DICT_MAX_CHARS] at hf ⊢
    generalize List.foldl (hashStep s) x0 (List.range' 1 (11 - 1)) = y at hf ⊢
    norm_num at hf
    split
    · have hc : ((charAt s 11 - 96 : ℤ) : ℚ) / POW28 11 ≤ 26 / 28 ^ 12 := by
        rw [POW28_eq 11 (by norm_num)]
        rcases charAt_le hch 11 with h1 | h1
        · have : charAt s 11 = 39 := by
            unfold charAt; rw [h1]; rfl
          rw [this]
          norm_num
        · have : ((charAt s 11 - 96 : ℤ) : ℚ) ≤ 26 := by exact_mod_cast h1
          have hp : (0 : ℚ) < 28 ^ 12 := by positivity
          exact div_le_div_of_nonneg_right this hp.le
      generalize ((charAt s 11 - 96 : ℤ) : ℚ) / POW28 11 = z at hc ⊢
      norm_num at hc
      linarith
    · linarith
  · have hle : s.length ≤ 11 := by simpa [DICT_MAX_CHARS] using hL
    simp only [hL, if_false, lt_irrefl, false_and]
    have hf := hashFold_le hch (s.length - 1) 1 x0 (by omega)
    generalize List.foldl (hashStep s) x0 (List.range' 1 (s.length - 1)) = y at hf ⊢
    have hp : (0 : ℚ) < 26 / (27 * 28 ^ (1 + (s.length - 1))) := by positivity
    generalize (26 : ℚ) / (27 * 28 ^ (1 + (s.length - 1))) = z at hf hp
    norm_num at hf
    linarith

theorem normalized_ne_nil {s : List Char} (h : normalized s = true) : s ≠ [] :=
  (normalized_chars h).1

/-! ## Tables of any hashes

The lemmas of this part do not use the order of the hashes: they hold whatever the
comparison in the first scan loop answers, hence also for the words whose hash is
negative. -/

theorem PtrsW.of_perm {store : List (Option word)} {L L' : List ℕ} (h : PtrsW store L)
    (hp : L'.Perm L) : PtrsW store L' :=
  ⟨hp.nodup_iff.mpr h.1, fun p hpm => h.2 p (hp.mem_iff.mp hpm)⟩

theorem PtrsW.of_sublist {store : List (Option word)} {L L' : List ℕ} (h : PtrsW store L)
    (hs : L'.Sublist L) : PtrsW store L' :=
  ⟨h.1.sublist hs, fun p hp => h.2 p (hs.subset hp)⟩

theorem LocB.occupied {T : ℕ → Option (Option word)} {i : ℕ} {H : ℚ} {str : List Char} {q : ℕ}
    (h : LocB T i H str q) : i ≤ q ∧ ∀ k, i ≤ k → k < q → ∃ v, T k = some (some v) := by
  obtain ⟨k1, s1, s2⟩ := h
  refine ⟨le_trans s1.1 s2.1, fun k hk1 hk2 => ?_⟩
  rcases Nat.lt_or_ge k k1 with h' | h'
  · obtain ⟨w, hw, _⟩ := s1.2.1 k hk1 h'
    exact ⟨w, hw⟩
  · obtain ⟨w, hw, _⟩ := s2.2.1 k h' hk2
    exact ⟨w, hw⟩

/-- Putting a word at the slot where its scan stopped, after moving the occupied run
that starts there one slot towards the end, keeps every probe run contiguous. -/
theorem Contig_insert {cap : ℕ} {T T' : ℕ → Option (Option word)} {X : word} {q e : ℕ}
    (hC : Contig cap T)
    (hX1 : slotIndex cap X.hash ≤ q)
    (hX2 : ∀ k, slotIndex cap X.hash ≤ k → k < q → ∃ v, T k = some (some v))
    (hqe : q ≤ e)
    (hocc : ∀ k, q ≤ k → k < e → ∃ w, T k = some (some w))
    (he : T e = some none)
    (hq : T' q = some (some X))
    (hmid : ∀ k, q ≤ k → k < e → T' (k + 1) = T k)
    (hout : ∀ k, (k < q ∨ e < k) → T' k = T k) : Contig cap T' := by
  have hmid' : ∀ k, q < k → k ≤ e → T' k = T (k - 1) := by
    intro k h1 h2
    have := hmid (k - 1) (by omega) (by omega)
    rwa [Nat.sub_add_cancel (by omega)] at this
  intro j w hj
  rcases lt_trichotomy j q with hjq | hjq | hjq
  · rw [hout j (Or.inl hjq)] at hj
    obtain ⟨h1, h2⟩ := hC j w hj
    refine ⟨h1, fun k hk1 hk2 => ?_⟩
    rw [hout k (Or.inl (by omega))]
    exact h2 k hk1 hk2
  · subst hjq
    rw [hq] at hj
    obtain rfl : X = w := by simpa using hj
    refine ⟨hX1, fun k hk1 hk2 => ?_⟩
    rw [hout k (Or.inl hk2)]
    exact hX2 k hk1 hk2
  · by_cases hje : j ≤ e
    · rw [hmid' j hjq hje] at hj
      obtain ⟨h1, h2⟩ := hC (j - 1) w hj
      refine ⟨by omega, fun k hk1 hk2 => ?_⟩
      rcases lt_trichotomy k q with hk | hk | hk
      · rw [hout k (Or.inl hk)]
        exact h2 k hk1 (by omega)
      · subst hk
        exact ⟨X, hq⟩
      · rw [hmid' k hk (by omega)]
        exact hocc (k - 1) (by omega) (by omega)
    · have hej : e < j := by omega
      rw [hout j (Or.inr hej)] at hj
      obtain ⟨h1, h2⟩ := hC j w hj
      have hidx : e < slotIndex cap w.hash := by
        by_contra hc
        obtain ⟨v, hv⟩ := h2 e (by omega) hej
        rw [he] at hv
        simp at hv
      refine ⟨h1, fun k hk1 hk2 => ?_⟩
      rw [hout k (Or.inr (by omega))]
      exact h2 k hk1 hk2

/-- A change of the stored objects that keeps every hash and every occupied slot
keeps the probe runs contiguous. -/
theorem Contig.of_rel {cap : ℕ} {T T' : ℕ → Option (Option word)} (hC : Contig cap T)
    (h1 : ∀ j v', T' j = some (some v') → ∃ v, T j = some (some v) ∧ v.hash = v'.hash)
    (h2 : ∀ k v, T k = some (some v) → ∃ v', T' k = some (some v')) : Contig cap T' := by
  intro j v' hj
  obtain ⟨v, hv, hh⟩ := h1 j v' hj
  obtain ⟨a, b⟩ := hC j v hv
  rw [← hh]
  refine ⟨a, fun k hk1 hk2 => ?_⟩
  obtain ⟨u, hu⟩ := b k hk1 hk2
  exact h2 k u hu

theorem locate_existsB {d : dictionary} (ht : TableW d)
    (hp : ∀ p ∈ d.ptrs, ∃ w, d.store[p]? = some (some w)) (H : ℚ) (hH : H * 26 < 25)
    (str : List Char) :
    ∃ q, q ≤ d.capacity ∧ LocB d.cell (slotIndex d.capacity H) H str q := by
  have hlive := cell_ne_none ht.len hp
  have hsent : d.cell d.capacity = some none := (cell_none_iff d _).mpr ht.sentinel
  have hidx : slotIndex d.capacity H ≤ d.capacity := by
    have := slotIndex_bound ht.cap_pos hH
    omega
  obtain ⟨k1, hk1, s1⟩ := scan_exists d.cell (passB H) d.capacity hlive hsent _ hidx
  obtain ⟨q, hq, s2⟩ := scan_exists d.cell (passS str) d.capacity hlive hsent k1 hk1
  exact ⟨q, hq, k1, s1, s2⟩

/-- When the scan and the run that follows it are fully occupied up to `e`, the table
holds at least `e - index` words. -/
theorem run_le_ptrsB {d : dictionary} {H : ℚ} {str : List Char} {q e : ℕ}
    (hloc : LocB d.cell (slotIndex d.capacity H) H str q)
    (hocc : ∀ k, q ≤ k → k < e → ∃ p, d.list[k]? = some (some p)) :
    e - slotIndex d.capacity H ≤ d.ptrs.length := by
  obtain ⟨k1, s1, s2⟩ := hloc
  apply occupied_le_length
  intro k hk1 hk2
  rcases Nat.lt_or_ge k q with h | h
  · rcases Nat.lt_or_ge k k1 with h' | h'
    · obtain ⟨w, hw, _⟩ := s1.2.1 k hk1 h'
      obtain ⟨p, hp, _⟩ := (cell_some_iff d k w).mp hw
      exact ⟨p, hp⟩
    · obtain ⟨w, hw, _⟩ := s2.2.1 k h' h
      obtain ⟨p, hp, _⟩ := (cell_some_iff d k w).mp hw
      exact ⟨p, hp⟩
  · exact hocc k h hk2

theorem place_tableW {d d' : dictionary} {W : ℕ} {w : word} {q e : ℕ}
    (ht : TableW d) (hp : PtrsW d.store (W :: d.ptrs)) (hW : d.store[W]? = some (some w))
    (hloc : LocB d.cell (slotIndex d.capacity w.hash) w.hash w.str q)
    (hqe : q ≤ e) (hec : e < d.capacity)
    (hocc : ∀ k, q ≤ k → k < e → ∃ p, d.list[k]? = some (some p))
    (he : d.list[e]? = some none)
    (hcap : d'.capacity = d.capacity) (hstore : d'.store = d.store)
    (hlen : d'.list.length = d.list.length)
    (hq : d'.list[q]? = some (some W))
    (hmid : ∀ k, q ≤ k → k < e → d'.list[k + 1]? = d.list[k]?)
    (hout : ∀ k, k < q ∨ e < k → d'.list[k]? = d.list[k]?) : TableW d' := by
  refine ⟨by rw [hcap]; exact ht.cap_pos, by rw [hlen, hcap]; exact ht.len, ?_, ?_⟩
  · rw [hcap, hout _ (Or.inr hec)]; exact ht.sentinel
  · rw [hcap]
    obtain ⟨hi1, hi2⟩ := hloc.occupied
    refine Contig_insert (X := w) (q := q) (e := e) ht.contig hi1 hi2 hqe ?_
      ((cell_none_iff d e).mpr he) ?_ ?_ ?_
    · intro k hk1 hk2
      obtain ⟨p, hpk⟩ := hocc k hk1 hk2
      obtain ⟨v, hv, _⟩ := hp.2 p (List.mem_cons_of_mem _ ((mem_ptrs_iff d p).mpr ⟨k, hpk⟩))
      exact ⟨v, (cell_some_iff d k v).mpr ⟨p, hpk, hv⟩⟩
    · rw [cell_some_iff]
      exact ⟨W, hq, by rw [hstore]; exact hW⟩
    · intro k hk1 hk2
      exact cell_congr hstore (hmid k hk1 hk2)
    · intro k hk
      exact cell_congr hstore (hout k hk)

/-! ## Resizing a table of any hashes -/

theorem moveAll_specW (f : ℕ) (hf : InsertWSpecW f) (rest : List (Option ℕ)) :
    ∀ (d : dictionary), TableW d → PtrsW d.store (d.ptrs ++ rest.filterMap id) →
      d.ptrs.length + (rest.filterMap id).length ≤ d.size → 1 ≤ f →
      26 * d.size + 1 ≤ f + d.capacity →
      ∃ d', dictionary.moveAll (dictionary.insertW f) rest d = Run.ok d' ∧ TableW d' ∧
        d'.store = d.store ∧ d'.size = d.size ∧ d.capacity ≤ d'.capacity ∧
        d'.ptrs.Perm (d.ptrs ++ rest.filterMap id) := by
  induction rest with
  | nil =>
    intro d ht _ _ _ _
    exact ⟨d, rfl, ht, rfl, rfl, le_refl _, by simp⟩
  | cons x rest ih =>
    intro d ht hp hsz h1 hfuel
    cases x with
    | none =>
      simp only [List.filterMap_cons, id] at hp hsz ⊢
      exact ih d ht hp hsz h1 hfuel
    | some p =>
      simp only [List.filterMap_cons, id, List.length_cons] at hp hsz ⊢
      have hperm : (d.ptrs ++ p :: rest.filterMap id).Perm ((p :: d.ptrs) ++ rest.filterMap id) := by
        simp
      have hp2 : PtrsW d.store ((p :: d.ptrs) ++ rest.filterMap id) := hp.of_perm hperm.symm
      have hp3 : PtrsW d.store (p :: d.ptrs) := hp2.of_sublist (List.sublist_append_left _ _)
      obtain ⟨w, hw, _⟩ := hp3.2 p (List.mem_cons_self _ _)
      obtain ⟨d1, e1, t1, s1, z1, c1, m1⟩ := hf d p w ht hp3 hw (by omega) h1 hfuel
      have hp4 : PtrsW d1.store (d1.ptrs ++ rest.filterMap id) := by
        rw [s1]
        exact hp2.of_perm (List.Perm.append_right _ m1)
      obtain ⟨d2, e2, t2, s2, z2, c2, m2⟩ := ih d1 t1 hp4
        (by rw [z1, m1.length_eq]; simp only [List.length_cons]; omega) h1 (by rw [z1]; omega)
      refine ⟨d2, ?_, t2, by rw [s2, s1], by rw [z2, z1], by omega, ?_⟩
      · simp only [dictionary.moveAll, e1, Run.bind_ok]
        exact e2
      · exact m2.trans ((List.Perm.append_right _ m1).trans hperm.symm)

theorem resize_specW (f : ℕ) (hf : InsertWSpecW f) (d : dictionary) (newSize : ℕ)
    (hnew : 0 < newSize) (hlen : d.list.length = d.capacity + 1)
    (hs : d.list[d.capacity]? = some none) (hp : PtrsW d.store d.ptrs)
    (hsz : d.ptrs.length ≤ d.size) (h1 : 1 ≤ f) (hfuel : 26 * d.size + 1 ≤ f + newSize) :
    ∃ d', dictionary.resizeWith (dictionary.insertW f) d newSize = Run.ok d' ∧ TableW d' ∧
      d'.store = d.store ∧ d'.size = d.size ∧ newSize ≤ d'.capacity ∧ d'.ptrs.Perm d.ptrs := by
  unfold dictionary.resizeWith
  have hptr0 : dictionary.ptrs (dictionary.mk newSize d.size (List.replicate (newSize + 1) none) d.store) = [] := by
    simp [dictionary.ptrs, List.filterMap_replicate]
  have ht0 : TableW (dictionary.mk newSize d.size (List.replicate (newSize + 1) none) d.store) := by
    refine ⟨hnew, by simp, by simp [List.getElem?_replicate], ?_⟩
    intro j w hj
    exfalso
    obtain ⟨p, hpj, _⟩ := (cell_some_iff _ j w).mp hj
    simp [List.getElem?_replicate] at hpj
  obtain ⟨d', e1, t1, s1, z1, c1, m1⟩ := moveAll_specW f hf (d.list.take d.capacity)
    (dictionary.mk newSize d.size (List.replicate (newSize + 1) none) d.store) ht0
    (by rw [hptr0, ptrs_take hlen hs]; simpa using hp)
    (by rw [hptr0, ptrs_take hlen hs]; simpa using hsz) h1 hfuel
  refine ⟨d', e1, t1, s1, z1, c1, ?_⟩
  rw [hptr0, ptrs_take hlen hs] at m1
  simpa using m1

theorem insertW_specW (f : ℕ) : InsertWSpecW f := by
  induction f with
  | zero =>
    intro d W w _ _ _ _ h1 _
    omega
  | succ f ih =>
    intro d W w ht hp hW hsz _ hfuel
    have hpd : PtrsW d.store d.ptrs := hp.of_sublist (List.sublist_cons_self _ _)
    have hlive : ∀ p ∈ d.ptrs, ∃ w, d.store[p]? = some (some w) := fun p hpm => by
      obtain ⟨v, hv, _⟩ := hpd.2 p hpm
      exact ⟨v, hv⟩
    have hwok : wordW w := by
      obtain ⟨v, hv, hok⟩ := hp.2 W (List.mem_cons_self _ _)
      rw [hW] at hv
      obtain rfl : w = v := by simpa using hv
      exact hok
    have hcap := ht.cap_pos
    rw [dictionary.insertW]
    by_cases hpre : 4 * d.size > 3 * d.capacity
    · -- over 75% full: resize and retry
      rw [if_pos hpre, shiftLeft_one]
      obtain ⟨d1, e1, t1, s1, z1, c1, m1⟩ := resize_specW f ih d (2 * d.capacity) (by omega)
        ht.len ht.sentinel hpd (by omega) (by omega) (by omega)
      obtain ⟨d2, e2, t2, s2, z2, c2, m2⟩ := ih d1 W w t1
        (by rw [s1]; exact hp.of_perm (List.Perm.cons _ m1)) (by rw [s1]; exact hW)
        (by rw [z1, m1.length_eq]; exact hsz) (by omega) (by rw [z1]; omega)
      refine ⟨d2, ?_, t2, by rw [s2, s1], by rw [z2, z1], by omega,
        m2.trans (List.Perm.cons _ m1)⟩
      rw [e1, Run.bind_ok]; exact e2
    · rw [if_neg hpre, deref_eq_ok hW, Run.bind_ok]
      obtain ⟨q, hq, hloc⟩ := locate_existsB ht hlive w.hash hwok.2 w.str
      have hlocate : d.locate w.hash w.str = Run.ok q :=
        (locate_eq_ok_iffB d _ _ q).mpr hloc
      rw [hlocate, Run.bind_ok]
      have hidx := slotIndex_bound hcap hwok.2
      have hqlen : q < d.list.length := by rw [ht.len]; omega
      cases hs : d.list[q] with
      | none =>
        have hsq : d.list[q]? = some none := by rw [List.getElem?_eq_getElem hqlen, hs]
        rw [slot_eq_ok hsq, Run.bind_ok]
        simp only []
        by_cases hqc : q = d.capacity
        · -- the scan ran into the sentinel: resize and retry
          rw [if_pos hqc, shiftLeft_one]
          have hrun := run_le_ptrsB (e := q) hloc (fun k h1 h2 => absurd h1 (by omega))
          obtain ⟨d1, e1, t1, s1, z1, c1, m1⟩ := resize_specW f ih d (2 * d.capacity) (by omega)
            ht.len ht.sentinel hpd (by omega) (by omega) (by omega)
          obtain ⟨d2, e2, t2, s2, z2, c2, m2⟩ := ih d1 W w t1
            (by rw [s1]; exact hp.of_perm (List.Perm.cons _ m1)) (by rw [s1]; exact hW)
            (by rw [z1, m1.length_eq]; exact hsz) (by omega) (by rw [z1]; omega)
          refine ⟨d2, ?_, t2, by rw [s2, s1], by rw [z2, z1], by omega,
            m2.trans (List.Perm.cons _ m1)⟩
          rw [e1, Run.bind_ok]; exact e2
        · -- an empty slot inside the table
          rw [if_neg hqc]
          refine ⟨d.setSlot q (some W), rfl, ?_, rfl, rfl, le_refl _, ?_⟩
          · refine place_tableW (q := q) (e := q) ht hp hW hloc (le_refl _) (by omega)
              (fun k h1 h2 => absurd h1 (by omega)) hsq rfl rfl (by simp [dictionary.setSlot])
              ?_ (fun k h1 h2 => absurd h1 (by omega)) ?_
            · simp only [dictionary.setSlot]
              rw [List.getElem?_set_self hqlen]
            · intro k hk
              simp only [dictionary.setSlot]
              rw [List.getElem?_set_ne (by omega)]
          · exact filterMap_set_none_perm d.list q W hsq
      | some p0 =>
        have hsq : d.list[q]? = some (some p0) := by rw [List.getElem?_eq_getElem hqlen, hs]
        rw [slot_eq_ok hsq, Run.bind_ok]
        simp only []
        obtain ⟨e, he1, he2, he3, he4⟩ := first_null d.list d.capacity ht.sentinel q hq
        obtain ⟨d1, t, h0, h1, h2, h3, h4, h5, h6, h7, h8, h9, h10⟩ :=
          shift_spec (d.list.length + 1 - q) d q e W he1 (by rw [ht.len]; omega) he3 he4
        rw [h0, Run.bind_ok]
        simp only []
        have hqe : q < e := by
          rcases Nat.eq_or_lt_of_le he1 with h | h
          · subst h; rw [hsq] at he4; simp at he4
          · exact h
        by_cases hec : e = d1.capacity
        · -- the shift ran into the sentinel: resize, then insert the last word
          rw [if_pos hec, shiftLeft_one]
          have hrun := run_le_ptrsB hloc he3
          have hpt : PtrsW d1.store (t :: d1.ptrs) := by rw [h3]; exact hp.of_perm h10
          obtain ⟨wt, hwt, _⟩ := hpt.2 t (List.mem_cons_self _ _)
          have hlen1 : d1.ptrs.length = d.ptrs.length := by
            have := h10.length_eq
            simpa using this
          obtain ⟨d2, e2, t2, s2, z2, c2, m2⟩ := resize_specW f ih d1 (2 * d1.capacity)
            (by omega) (by rw [h4, h1]; exact ht.len) (by rw [← hec]; exact h5)
            (hpt.of_sublist (List.sublist_cons_self _ _)) (by omega) (by omega) (by omega)
          obtain ⟨d3, e3, t3, s3, z3, c3, m3⟩ := ih d2 t wt t2
            (by rw [s2]; exact hpt.of_perm (List.Perm.cons _ m2)) (by rw [s2]; exact hwt)
            (by rw [z2, m2.length_eq]; omega) (by omega) (by rw [z2]; omega)
          refine ⟨d3, ?_, t3, by rw [s3, s2, h3], by rw [z3, z2, h2], by omega,
            m3.trans ((List.Perm.cons _ m2).trans h10)⟩
          rw [e2, Run.bind_ok, e3, Run.bind_ok]
        · -- the shift ended on an empty slot inside the table
          rw [if_neg hec]
          have helen : e < d1.list.length := by rw [h4, ht.len]; omega
          refine ⟨d1.setSlot e (some t), rfl, ?_, h3, h2, by simp [dictionary.setSlot, h1], ?_⟩
          · refine place_tableW (q := q) (e := e) ht hp hW hloc he1 (by omega) he3 he4
              (by simp [dictionary.setSlot, h1]) (by simp [dictionary.setSlot, h3])
              (by simp [dictionary.setSlot, h4]) ?_ ?_ ?_
            · simp only [dictionary.setSlot]
              rw [List.getElem?_set_ne (by omega)]
              exact (h8 hqe).1
            · intro k hk1 hk2
              simp only [dictionary.setSlot]
              rcases Nat.lt_or_ge (k + 1) e with h | h
              · rw [List.getElem?_set_ne (by omega)]
                exact h7 k hk1 h
              · have hk : k + 1 = e := by omega
                rw [hk, List.getElem?_set_self helen]
                have := (h8 hqe).2
                rw [← this]
                congr 1
                omega
            · intro k hk
              simp only [dictionary.setSlot]
              rw [List.getElem?_set_ne (by omega)]
              exact h6 k hk
          · exact (filterMap_set_none_perm d1.list e t h5).trans h10

/-! ## The public insert on a table of any hashes -/

theorem alloc_okW {d : dictionary} (ht : TableW d) (hp : PtrsW d.store d.ptrs) {X : word}
    (hX : wordW X) (s : ℕ) :
    TableW (dictionary.mk d.capacity s d.list (d.store ++ [some X])) ∧
    PtrsW (d.store ++ [some X]) (d.store.length :: d.ptrs) ∧
    (d.store ++ [some X])[d.store.length]? = some (some X) ∧
    (dictionary.mk d.capacity s d.list (d.store ++ [some X])).ptrs = d.ptrs := by
  have hlive : ∀ p ∈ d.ptrs, ∃ w, d.store[p]? = some (some w) := fun p hpm => by
    obtain ⟨v, hv, _⟩ := hp.2 p hpm
    exact ⟨v, hv⟩
  have hlt : ∀ p ∈ d.ptrs, p < d.store.length := fun p hpm => by
    obtain ⟨v, hv⟩ := hlive p hpm
    by_contra hc
    rw [List.getElem?_eq_none (by omega)] at hv
    simp at hv
  have hnew : (d.store ++ [some X])[d.store.length]? = some (some X) := by
    simp
  have hold : ∀ p ∈ d.ptrs, (d.store ++ [some X])[p]? = d.store[p]? := fun p hpm => by
    rw [List.getElem?_append_left (hlt p hpm)]
  refine ⟨⟨ht.cap_pos, ht.len, ht.sentinel, ?_⟩, ⟨?_, ?_⟩, hnew, rfl⟩
  · have : dictionary.cell (dictionary.mk d.capacity s d.list (d.store ++ [some X])) = d.cell := by
      funext k
      exact cell_alloc hlive (some X) d.list rfl d.capacity s k
    show Contig d.capacity
      (dictionary.cell (dictionary.mk d.capacity s d.list (d.store ++ [some X])))
    rw [this]
    exact ht.contig
  · exact List.nodup_cons.mpr ⟨fun h => absurd (hlt _ h) (lt_irrefl _), hp.1⟩
  · intro p hpm
    rcases List.mem_cons.mp hpm with h | h
    · subst h; exact ⟨X, hnew, hX⟩
    · obtain ⟨v, hv, hok⟩ := hp.2 p h
      exact ⟨v, by rw [hold p h]; exact hv, hok⟩

/-- Changing the count of the word at address `p` keeps the shape of the table. -/
theorem tableW_set_num {d : dictionary} (ht : TableW d) (hp : PtrsW d.store d.ptrs)
    {p : ℕ} {w : word} (hw : d.store[p]? = some (some w)) (n : ℕ) :
    TableW { d with store := d.store.set p (some { w with num := n }) } ∧
    PtrsW (d.store.set p (some { w with num := n })) d.ptrs := by
  have hplen : p < d.store.length := by
    by_contra hc
    rw [List.getElem?_eq_none (by omega)] at hw
    simp at hw
  have hget : ∀ p', (d.store.set p (some { w with num := n }))[p']? =
      if p' = p then some (some { w with num := n }) else d.store[p']? := by
    intro p'
    by_cases h : p' = p
    · subst h; simp [List.getElem?_set_self hplen]
    · rw [List.getElem?_set_ne (Ne.symm h)]; simp [h]
  constructor
  · refine ⟨ht.cap_pos, ht.len, ht.sentinel, ?_⟩
    show Contig d.capacity
      (dictionary.cell { d with store := d.store.set p (some { w with num := n }) })
    refine ht.contig.of_rel ?_ ?_
    · intro j v' hj
      obtain ⟨p', h1, h2⟩ := (cell_some_iff _ j v').mp hj
      simp only at h1 h2
      rw [hget p'] at h2
      by_cases h : p' = p
      · subst h
        simp only [if_true, Option.some.injEq] at h2
        subst h2
        exact ⟨w, (cell_some_iff d j w).mpr ⟨p', h1, hw⟩, rfl⟩
      · simp only [h, if_false] at h2
        exact ⟨v', (cell_some_iff d j v').mpr ⟨p', h1, h2⟩, rfl⟩
    · intro k v hk
      obtain ⟨p', h1, h2⟩ := (cell_some_iff d k v).mp hk
      by_cases h : p' = p
      · subst h
        exact ⟨{ w with num := n }, (cell_some_iff _ k _).mpr ⟨p', h1, by
          simp only; rw [hget p']; simp⟩⟩
      · exact ⟨v, (cell_some_iff _ k _).mpr ⟨p', h1, by
          simp only; rw [hget p']; simp [h, h2]⟩⟩
  · refine ⟨hp.1, fun p' hp' => ?_⟩
    obtain ⟨v, hv, hok⟩ := hp.2 p' hp'
    rw [hget p']
    by_cases h : p' = p
    · subst h
      rw [hw] at hv
      obtain rfl : w = v := by simpa using hv
      exact ⟨{ w with num := n }, by simp, hok⟩
    · exact ⟨v, by simp [h, hv], hok⟩

/-- The public `insert` returns on every table of the shape `WInv`, for a recursion
budget that covers the doublings still needed, and keeps that shape. -/
theorem insert_specW (f : ℕ) : ∀ (d : dictionary) (str : List Char) (num : ℕ),
    WInv d → str ≠ [] → dictionary.hash str * 26 < 25 → 1 ≤ f →
    26 * (d.size + 1) + 1 ≤ f + d.capacity →
    ∃ d' r, dictionary.insert f d str num = Run.ok (d', r) ∧ InsertPostW d str num d' r := by
  induction f with
  | zero => intro d str num _ _ _ h1 _; omega
  | succ f ih =>
    intro d str num hinv hne hH _ hfuel
    have ht := hinv.table
    have hpd := hinv.ptrs
    have hsz := hinv.size_eq
    have hcap := ht.cap_pos
    have hlive : ∀ p ∈ d.ptrs, ∃ w, d.store[p]? = some (some w) := fun p hpm => by
      obtain ⟨v, hv, _⟩ := hpd.2 p hpm
      exact ⟨v, hv⟩
    have hXok : wordW (word.mk (dictionary.hash str) num str) := ⟨rfl, hH⟩
    rw [dictionary.insert, if_pos hne]
    by_cases hpre : 4 * d.size > 3 * d.capacity
    · -- over 75% full: resize and retry
      rw [if_pos hpre, shiftLeft_one]
      obtain ⟨d1, e1, t1, s1, z1, c1, m1⟩ := resize_specW f (insertW_specW f) d (2 * d.capacity)
        (by omega) ht.len ht.sentinel hpd (by omega) (by omega) (by omega)
      have hinv1 : WInv d1 :=
        ⟨t1, by rw [s1]; exact hpd.of_perm m1, by rw [z1, m1.length_eq]; exact hsz⟩
      obtain ⟨d2, r, e2, i2, c2, hcase⟩ := ih d1 str num hinv1 hne hH (by omega)
        (by rw [z1]; omega)
      refine ⟨d2, r, ?_, i2, by omega, ?_⟩
      · simp only [dictionary.resize]
        rw [e1, Run.bind_ok]; exact e2
      · rcases hcase with ⟨p, w, h1, h2, h3, h4, h5, h6, h7⟩ | ⟨h2, h3, h4, h5⟩
        · left
          exact ⟨p, w, m1.mem_iff.mp h1, by rw [← s1]; exact h2, h3, h4, by rw [h5, s1],
            h6.trans m1, by rw [h7, z1]⟩
        · right
          exact ⟨h2, by rw [h3, s1],
            by rw [← s1]; exact h4.trans (List.Perm.cons _ m1), by rw [h5, z1]⟩
    · rw [if_neg hpre]
      simp only []
      obtain ⟨q, hq, hloc⟩ := locate_existsB ht hlive (dictionary.hash str) hH str
      have hlocate : d.locate (dictionary.hash str) str = Run.ok q :=
        (locate_eq_ok_iffB d _ _ q).mpr hloc
      rw [hlocate, Run.bind_ok]
      have hidx := slotIndex_bound hcap hH
      have hqlen : q < d.list.length := by rw [ht.len]; omega
      cases hs : d.list[q] with
      | none =>
        have hsq : d.list[q]? = some none := by rw [List.getElem?_eq_getElem hqlen, hs]
        obtain ⟨ta, pa, na, ea⟩ := alloc_okW ht hpd hXok (d.size + 1)
        rw [slot_eq_ok hsq, Run.bind_ok]
        simp only []
        by_cases hqc : q = d.capacity
        · -- the scan ran into the sentinel: resize, then insert the new word
          rw [if_pos hqc, shiftLeft_one]
          have hrun := run_le_ptrsB (e := q) hloc (fun k h1 h2 => absurd h1 (by omega))
          obtain ⟨d1, e1, t1, s1, z1, c1, m1⟩ := resize_specW f (insertW_specW f) d
            (2 * d.capacity) (by omega) ht.len ht.sentinel hpd (by omega) (by omega) (by omega)
          obtain ⟨ta1, pa1, na1, ea1⟩ := alloc_okW t1 (by rw [s1]; exact hpd.of_perm m1) hXok
            (d1.size + 1)
          obtain ⟨d2, e2, t2, s2, z2, c2, m2⟩ := insertW_specW f
            (dictionary.mk d1.capacity (d1.size + 1) d1.list
              (d1.store ++ [some (word.mk (dictionary.hash str) num str)]))
            d1.store.length (word.mk (dictionary.hash str) num str) ta1
            (by rw [ea1]; exact pa1) na1
            (by
              have hl := congrArg List.length ea1
              rw [m1.length_eq] at hl
              rw [hl]
              show d.ptrs.length < d1.size + 1
              omega) (by omega)
            (by
              show 26 * (d1.size + 1) + 1 ≤ f + d1.capacity
              rw [z1]; omega)
          refine ⟨d2, num, ?_, ⟨t2, ?_, ?_⟩, ?_, Or.inr ⟨rfl, ?_, ?_, ?_⟩⟩
          · simp only [dictionary.resize]
            rw [e1, Run.bind_ok]
            exact e2
          · rw [s2]
            exact pa1.of_perm (by rw [ea1] at m2; exact m2)
          · rw [z2, m2.length_eq, ea1]
            simp only [List.length_cons]
            rw [m1.length_eq, z1, hsz]
          · simp only at c2; omega
          · rw [s2, s1]
          · rw [ea1] at m2
            rw [← s1]
            exact m2.trans (List.Perm.cons _ m1)
          · rw [z2]; simp only; rw [z1]
        · -- an empty slot inside the table
          rw [if_neg hqc]
          refine ⟨_, num, rfl, ⟨?_, ?_, ?_⟩, le_refl _, Or.inr ⟨rfl, rfl, ?_, rfl⟩⟩
          · refine place_tableW (d := dictionary.mk d.capacity (d.size + 1) d.list
                (d.store ++ [some (word.mk (dictionary.hash str) num str)]))
              (W := d.store.length) (w := word.mk (dictionary.hash str) num str)
              (q := q) (e := q) ta (by rw [ea]; exact pa) na
              ?_ (le_refl _) (by simp only; omega)
              (fun k h1 h2 => absurd h1 (by omega)) hsq rfl rfl
              (by simp [dictionary.setSlot, dictionary.alloc])
              ?_ (fun k h1 h2 => absurd h1 (by omega)) ?_
            · have : dictionary.cell (dictionary.mk d.capacity (d.size + 1) d.list
                  (d.store ++ [some (word.mk (dictionary.hash str) num str)])) = d.cell := by
                funext k
                exact cell_alloc hlive _ d.list rfl d.capacity _ k
              rw [this]
              exact hloc
            · simp only [dictionary.setSlot, dictionary.alloc]
              rw [List.getElem?_set_self hqlen]
            · intro k hk
              simp only [dictionary.setSlot, dictionary.alloc]
              rw [List.getElem?_set_ne (by omega)]
          · simp only [dictionary.setSlot, dictionary.alloc]
            refine pa.of_perm ?_
            exact filterMap_set_none_perm d.list q d.store.length hsq
          · simp only [dictionary.setSlot, dictionary.alloc, dictionary.ptrs]
            rw [(filterMap_set_none_perm d.list q d.store.length hsq).length_eq]
            simp only [List.length_cons]
            rw [hsz]; rfl
          · simp only [dictionary.setSlot, dictionary.alloc]
            exact filterMap_set_none_perm d.list q d.store.length hsq
      | some p0 =>
        have hsq : d.list[q]? = some (some p0) := by rw [List.getElem?_eq_getElem hqlen, hs]
        have hp0 : p0 ∈ d.ptrs := (mem_ptrs_iff d p0).mpr ⟨q, hsq⟩
        obtain ⟨w0, hw0, hw0ok⟩ := hpd.2 p0 hp0
        rw [slot_eq_ok hsq, Run.bind_ok]
        simp only []
        rw [deref_eq_ok hw0, Run.bind_ok]
        by_cases hfound : w0.hash = dictionary.hash str ∧ w0.str = str
        · -- the scan stopped at a record of the word: add to its count
          rw [if_pos hfound]
          obtain ⟨tn, pn⟩ := tableW_set_num ht hpd hw0 ((w0.num + num) % SIZE_MOD)
          exact ⟨_, _, rfl, ⟨tn, pn, hsz⟩, le_refl _,
            Or.inl ⟨p0, w0, hp0, hw0, hfound.2, rfl, rfl, List.Perm.refl _, rfl⟩⟩
        · -- a new word that goes before the word at `q`
          rw [if_neg hfound]
          obtain ⟨ta, pa, na, ea⟩ := alloc_okW ht hpd hXok (d.size + 1)
          obtain ⟨e, he1, he2, he3, he4⟩ := first_null d.list d.capacity ht.sentinel q hq
          obtain ⟨d1, t, h0, h1, h2, h3, h4, h5, h6, h7, h8, h9, h10⟩ :=
            shift_spec (d.list.length + 1 - q)
              (dictionary.mk d.capacity (d.size + 1) d.list
                (d.store ++ [some (word.mk (dictionary.hash str) num str)]))
              q e d.store.length he1 (by rw [ht.len]; omega) he3 he4
          simp only [dictionary.alloc]
          rw [h0, Run.bind_ok]
          simp only [] at h1 h2 h3 h4 h6 h7 h8 ⊢
          rw [ea] at h10
          have hqe : q < e := by
            rcases Nat.eq_or_lt_of_le he1 with h | h
            · subst h; rw [hsq] at he4; simp at he4
            · exact h
          have hcellA : dictionary.cell (dictionary.mk d.capacity (d.size + 1) d.list
              (d.store ++ [some (word.mk (dictionary.hash str) num str)])) = d.cell := by
            funext k
            exact cell_alloc hlive _ d.list rfl d.capacity _ k
          by_cases hec : e = d1.capacity
          · -- the shift ran into the sentinel: resize, then insert the last word
            rw [if_pos hec, shiftLeft_one]
            have hrun := run_le_ptrsB hloc he3
            have hpt : PtrsW d1.store (t :: d1.ptrs) := by rw [h3]; exact pa.of_perm h10
            obtain ⟨wt, hwt, _⟩ := hpt.2 t (List.mem_cons_self _ _)
            have hlen1 : d1.ptrs.length = d.ptrs.length := by
              have := h10.length_eq
              simpa using this
            obtain ⟨d2, e2, t2, s2, z2, c2, m2⟩ := resize_specW f (insertW_specW f) d1
              (2 * d1.capacity)
              (by omega) (by rw [h4, h1]; exact ht.len) (by rw [← hec]; exact h5)
              (hpt.of_sublist (List.sublist_cons_self _ _)) (by omega) (by omega) (by omega)
            obtain ⟨d3, e3, t3, s3, z3, c3, m3⟩ := insertW_specW f d2 t wt t2
              (by rw [s2]; exact hpt.of_perm (List.Perm.cons _ m2)) (by rw [s2]; exact hwt)
              (by rw [z2, m2.length_eq]; omega) (by omega) (by rw [z2]; omega)
            have hm : d3.ptrs.Perm (d.store.length :: d.ptrs) :=
              m3.trans ((List.Perm.cons _ m2).trans h10)
            refine ⟨d3, num, ?_, ⟨t3, ?_, ?_⟩, by omega, Or.inr ⟨rfl, ?_, hm, ?_⟩⟩
            · simp only [dictionary.resize]
              rw [e2, Run.bind_ok, e3, Run.bind_ok]
            · rw [s3, s2, h3]; exact pa.of_perm hm
            · rw [z3, z2, h2, hm.length_eq]
              simp only [List.length_cons]; omega
            · rw [s3, s2, h3]
            · rw [z3, z2, h2]
          · -- the shift ended on an empty slot inside the table
            rw [if_neg hec]
            have helen : e < d1.list.length := by rw [h4, ht.len]; omega
            have hm : (d1.setSlot e (some t)).ptrs.Perm (d.store.length :: d.ptrs) :=
              (filterMap_set_none_perm d1.list e t h5).trans h10
            refine ⟨_, num, rfl, ⟨?_, ?_, ?_⟩, by simp [dictionary.setSlot, h1],
              Or.inr ⟨rfl, h3, hm, h2⟩⟩
            · refine place_tableW (d := dictionary.mk d.capacity (d.size + 1) d.list
                  (d.store ++ [some (word.mk (dictionary.hash str) num str)]))
                (W := d.store.length) (w := word.mk (dictionary.hash str) num str)
                (q := q) (e := e) ta (by rw [ea]; exact pa) na
                (by rw [hcellA]; exact hloc) he1 (by simp only; omega) he3 he4
                (by simp [dictionary.setSlot, h1]) (by simp [dictionary.setSlot, h3])
                (by simp [dictionary.setSlot, h4]) ?_ ?_ ?_
              · simp only [dictionary.setSlot]
                rw [List.getElem?_set_ne (by omega)]
                exact (h8 hqe).1
              · intro k hk1 hk2
                simp only [dictionary.setSlot]
                rcases Nat.lt_or_ge (k + 1) e with h | h
                · rw [List.getElem?_set_ne (by omega)]
                  exact h7 k hk1 h
                · have hk : k + 1 = e := by omega
                  rw [hk, List.getElem?_set_self helen]
                  have := (h8 hqe).2
                  rw [← this]
                  congr 1
                  omega
              · intro k hk
                simp only [dictionary.setSlot]
                rw [List.getElem?_set_ne (by omega)]
                exact h6 k hk
            · show PtrsW (d1.setSlot e (some t)).store _
              simp only [dictionary.setSlot, h3]
              exact pa.of_perm hm
            · show (d1.setSlot e (some t)).size = _
              rw [hm.length_eq]
              simp only [dictionary.setSlot, h2, List.length_cons]
              omega

/-- Any successful run of the public `insert` on a table of the shape `WInv` has the
effect `InsertPostW`, whatever the recursion budget was. -/
theorem insert_postW {f : ℕ} {d : dictionary} {str : List Char} {num : ℕ}
    {d' : dictionary} {r : ℕ} (hinv : WInv d) (hne : str ≠ [])
    (hH : dictionary.hash str * 26 < 25)
    (h : dictionary.insert f d str num = Run.ok (d', r)) : InsertPostW d str num d' r := by
  obtain ⟨d2, r2, e2, p2⟩ := insert_specW (f + 26 * (d.size + 1) + 1) d str num hinv hne hH
    (by omega) (by omega)
  have := @insert_mono_le f (f + 26 * (d.size + 1) + 1) (by omega) _ _ _ _ h
  rw [e2] at this
  obtain ⟨rfl, rfl⟩ : d2 = d' ∧ r2 = r := by simpa using this
  exact p2

/-! ## Insert-only runs on tables of any hashes -/

theorem winv_ctor {cap : ℕ} (h : 1 ≤ cap) : WInv (dictionary.ctor cap) := by
  have hp : (dictionary.ctor cap).ptrs = [] := by
    simp [dictionary.ptrs, dictionary.ctor, List.filterMap_replicate]
  refine ⟨⟨h, by simp [dictionary.ctor], by simp [dictionary.ctor, List.getElem?_replicate], ?_⟩,
    ?_, ?_⟩
  · intro j w hj
    exfalso
    obtain ⟨p, hpj, _⟩ := (cell_some_iff _ j w).mp hj
    simp [dictionary.ctor, List.getElem?_replicate] at hpj
  · rw [hp]
    exact ⟨List.nodup_nil, fun p hp => by simp at hp⟩
  · rw [hp]; rfl

theorem insertAll_invW (ops : List (List Char × ℕ)) :
    ∀ d : dictionary, WInv d → (∀ op ∈ ops, normalized op.1 = true) →
      ∀ f d', dictionary.insertAll f d ops = Run.ok d' → WInv d' := by
  induction ops with
  | nil =>
    intro d hinv _ f d' h
    simp only [dictionary.insertAll] at h
    obtain rfl : d = d' := by simpa using h
    exact hinv
  | cons op rest ih =>
    intro d hinv hops f d' h
    simp only [dictionary.insertAll] at h
    obtain ⟨a, ha, hb⟩ := Run.bind_eq_ok.mp h
    have hn := hops op (List.mem_cons_self _ _)
    have hpost := @insert_postW f d op.1 op.2 a.1 a.2 hinv (normalized_ne_nil hn)
      (hash_bound hn) ha
    exact ih a.1 hpost.1 (fun o ho => hops o (List.mem_cons_of_mem _ ho)) f d' hb

theorem insertAll_totalW (ops : List (List Char × ℕ)) :
    ∀ d : dictionary, WInv d → (∀ op ∈ ops, normalized op.1 = true) →
      ∀ f, 26 * (d.size + ops.length + 1) + 1 ≤ f →
        ∃ d', dictionary.insertAll f d ops = Run.ok d' := by
  induction ops with
  | nil =>
    intro d _ _ f _
    exact ⟨d, rfl⟩
  | cons op rest ih =>
    intro d hinv hops f hf
    have hn := hops op (List.mem_cons_self _ _)
    simp only [List.length_cons] at hf
    obtain ⟨d1, r1, e1, hpost⟩ := insert_specW f d op.1 op.2 hinv (normalized_ne_nil hn)
      (hash_bound hn) (by omega) (by omega)
    have hsz : d1.size ≤ d.size + 1 := by
      rcases hpost.2.2 with ⟨_, _, _, _, _, _, _, _, h7⟩ | ⟨_, _, _, h5⟩ <;> omega
    obtain ⟨d2, e2⟩ := ih d1 hpost.1 (fun o ho => hops o (List.mem_cons_of_mem _ ho)) f
      (by omega)
    refine ⟨d2, ?_⟩
    simp only [dictionary.insertAll]
    rw [e1, Run.bind_ok]
    exact e2

/-- Every reachable dictionary has the shape `WInv`. -/
theorem reachable_winv {d : dictionary} (h : Reachable d) : WInv d := by
  induction h with
  | ctor cap hcap => exact winv_ctor hcap
  | insert d d' f str num r c _ hnorm _ _ _ hins ih =>
    exact (insert_postW ih (normalized_ne_nil hnorm) (hash_bound hnorm) hins).1

/-- On a table of the shape `WInv`, `find` returns 0 or the count of a stored record. -/
theorem find_totalW {d : dictionary} (hinv : WInv d) {s : List Char} (hne : s ≠ [])
    (hH : dictionary.hash s * 26 < 25) :
    d.find s = Run.ok 0 ∨ ∃ v, d.Holds v ∧ d.find s = Run.ok v.num := by
  have ht := hinv.table
  have hpd := hinv.ptrs
  have hlive : ∀ p ∈ d.ptrs, ∃ w, d.store[p]? = some (some w) := fun p hpm => by
    obtain ⟨v, hv, _⟩ := hpd.2 p hpm
    exact ⟨v, hv⟩
  obtain ⟨q, hq, hloc⟩ := locate_existsB ht hlive (dictionary.hash s) hH s
  have hlocate : d.locate (dictionary.hash s) s = Run.ok q :=
    (locate_eq_ok_iffB d _ _ q).mpr hloc
  have hqlen : q < d.list.length := by rw [ht.len]; omega
  unfold dictionary.find
  rw [if_pos hne]
  simp only []
  rw [hlocate, Run.bind_ok]
  cases hs : d.list[q] with
  | none =>
    have hsq : d.list[q]? = some none := by rw [List.getElem?_eq_getElem hqlen, hs]
    rw [slot_eq_ok hsq, Run.bind_ok]
    exact Or.inl rfl
  | some p0 =>
    have hsq : d.list[q]? = some (some p0) := by rw [List.getElem?_eq_getElem hqlen, hs]
    have hp0 : p0 ∈ d.ptrs := (mem_ptrs_iff d p0).mpr ⟨q, hsq⟩
    obtain ⟨w0, hw0, _⟩ := hpd.2 p0 hp0
    rw [slot_eq_ok hsq, Run.bind_ok]
    simp only []
    rw [deref_eq_ok hw0, Run.bind_ok]
    by_cases hfound : w0.hash = dictionary.hash s ∧ w0.str = s
    · rw [if_pos hfound]
      exact Or.inr ⟨w0, ⟨p0, hp0, hw0⟩, rfl⟩
    · rw [if_neg hfound]
      exact Or.inl rfl

/-- A bound on all stored counts grows by at most the count inserted. -/
theorem insert_count_bound {d d' : dictionary} {str : List Char} {num r B : ℕ}
    (hinv : WInv d) (hpost : InsertPostW d str num d' r) (hB : ∀ v, d.Holds v → v.num ≤ B) :
    ∀ v, d'.Holds v → v.num ≤ B + num := by
  have hlt : ∀ p ∈ d.ptrs, p < d.store.length := fun p hpm => by
    obtain ⟨v, hv, _⟩ := hinv.ptrs.2 p hpm
    by_contra hc
    rw [List.getElem?_eq_none (by omega)] at hv
    simp at hv
  obtain ⟨_, _, hcase⟩ := hpost
  rintro v ⟨p', hp', hv⟩
  rcases hcase with ⟨p, w, h1, h2, h3, h4, h5, h6, h7⟩ | ⟨h2, h3, h4, h5⟩
  · have hp'' := h6.mem_iff.mp hp'
    rw [h5] at hv
    by_cases h : p' = p
    · subst h
      rw [List.getElem?_set_self (hlt p' h1)] at hv
      obtain rfl : { w with num := r } = v := by simpa using hv
      simp only
      have := hB w ⟨p', h1, h2⟩
      have := Nat.mod_le (w.num + num) SIZE_MOD
      omega
    · rw [List.getElem?_set_ne (Ne.symm h)] at hv
      have := hB v ⟨p', hp'', hv⟩
      omega
  · rw [h3] at hv
    rcases List.mem_cons.mp (h4.mem_iff.mp hp') with h | h
    · subst h
      simp only [List.getElem?_concat_length, Option.some.injEq] at hv
      subst hv
      simp only
      omega
    · rw [List.getElem?_append_left (hlt p' h)] at hv
      have := hB v ⟨p', h, hv⟩
      omega

/-- A run of `insert` calls with counts of at least 1 whose sum stays below `2^64`
leads from a reachable dictionary to a reachable dictionary. -/
theorem reachable_insertAllW (rest : List (List Char × ℕ)) :
    ∀ (B : ℕ) (d : dictionary), Reachable d → (∀ v, d.Holds v → v.num ≤ B) →
      (∀ op ∈ rest, normalized op.1 = true ∧ 1 ≤ op.2) →
      B + (rest.map Prod.snd).sum < SIZE_MOD →
      ∀ f d', dictionary.insertAll f d rest = Run.ok d' → Reachable d' := by
  induction rest with
  | nil =>
    intro B d hd _ _ _ f d' h
    simp only [dictionary.insertAll] at h
    obtain rfl : d = d' := by simpa using h
    exact hd
  | cons op rest ih =>
    intro B d hd hB hops hover f d' h
    obtain ⟨hn, h1⟩ := hops op (List.mem_cons_self _ _)
    simp only [List.map_cons, List.sum_cons] at hover
    simp only [dictionary.insertAll] at h
    obtain ⟨a, ha, hb⟩ := Run.bind_eq_ok.mp h
    have hinv := reachable_winv hd
    have hpost := @insert_postW f d op.1 op.2 a.1 a.2 hinv (normalized_ne_nil hn)
      (hash_bound hn) ha
    have hfind : ∃ c, d.find op.1 = Run.ok c ∧ c + op.2 < SIZE_MOD := by
      rcases find_totalW hinv (normalized_ne_nil hn) (hash_bound hn) with g | ⟨v, hv, g⟩
      · exact ⟨0, g, by omega⟩
      · have := hB v hv
        exact ⟨v.num, g, by omega⟩
    obtain ⟨c, hc, hov⟩ := hfind
    have hd1 : Reachable a.1 := Reachable.insert d a.1 f op.1 op.2 a.2 c hd hn h1 hc hov ha
    exact ih (B + op.2) a.1 hd1 (insert_count_bound hinv hpost hB)
      (fun o ho => hops o (List.mem_cons_of_mem _ ho)) (by omega) f d' hb

/-- Calls that `admits` accepts lead from a reachable dictionary to a reachable one. -/
theorem reachable_of_admits (ops : List (List Char × ℕ)) :
    ∀ (d : dictionary), Reachable d → ∀ f d', d.admits f ops = true →
      dictionary.insertAll f d ops = Run.ok d' → Reachable d' := by
  induction ops with
  | nil =>
    intro d hd f d' _ h
    simp only [dictionary.insertAll] at h
    obtain rfl : d = d' := by simpa using h
    exact hd
  | cons op rest ih =>
    intro d hd f d' ha h
    simp only [dictionary.admits, Bool.and_eq_true, decide_eq_true_eq] at ha
    obtain ⟨⟨⟨hn, h1⟩, hfind⟩, hrest⟩ := ha
    simp only [dictionary.insertAll] at h
    obtain ⟨a, hins, hb⟩ := Run.bind_eq_ok.mp h
    rw [hins] at hrest
    simp only [] at hrest
    cases hc : d.find op.1 with
    | ok c =>
      rw [hc] at hfind
      simp only [decide_eq_true_eq] at hfind
      exact ih a.1 (Reachable.insert d a.1 f op.1 op.2 a.2 c hd hn h1 hc hfind hins) f d'
        hrest hb
    | ub => rw [hc] at hfind; simp at hfind
    | fuel => rw [hc] at hfind; simp at hfind
    | oob => rw [hc] at hfind; simp at hfind

theorem twiceTable_reachable : Reachable twiceTable :=
  reachable_of_admits (lostOps ++ [(wordStem, 1)]) _ (Reachable.ctor 8 (by decide)) 1 _
    (by decide!) (by decide!)

theorem dupTable_reachable : Reachable dupTable :=
  reachable_of_admits dupOps _ (Reachable.ctor 8 (by decide)) 1 _ (by decide!) (by decide!)

theorem wrapTable_reachable : Reachable wrapTable :=
  reachable_of_admits wrapOps _ (Reachable.ctor 8 (by decide)) 2 _ (by decide!) (by decide!)

/-- The invariant of the tables of non-negative hashes implies the shape `WInv`. -/
theorem DictInv.winv {d : dictionary} (h : DictInv d) : WInv d := by
  refine ⟨⟨h.table.cap_pos, h.table.len, h.table.sentinel, ?_⟩,
    ⟨h.ptrs.1, fun p hp => ?_⟩, h.size_eq⟩
  · intro j w hj
    obtain ⟨k1, s1, s2⟩ := h.table.sf j w hj
    refine ⟨le_trans s1.1 s2.1, fun k hk1 hk2 => ?_⟩
    rcases Nat.lt_or_ge k k1 with h' | h'
    · obtain ⟨v, hv, _⟩ := s1.2.1 k hk1 h'
      exact ⟨v, hv⟩
    · obtain ⟨v, hv, _⟩ := s2.2.1 k h' hk2
      exact ⟨v, hv⟩
  · obtain ⟨w, hw, hok⟩ := h.ptrs.2.1 p hp
    exact ⟨w, hw, hok.1, hok.2.1⟩

/-! ## `find` on a table of non-negative hashes -/

theorem find_spec {d : dictionary} (ht : TableOK d) (hpd : PtrsOK d.store d.ptrs)
    {s : List Char} (hne : s ≠ []) (hH : dictionary.hash s * 26 < 25)
    (hH0 : 0 ≤ dictionary.hash s) :
    (∃ p w, p ∈ d.ptrs ∧ d.store[p]? = some (some w) ∧ w.str = s ∧
        d.find s = Run.ok w.num) ∨
    ((∀ v, d.Holds v → v.str ≠ s) ∧ d.find s = Run.ok 0) := by
  have hlive : ∀ p ∈ d.ptrs, ∃ w, d.store[p]? = some (some w) := fun p hpm => by
    obtain ⟨v, hv, _⟩ := hpd.2.1 p hpm
    exact ⟨v, hv⟩
  obtain ⟨q, hq, hloc⟩ := locate_exists ht hlive (dictionary.hash s) hH s
  have hlocate : d.locate (dictionary.hash s) s = Run.ok q :=
    (locate_eq_ok_iff d _ _ q hH0 (cell_nonneg hpd (fun p h => h))).mpr hloc
  have hqlen : q < d.list.length := by rw [ht.len]; omega
  unfold dictionary.find
  rw [if_pos hne]
  simp only []
  rw [hlocate, Run.bind_ok]
  cases hs : d.list[q] with
  | none =>
    have hsq : d.list[q]? = some none := by rw [List.getElem?_eq_getElem hqlen, hs]
    rw [slot_eq_ok hsq, Run.bind_ok]
    right
    refine ⟨?_, rfl⟩
    apply absent_of_loc ht hpd hloc
    intro v hv
    rw [(cell_none_iff d q).mpr hsq] at hv
    simp at hv
  | some p0 =>
    have hsq : d.list[q]? = some (some p0) := by rw [List.getElem?_eq_getElem hqlen, hs]
    have hp0 : p0 ∈ d.ptrs := (mem_ptrs_iff d p0).mpr ⟨q, hsq⟩
    obtain ⟨w0, hw0, hw0ok⟩ := hpd.2.1 p0 hp0
    rw [slot_eq_ok hsq, Run.bind_ok]
    simp only []
    rw [deref_eq_ok hw0, Run.bind_ok]
    by_cases hfound : w0.hash = dictionary.hash s ∧ w0.str = s
    · rw [if_pos hfound]
      left
      exact ⟨p0, w0, hp0, hw0, hfound.2, rfl⟩
    · rw [if_neg hfound]
      right
      refine ⟨?_, rfl⟩
      apply absent_of_loc ht hpd hloc
      intro v hv hvs
      obtain ⟨p', hp', hv'⟩ := (cell_some_iff d q v).mp hv
      rw [hsq] at hp'
      obtain rfl : p0 = p' := by simpa using hp'
      rw [hw0] at hv'
      obtain rfl : w0 = v := by simpa using hv'
      exact hfound ⟨by rw [hw0ok.1, hvs], hvs⟩

/-- On a well-formed table `find` returns the count of the stored word with that text. -/
theorem find_of_holds {d : dictionary} (ht : TableOK d) (hpd : PtrsOK d.store d.ptrs)
    {v : word} (hv : d.Holds v) (hne : v.str ≠ []) (hH : dictionary.hash v.str * 26 < 25) :
    d.find v.str = Run.ok v.num := by
  have hH0 : 0 ≤ dictionary.hash v.str := by
    obtain ⟨p, hp, hv'⟩ := hv
    obtain ⟨u, hu, hok⟩ := hpd.2.1 p hp
    rw [hv'] at hu
    cases hu
    rw [← hok.1]
    exact hok.2.2
  rcases find_spec ht hpd hne hH hH0 with ⟨p, w, h1, h2, h3, h4⟩ | ⟨h1, _⟩
  · obtain ⟨p', hp', hv'⟩ := hv
    have := hpd.2.2 p h1 p' hp' w v h2 hv' h3
    subst this
    rw [h2] at hv'
    obtain rfl : w = v := by simpa using hv'
    exact h4
  · exact absurd rfl (h1 v hv)

theorem tableOK_ctor {cap : ℕ} (h : 1 ≤ cap) : DictInv (dictionary.ctor cap) := by
  have hp : (dictionary.ctor cap).ptrs = [] := by
    simp [dictionary.ptrs, dictionary.ctor, List.filterMap_replicate]
  refine ⟨⟨h, by simp [dictionary.ctor], by simp [dictionary.ctor, List.getElem?_replicate], ?_⟩,
    ?_, ?_⟩
  · intro j w hj
    exfalso
    obtain ⟨p, hpj, _⟩ := (cell_some_iff _ j w).mp hj
    simp [dictionary.ctor, List.getElem?_replicate] at hpj
  · rw [hp]
    exact ⟨List.nodup_nil, fun p hp => by simp at hp, fun p hp => by simp at hp⟩
  · rw [hp]; rfl

theorem holds_found {d d' : dictionary} {p : ℕ} {w w' : word} (hpd : PtrsOK d.store d.ptrs)
    (hp : p ∈ d.ptrs) (hw : d.store[p]? = some (some w))
    (hs : d'.store = d.store.set p (some w')) (hm : d'.ptrs.Perm d.ptrs) (v : word) :
    d'.Holds v ↔ v = w' ∨ (d.Holds v ∧ v.str ≠ w.str) := by
  have hplen : p < d.store.length := by
    by_contra hc
    rw [List.getElem?_eq_none (by omega)] at hw
    simp at hw
  unfold dictionary.Holds
  rw [hs]
  constructor
  · rintro ⟨p', hp', hv⟩
    have hp'' := hm.mem_iff.mp hp'
    by_cases h : p' = p
    · subst h
      rw [List.getElem?_set_self hplen] at hv
      left
      simpa using hv.symm
    · rw [List.getElem?_set_ne (Ne.symm h)] at hv
      right
      exact ⟨⟨p', hp'', hv⟩, fun hstr => h (hpd.2.2 p' hp'' p hp v w hv hw hstr)⟩
  · rintro (h | ⟨⟨p', hp', hv⟩, hne⟩)
    · subst h
      exact ⟨p, hm.mem_iff.mpr hp, by rw [List.getElem?_set_self hplen]⟩
    · have h : p' ≠ p := by
        intro h
        subst h
        rw [hw] at hv
        obtain rfl : w = v := by simpa using hv
        exact hne rfl
      exact ⟨p', hm.mem_iff.mpr hp', by rw [List.getElem?_set_ne (Ne.symm h)]; exact hv⟩

theorem holds_new {d d' : dictionary} {X : word} (hpd : PtrsOK d.store d.ptrs)
    (hs : d'.store = d.store ++ [some X]) (hm : d'.ptrs.Perm (d.store.length :: d.ptrs))
    (v : word) : d'.Holds v ↔ v = X ∨ d.Holds v := by
  have hlt : ∀ p ∈ d.ptrs, p < d.store.length := fun p hpm => by
    obtain ⟨v, hv, _⟩ := hpd.2.1 p hpm
    by_contra hc
    rw [List.getElem?_eq_none (by omega)] at hv
    simp at hv
  unfold dictionary.Holds
  rw [hs]
  constructor
  · rintro ⟨p', hp', hv⟩
    rcases List.mem_cons.mp (hm.mem_iff.mp hp') with h | h
    · subst h
      left
      simpa using hv.symm
    · right
      rw [List.getElem?_append_left (hlt p' h)] at hv
      exact ⟨p', h, hv⟩
  · rintro (h | ⟨p', hp', hv⟩)
    · subst h
      exact ⟨d.store.length, hm.mem_iff.mpr (List.mem_cons_self _ _), by simp⟩
    · exact ⟨p', hm.mem_iff.mpr (List.mem_cons_of_mem _ hp'),
        by rw [List.getElem?_append_left (hlt p' hp')]; exact hv⟩

/-! ## Capacity 0 -/

theorem resizeWith_cap_zero (ins : dictionary → ℕ → Run (dictionary × ℕ)) (d : dictionary)
    (h : d.capacity = 0) :
    dictionary.resizeWith ins d (d.capacity <<< 1) =
      Run.ok (dictionary.mk 0 d.size [none] d.store) := by
  simp [dictionary.resizeWith, h, dictionary.moveAll]

theorem insertW_cap_zero (f : ℕ) : ∀ (d : dictionary) (W : ℕ), d.capacity = 0 → 1 ≤ d.size →
    dictionary.insertW f d W = Run.fuel := by
  induction f with
  | zero => intro d W _ _; rfl
  | succ f ih =>
    intro d W hc hs
    rw [dictionary.insertW, if_pos (by omega), resizeWith_cap_zero _ d hc, Run.bind_ok]
    exact ih _ W rfl hs

/-- Claim C9 fails at capacity 0: whatever the recursion budget, `insert` of a
non-empty word into `dictionary(0)` does not return; the budget is always used up,
because `capacity << 1` is 0 again and every retry runs against the same capacity. -/
theorem insert_capacity_zero (f : ℕ) (w : List Char) (n : ℕ) (hw : w ≠ []) :
    dictionary.insert f (dictionary.ctor 0) w n = Run.fuel := by
  cases f with
  | zero => simp [dictionary.insert, hw]
  | succ f =>
    have hloc : (dictionary.ctor 0).locate (dictionary.hash w) w = Run.ok 0 := by
      simp [dictionary.locate, dictionary.index, slotIndex, dictionary.ctor,
        dictionary.scanHash, dictionary.scanStr, dictionary.slot]
    have hslot : (dictionary.ctor 0).slot 0 = Run.ok none := by
      simp [dictionary.slot, dictionary.ctor]
    rw [dictionary.insert, if_pos hw, if_neg (by simp [dictionary.ctor])]
    simp only []
    rw [hloc, Run.bind_ok, hslot, Run.bind_ok]
    simp only []
    rw [if_pos (by simp [dictionary.ctor]), dictionary.resize,
      resizeWith_cap_zero _ _ (by simp [dictionary.ctor]), Run.bind_ok]
    exact insertW_cap_zero f _ _ rfl (by simp [dictionary.alloc])

/-- Witness for C9: the first token `the` of a 27-byte source, for which `main`
constructs `dictionary( 27 / 120 )`. -/
theorem insert_capacity_zero_witness :
    "the".toList ≠ [] ∧
    ∀ f, dictionary.insert f (dictionary.ctor (27 / 120)) "the".toList 1 = Run.fuel :=
  ⟨by decide, fun f => insert_capacity_zero f "the".toList 1 (by decide)⟩

/-! ## Deleting a word -/

/-- Claim C4 fails on the dictionary that holds the single word `the`:
`remove("the")` returns 0 but leaves the deleted object's address in its slot (it
clears the slot after it), so `find("the")` dereferences a deleted object. -/
theorem remove_leaves_dangling_pointer :
    dictionary.insert 1 (dictionary.ctor 1) "the".toList 1 =
      Run.ok (dictionary.mk 1 1 [some 0, none]
        [some ⟨dictionary.hash "the".toList, 1, "the".toList⟩], 1) ∧
    dictionary.remove (dictionary.mk 1 1 [some 0, none]
        [some ⟨dictionary.hash "the".toList, 1, "the".toList⟩]) "the".toList (SIZE_MOD - 1) =
      Run.ok (dictionary.mk 1 0 [some 0, none] [none], 0) ∧
    dictionary.find (dictionary.mk 1 0 [some 0, none] [none]) "the".toList = Run.ub :=
  ⟨by decide!, by decide!, by decide!⟩

/-- Claim C5 fails on the dictionary of capacity 4 that holds `a` (slot 0) and `h`
(slot 1, its ideal index): `remove("a")` clears slot 1, and `find("h")` drops from 1
to 0. -/
theorem remove_drops_next_word :
    ∃ d d', dictionary.insertAll 1 (dictionary.ctor 4) [("a".toList, 1), ("h".toList, 1)] =
        Run.ok d ∧
      d.find "h".toList = Run.ok 1 ∧
      d.remove "a".toList (SIZE_MOD - 1) = Run.ok (d', 0) ∧
      d'.list = [some 0, none, none, none, none] ∧
      d'.find "h".toList = Run.ok 0 :=
  ⟨dictionary.mk 4 2 [some 0, some 1, none, none, none]
      [some ⟨dictionary.hash "a".toList, 1, "a".toList⟩,
       some ⟨dictionary.hash "h".toList, 1, "h".toList⟩],
   dictionary.mk 4 1 [some 0, none, none, none, none]
      [none, some ⟨dictionary.hash "h".toList, 1, "h".toList⟩],
   by decide!, by decide!, by decide!, rfl, by decide!⟩

/-! ## The load factor -/

/-- Claim C10 fails as stated: capacity 4 and the four inserts a, b, c, d end with
size 4, which is more than 0.75 x 4. -/
theorem load_factor_counterexample :
    ∃ d, dictionary.insertAll 1 (dictionary.ctor 4)
        [("a".toList, 1), ("b".toList, 1), ("c".toList, 1), ("d".toList, 1)] = Run.ok d ∧
      ¬ (4 * d.size ≤ 3 * d.capacity) :=
  ⟨dictionary.mk 4 4 [some 0, some 1, some 2, some 3, none]
      [some ⟨dictionary.hash "a".toList, 1, "a".toList⟩,
       some ⟨dictionary.hash "b".toList, 1, "b".toList⟩,
       some ⟨dictionary.hash "c".toList, 1, "c".toList⟩,
       some ⟨dictionary.hash "d".toList, 1, "d".toList⟩],
   by decide!, by decide⟩

/-! ## `remove` on a reachable table -/

theorem mem_ptrs_setSlot {d : dictionary} {i p : ℕ} {s : Option ℕ}
    (h : p ∈ (d.setSlot i s).ptrs) : p ∈ d.ptrs ∨ s = some p := by
  unfold dictionary.ptrs dictionary.setSlot at h
  simp only at h
  rw [List.mem_filterMap] at h
  obtain ⟨a, ha, hp⟩ := h
  simp only [id] at hp
  subst hp
  rcases List.mem_or_eq_of_mem_set ha with h | h
  · left
    exact List.mem_filterMap.mpr ⟨some p, h, rfl⟩
  · right
    exact h.symm

theorem shift_any (n : ℕ) : ∀ (d : dictionary) (q W : ℕ) (d' : dictionary) (e t : ℕ),
    dictionary.shift n d q W = Run.ok (d', e, t) →
    d'.store = d.store ∧ d'.size = d.size ∧ d'.capacity = d.capacity ∧
      (∀ p, p ∈ d'.ptrs ∨ p = t → p ∈ d.ptrs ∨ p = W) := by
  induction n with
  | zero => intro d q W d' e t h; simp [dictionary.shift] at h
  | succ n ih =>
    intro d q W d' e t h
    rw [dictionary.shift] at h
    obtain ⟨s, hs, h⟩ := Run.bind_eq_ok.mp h
    cases s with
    | none =>
      simp only [Run.ok.injEq, Prod.mk.injEq] at h
      obtain ⟨rfl, rfl, rfl⟩ := h
      exact ⟨rfl, rfl, rfl, fun p hp => hp⟩
    | some p0 =>
      simp only [] at h
      obtain ⟨h1, h2, h3, h4⟩ := ih _ _ _ _ _ _ h
      refine ⟨h1, h2, h3, fun p hp => ?_⟩
      have hp0 : p0 ∈ d.ptrs := by
        apply (mem_ptrs_iff d p0).mpr
        refine ⟨q, ?_⟩
        unfold dictionary.slot at hs
        cases hl : d.list[q]? with
        | none => simp [hl] at hs
        | some o =>
          simp only [hl, Run.ok.injEq] at hs
          rw [hs]
      rcases h4 p hp with h | h
      · rcases mem_ptrs_setSlot h with h' | h'
        · exact Or.inl h'
        · right
          simpa using h'.symm
      · left
        rw [h]; exact hp0

theorem moveAll_any {ins : dictionary → ℕ → Run (dictionary × ℕ)} (hins : InsKeeps ins)
    (rest : List (Option ℕ)) : ∀ (d d' : dictionary),
    dictionary.moveAll ins rest d = Run.ok d' →
    d'.store = d.store ∧ d'.size = d.size ∧ d.capacity ≤ d'.capacity ∧
      (∀ p ∈ d'.ptrs, p ∈ d.ptrs ∨ some p ∈ rest) := by
  induction rest with
  | nil =>
    intro d d' h
    simp only [dictionary.moveAll, Run.ok.injEq] at h
    subst h
    exact ⟨rfl, rfl, le_refl _, fun p hp => Or.inl hp⟩
  | cons x rest ih =>
    intro d d' h
    cases x with
    | none =>
      obtain ⟨h1, h2, h3, h4⟩ := ih d d' h
      refine ⟨h1, h2, h3, fun p hp => ?_⟩
      rcases h4 p hp with h | h
      · exact Or.inl h
      · exact Or.inr (List.mem_cons_of_mem _ h)
    | some p0 =>
      simp only [dictionary.moveAll] at h
      obtain ⟨a, ha, hb⟩ := Run.bind_eq_ok.mp h
      obtain ⟨a1, a2, a3, a4⟩ := hins d p0 a ha
      obtain ⟨h1, h2, h3, h4⟩ := ih a.1 d' hb
      refine ⟨by rw [h1, a1], by rw [h2, a2], by omega, fun p hp => ?_⟩
      rcases h4 p hp with h | h
      · rcases a4 p h with h' | h'
        · exact Or.inl h'
        · right; rw [h']; exact List.mem_cons_self _ _
      · exact Or.inr (List.mem_cons_of_mem _ h)

theorem resizeWith_any {ins : dictionary → ℕ → Run (dictionary × ℕ)} (hins : InsKeeps ins)
    (d : dictionary) (n : ℕ) (d' : dictionary)
    (h : dictionary.resizeWith ins d n = Run.ok d') :
    d'.store = d.store ∧ d'.size = d.size ∧ n ≤ d'.capacity ∧
      (∀ p ∈ d'.ptrs, p ∈ d.ptrs) := by
  unfold dictionary.resizeWith at h
  obtain ⟨h1, h2, h3, h4⟩ := moveAll_any hins _ _ _ h
  refine ⟨h1, h2, h3, fun p hp => ?_⟩
  rcases h4 p hp with h | h
  · simp [dictionary.ptrs, List.filterMap_replicate] at h
  · exact List.mem_filterMap.mpr ⟨some p, List.mem_of_mem_take h, rfl⟩

theorem insertW_any (f : ℕ) : InsKeeps (dictionary.insertW f) := by
  induction f with
  | zero => intro d W r h; simp [dictionary.insertW] at h
  | succ f ih =>
    intro d W r h
    rw [dictionary.insertW] at h
    by_cases hpre : 4 * d.size > 3 * d.capacity
    · rw [if_pos hpre, shiftLeft_one] at h
      obtain ⟨d1, h1, h2⟩ := Run.bind_eq_ok.mp h
      obtain ⟨a1, a2, a3, a4⟩ := resizeWith_any ih _ _ _ h1
      obtain ⟨b1, b2, b3, b4⟩ := ih _ _ _ h2
      refine ⟨by rw [b1, a1], by rw [b2, a2], by omega, fun p hp => ?_⟩
      rcases b4 p hp with h | h
      · exact Or.inl (a4 p h)
      · exact Or.inr h
    · rw [if_neg hpre] at h
      obtain ⟨w, hw, h⟩ := Run.bind_eq_ok.mp h
      obtain ⟨loc, hloc, h⟩ := Run.bind_eq_ok.mp h
      obtain ⟨s, hs, h⟩ := Run.bind_eq_ok.mp h
      cases s with
      | none =>
        simp only [] at h
        by_cases hc : loc = d.capacity
        · rw [if_pos hc, shiftLeft_one] at h
          obtain ⟨d1, h1, h2⟩ := Run.bind_eq_ok.mp h
          obtain ⟨a1, a2, a3, a4⟩ := resizeWith_any ih _ _ _ h1
          obtain ⟨b1, b2, b3, b4⟩ := ih _ _ _ h2
          refine ⟨by rw [b1, a1], by rw [b2, a2], by omega, fun p hp => ?_⟩
          rcases b4 p hp with h | h
          · exact Or.inl (a4 p h)
          · exact Or.inr h
        · rw [if_neg hc] at h
          simp only [Run.ok.injEq] at h
          subst h
          refine ⟨rfl, rfl, le_refl _, fun p hp => ?_⟩
          rcases mem_ptrs_setSlot hp with h | h
          · exact Or.inl h
          · right; simpa using h.symm
      | some p0 =>
        simp only [] at h
        obtain ⟨a, ha, h⟩ := Run.bind_eq_ok.mp h
        obtain ⟨s1, s2, s3, s4⟩ := shift_any _ _ _ _ a.1 a.2.1 a.2.2 ha
        by_cases hc : a.2.1 = a.1.capacity
        · rw [if_pos hc, shiftLeft_one] at h
          obtain ⟨d2, h1, h⟩ := Run.bind_eq_ok.mp h
          obtain ⟨r3, h2, h⟩ := Run.bind_eq_ok.mp h
          simp only [Run.ok.injEq] at h
          subst h
          obtain ⟨a1, a2, a3, a4⟩ := resizeWith_any ih _ _ _ h1
          obtain ⟨b1, b2, b3, b4⟩ := ih _ _ _ h2
          refine ⟨by simp only; rw [b1, a1, s1], by simp only; rw [b2, a2, s2],
            by simp only; omega, fun p hp => ?_⟩
          rcases b4 p hp with h | h
          · exact s4 p (Or.inl (a4 p h))
          · exact s4 p (Or.inr h)
        · rw [if_neg hc] at h
          simp only [Run.ok.injEq] at h
          subst h
          refine ⟨s1, s2, by simp only [dictionary.setSlot]; omega, fun p hp => ?_⟩
          rcases mem_ptrs_setSlot hp with h | h
          · exact s4 p (Or.inl h)
          · exact s4 p (Or.inr (by simpa using h.symm))

/-! ## The load factor over arbitrary call sequences -/

theorem isLive_iff {store : List (Option word)} {p : ℕ} :
    isLive store p = true ↔ ∃ w, store[p]? = some (some w) := by
  unfold isLive
  cases h : store[p]? with
  | none => simp
  | some o =>
    cases o with
    | none => simp
    | some w => simp

theorem loadInv_same {d d' : dictionary} (h : LoadInv d) (hs : d'.store = d.store)
    (hz : d'.size = d.size) (hc : d.capacity ≤ d'.capacity)
    (hp : ∀ p ∈ d'.ptrs, p ∈ d.ptrs) : LoadInv d' := by
  obtain ⟨⟨L, l1, l2, l3, l4⟩, hb⟩ := h
  refine ⟨⟨L, l1, by rw [hs]; exact l2, fun p hpm hl => ?_, by rw [hz]; exact l4⟩,
    by rw [hz]; omega⟩
  rw [hs] at hl
  exact l3 p (hp p hpm) hl

theorem loadInv_new {d d' : dictionary} {X : word} (h : LoadInv d)
    (hpre : ¬ 4 * d.size > 3 * d.capacity)
    (hs : d'.store = d.store ++ [some X]) (hz : d'.size = d.size + 1)
    (hc : d.capacity ≤ d'.capacity)
    (hp : ∀ p ∈ d'.ptrs, p ∈ d.ptrs ∨ p = d.store.length) : LoadInv d' := by
  obtain ⟨⟨L, l1, l2, l3, l4⟩, hb⟩ := h
  refine ⟨⟨d.store.length :: L, ?_, ?_, ?_, ?_⟩, by rw [hz]; omega⟩
  · exact List.nodup_cons.mpr ⟨fun hm => absurd (l2 _ hm) (lt_irrefl _), l1⟩
  · intro p hpm
    rw [hs, List.length_append]
    rcases List.mem_cons.mp hpm with h | h
    · rw [h]; simp
    · have := l2 p h
      simp only [List.length_singleton]
      omega
  · intro p hpm hl
    rcases hp p hpm with h | h
    · rcases Nat.lt_or_ge p d.store.length with hlt | hge
      · rw [isLive_iff, hs, List.getElem?_append_left hlt] at hl
        exact List.mem_cons_of_mem _ (l3 p h (isLive_iff.mpr hl))
      · rcases Nat.eq_or_lt_of_le hge with he | hgt
        · rw [← he]; exact List.mem_cons_self _ _
        · rw [isLive_iff, hs] at hl
          obtain ⟨w, hw⟩ := hl
          rw [List.getElem?_eq_none (by simp; omega)] at hw
          simp at hw
    · rw [h]; exact List.mem_cons_self _ _
  · rw [hz]
    simp only [List.length_cons]
    omega

theorem loadInv_set {d d' : dictionary} {p : ℕ} {w w' : word} (h : LoadInv d)
    (hw : d.store[p]? = some (some w)) (hs : d'.store = d.store.set p (some w'))
    (hz : d'.size = d.size) (hc : d'.capacity = d.capacity) (hp : d'.ptrs = d.ptrs) :
    LoadInv d' := by
  obtain ⟨⟨L, l1, l2, l3, l4⟩, hb⟩ := h
  refine ⟨⟨L, l1, by rw [hs]; simpa using l2, fun q hq hl => ?_, by rw [hz]; exact l4⟩,
    by rw [hz, hc]; exact hb⟩
  rw [hp] at hq
  apply l3 q hq
  by_cases hqp : q = p
  · rw [hqp]; exact isLive_iff.mpr ⟨w, hw⟩
  · rw [isLive_iff, hs, List.getElem?_set_ne (Ne.symm hqp)] at hl
    exact isLive_iff.mpr hl

theorem resize_any (f : ℕ) (d : dictionary) (n : ℕ) (d' : dictionary)
    (h : dictionary.resize f d n = Run.ok d') :
    d'.store = d.store ∧ d'.size = d.size ∧ n ≤ d'.capacity ∧ (∀ p ∈ d'.ptrs, p ∈ d.ptrs) :=
  resizeWith_any (insertW_any f) d n d' h

theorem insert_keeps_load (f : ℕ) : ∀ (d : dictionary) (str : List Char) (num : ℕ)
    (r : dictionary × ℕ), LoadInv d → dictionary.insert f d str num = Run.ok r →
    LoadInv r.1 := by
  induction f with
  | zero =>
    intro d str num r hd h
    by_cases hne : str ≠ []
    · simp [dictionary.insert, hne] at h
    · simp only [dictionary.insert, hne, if_false, Run.ok.injEq] at h
      subst h
      exact hd
  | succ f ih =>
    intro d str num r hd h
    rw [dictionary.insert] at h
    by_cases hne : str ≠ []
    · rw [if_pos hne] at h
      by_cases hpre : 4 * d.size > 3 * d.capacity
      · rw [if_pos hpre, shiftLeft_one] at h
        obtain ⟨d1, h1, h2⟩ := Run.bind_eq_ok.mp h
        obtain ⟨a1, a2, a3, a4⟩ := resize_any _ _ _ _ h1
        exact ih _ _ _ _ (loadInv_same hd a1 a2 (by omega) a4) h2
      · rw [if_neg hpre] at h
        simp only [] at h
        obtain ⟨loc, hloc, h⟩ := Run.bind_eq_ok.mp h
        obtain ⟨s, hs, h⟩ := Run.bind_eq_ok.mp h
        cases s with
        | none =>
          simp only [] at h
          by_cases hc : loc = d.capacity
          · rw [if_pos hc, shiftLeft_one] at h
            obtain ⟨d1, h1, h2⟩ := Run.bind_eq_ok.mp h
            obtain ⟨a1, a2, a3, a4⟩ := resize_any _ _ _ _ h1
            obtain ⟨b1, b2, b3, b4⟩ := insertW_any f _ _ _ h2
            simp only [dictionary.alloc] at b1 b2 b3 b4
            refine loadInv_new hd hpre (by rw [b1, a1]) (by rw [b2, a2]) (by omega)
              (fun p hp => ?_)
            rcases b4 p hp with h | h
            · exact Or.inl (a4 p h)
            · right; rw [h, a1]
          · rw [if_neg hc] at h
            simp only [Run.ok.injEq] at h
            subst h
            refine loadInv_new hd hpre rfl rfl (le_refl _) (fun p hp => ?_)
            rcases mem_ptrs_setSlot (d := (d.alloc ⟨dictionary.hash str, num, str⟩).1) hp with
              h | h
            · exact Or.inl h
            · right
              simp only [dictionary.alloc, Option.some.injEq] at h
              exact h.symm
        | some p0 =>
          simp only [] at h
          obtain ⟨w, hw, h⟩ := Run.bind_eq_ok.mp h
          have hw' : d.store[p0]? = some (some w) := by
            unfold dictionary.deref at hw
            cases hl : d.store[p0]? with
            | none => simp [hl] at hw
            | some o =>
              cases o with
              | none => simp [hl] at hw
              | some w' =>
                simp only [hl, Run.ok.injEq] at hw
                rw [hw]
          by_cases hfound : w.hash = dictionary.hash str ∧ w.str = str
          · rw [if_pos hfound] at h
            simp only [Run.ok.injEq] at h
            subst h
            exact loadInv_set hd hw' rfl rfl rfl rfl
          · rw [if_neg hfound] at h
            obtain ⟨a, ha, h⟩ := Run.bind_eq_ok.mp h
            obtain ⟨s1, s2, s3, s4⟩ := shift_any _ _ _ _ a.1 a.2.1 a.2.2 ha
            simp only [dictionary.alloc] at s1 s2 s3 s4
            by_cases hc : a.2.1 = a.1.capacity
            · rw [if_pos hc, shiftLeft_one] at h
              obtain ⟨d2, h1, h⟩ := Run.bind_eq_ok.mp h
              obtain ⟨r3, h2, h⟩ := Run.bind_eq_ok.mp h
              simp only [Run.ok.injEq] at h
              subst h
              obtain ⟨a1, a2, a3, a4⟩ := resize_any _ _ _ _ h1
              obtain ⟨b1, b2, b3, b4⟩ := insertW_any f _ _ _ h2
              refine loadInv_new hd hpre (by simp only; rw [b1, a1, s1])
                (by simp only; rw [b2, a2, s2]) (by simp only; omega) (fun p hp => ?_)
              rcases b4 p hp with h | h
              · exact s4 p (Or.inl (a4 p h))
              · exact s4 p (Or.inr h)
            · rw [if_neg hc] at h
              simp only [Run.ok.injEq] at h
              subst h
              refine loadInv_new hd hpre s1 s2 (by simp only [dictionary.setSlot]; omega)
                (fun p hp => ?_)
              rcases mem_ptrs_setSlot hp with h | h
              · exact s4 p (Or.inl h)
              · exact s4 p (Or.inr (by simpa using h.symm))
    · rw [if_neg hne] at h
      simp only [Run.ok.injEq] at h
      subst h
      exact hd

theorem slot_ok_mem {d : dictionary} {k p : ℕ} (h : d.slot k = Run.ok (some p)) :
    p ∈ d.ptrs := by
  apply (mem_ptrs_iff d p).mpr
  refine ⟨k, ?_⟩
  unfold dictionary.slot at h
  cases hl : d.list[k]? with
  | none => simp [hl] at h
  | some o =>
    simp only [hl, Run.ok.injEq] at h
    rw [h]

theorem deref_ok_live {d : dictionary} {p : ℕ} {w : word} (h : d.deref p = Run.ok w) :
    d.store[p]? = some (some w) := by
  unfold dictionary.deref at h
  cases hl : d.store[p]? with
  | none => simp [hl] at h
  | some o =>
    cases o with
    | none => simp [hl] at h
    | some w' =>
      simp only [hl, Run.ok.injEq] at h
      rw [h]

theorem compact_any (n : ℕ) : ∀ (d : dictionary) (loc : ℕ) (r : dictionary × ℕ),
    dictionary.compact n d loc = Run.ok r →
    r.1.store = d.store ∧ r.1.size = d.size ∧ r.1.capacity = d.capacity ∧
      (∀ p ∈ r.1.ptrs, p ∈ d.ptrs) := by
  induction n with
  | zero => intro d loc r h; simp [dictionary.compact] at h
  | succ n ih =>
    intro d loc r h
    rw [dictionary.compact] at h
    obtain ⟨s, hs, h⟩ := Run.bind_eq_ok.mp h
    cases s with
    | none =>
      simp only [Run.ok.injEq] at h
      subst h
      exact ⟨rfl, rfl, rfl, fun p hp => hp⟩
    | some q =>
      simp only [] at h
      obtain ⟨w, hw, h⟩ := Run.bind_eq_ok.mp h
      by_cases hi : loc ≥ d.index w.hash
      · rw [if_pos hi] at h
        obtain ⟨h1, h2, h3, h4⟩ := ih _ _ _ h
        refine ⟨h1, h2, h3, fun p hp => ?_⟩
        rcases mem_ptrs_setSlot (h4 p hp) with h | h
        · exact h
        · have hq := slot_ok_mem hs
          have : q = p := by simpa using h
          rw [← this]; exact hq
      · rw [if_neg hi] at h
        simp only [Run.ok.injEq] at h
        subst h
        exact ⟨rfl, rfl, rfl, fun p hp => hp⟩

theorem remove_keeps_load (d : dictionary) (str : List Char) (num : ℕ)
    (r : dictionary × ℕ) (hd : LoadInv d) (h : dictionary.remove d str num = Run.ok r) :
    LoadInv r.1 := by
  unfold dictionary.remove at h
  by_cases hne : str ≠ []
  · rw [if_pos hne] at h
    simp only [] at h
    obtain ⟨loc, hloc, h⟩ := Run.bind_eq_ok.mp h
    obtain ⟨s, hs, h⟩ := Run.bind_eq_ok.mp h
    cases s with
    | none =>
      simp only [Run.ok.injEq] at h
      subst h
      exact hd
    | some p =>
      simp only [] at h
      obtain ⟨w, hw, h⟩ := Run.bind_eq_ok.mp h
      have hw' := deref_ok_live hw
      have hpm := slot_ok_mem hs
      by_cases hfound : w.hash = dictionary.hash str ∧ w.str = str
      · rw [if_pos hfound] at h
        by_cases hnum : num ≥ w.num
        · rw [if_pos hnum] at h
          obtain ⟨a, ha, h⟩ := Run.bind_eq_ok.mp h
          obtain ⟨_, _, h⟩ := Run.bind_eq_ok.mp h
          simp only [Run.ok.injEq] at h
          subst h
          obtain ⟨c1, c2, c3, c4⟩ := compact_any _ _ _ _ ha
          simp only at c1 c2 c3 c4
          obtain ⟨⟨L, l1, l2, l3, l4⟩, hb⟩ := hd
          have hpL : p ∈ L := l3 p hpm (isLive_iff.mpr ⟨w, hw'⟩)
          have hLpos : 0 < L.length := List.length_pos_of_mem hpL
          have hdec : decrement a.1.size = d.size - 1 := by
            rw [c2]
            unfold decrement
            rw [if_neg (by omega)]
          refine ⟨⟨L.erase p, l1.erase p, ?_, ?_, ?_⟩, ?_⟩
          · intro q hq
            show q < (a.1.setSlot (a.2 + 1) none).store.length
            simp only [dictionary.setSlot]
            rw [c1]
            simpa using l2 q (List.mem_of_mem_erase hq)
          · intro q hq hl
            have hq' : q ∈ d.ptrs := by
              rcases mem_ptrs_setSlot hq with h | h
              · exact c4 q h
              · simp at h
            have hl' : isLive (d.store.set p none) q = true := by
              have : (a.1.setSlot (a.2 + 1) none).store = d.store.set p none := by
                simp only [dictionary.setSlot]; exact c1
              simpa [this] using hl
            have hqp : q ≠ p := by
              intro hqp
              subst hqp
              rw [isLive_iff] at hl'
              obtain ⟨v, hv⟩ := hl'
              have hplen : q < d.store.length := by
                by_contra hcon
                rw [List.getElem?_eq_none (by omega)] at hw'
                simp at hw'
              rw [List.getElem?_set_self hplen] at hv
              simp at hv
            rw [isLive_iff, List.getElem?_set_ne (Ne.symm hqp)] at hl'
            exact (List.mem_erase_of_ne hqp).mpr (l3 q hq' (isLive_iff.mpr hl'))
          · show (L.erase p).length ≤ decrement a.1.size
            rw [hdec, List.length_erase_of_mem hpL]
            omega
          · show 4 * decrement a.1.size ≤ 3 * (a.1.setSlot (a.2 + 1) none).capacity + 4
            rw [hdec]
            simp only [dictionary.setSlot]
            rw [c3]
            omega
        · rw [if_neg hnum] at h
          simp only [Run.ok.injEq] at h
          subst h
          exact loadInv_set hd hw' rfl rfl rfl rfl
      · rw [if_neg hfound] at h
        simp only [Run.ok.injEq] at h
        subst h
        exact hd
  · rw [if_neg hne] at h
    simp only [Run.ok.injEq] at h
    subst h
    exact hd

theorem loadInv_ctor (cap : ℕ) : LoadInv (dictionary.ctor cap) := by
  refine ⟨⟨[], List.nodup_nil, fun p hp => by simp at hp, fun p hp => ?_, by simp⟩,
    by simp [dictionary.ctor]⟩
  simp [dictionary.ptrs, dictionary.ctor, List.filterMap_replicate] at hp

theorem runCalls_keeps_load (f : ℕ) (calls : List Call) : ∀ (d d' : dictionary),
    LoadInv d → dictionary.runCalls f d calls = Run.ok d' → LoadInv d' := by
  induction calls with
  | nil =>
    intro d d' hd h
    simp only [dictionary.runCalls, Run.ok.injEq] at h
    subst h
    exact hd
  | cons c rest ih =>
    intro d d' hd h
    cases c with
    | insert w n =>
      simp only [dictionary.runCalls] at h
      obtain ⟨a, ha, hb⟩ := Run.bind_eq_ok.mp h
      exact ih _ _ (insert_keeps_load f d w n a hd ha) hb
    | remove w n =>
      simp only [dictionary.runCalls] at h
      obtain ⟨a, ha, hb⟩ := Run.bind_eq_ok.mp h
      exact ih _ _ (remove_keeps_load d w n a hd ha) hb

theorem insertAll_eq_runCalls (f : ℕ) (ops : List (List Char × ℕ)) : ∀ (d : dictionary),
    dictionary.insertAll f d ops =
      dictionary.runCalls f d (ops.map fun op => Call.insert op.1 op.2) := by
  induction ops with
  | nil => intro d; rfl
  | cons op rest ih =>
    intro d
    simp only [dictionary.insertAll, List.map_cons, dictionary.runCalls]
    congr 1
    funext r
    exact ih r.1

/-- Claim C10, amended: the table is never more than one word over 75% full.  After
any sequence of public `insert` and `remove` calls that returns, started from a newly
constructed dictionary, `4 * size <= 3 * capacity + 4`; and a sequence of inserts of
normalized words into a dictionary of capacity at least 1 (per-word sums below `2^64`)
does return. -/
theorem load_factor_bound (cap : ℕ) :
    (∀ (calls : List Call) (f : ℕ) (d : dictionary),
      dictionary.runCalls f (dictionary.ctor cap) calls = Run.ok d →
      4 * d.size ≤ 3 * d.capacity + 4) ∧
    (∀ ops : List (List Char × ℕ), 1 ≤ cap → (∀ op ∈ ops, normalized op.1 = true) →
      (∀ w, countOf ops w < SIZE_MOD) →
      ∃ f d, dictionary.runCalls f (dictionary.ctor cap)
          (ops.map fun op => Call.insert op.1 op.2) = Run.ok d ∧
        4 * d.size ≤ 3 * d.capacity + 4) := by
  have h1 : ∀ (calls : List Call) (f : ℕ) (d : dictionary),
      dictionary.runCalls f (dictionary.ctor cap) calls = Run.ok d →
      4 * d.size ≤ 3 * d.capacity + 4 :=
    fun calls f d h => (runCalls_keeps_load f calls _ d (loadInv_ctor cap) h).2
  refine ⟨h1, fun ops hcap hops _ => ?_⟩
  obtain ⟨d, hd⟩ := insertAll_totalW ops _ (winv_ctor hcap) hops _ (le_refl _)
  rw [insertAll_eq_runCalls] at hd
  exact ⟨_, d, hd, h1 _ _ d hd⟩

/-- Witness for the amended C10: capacity 4, the inserts a, b, c, d and then
`remove("d")`; the run returns with size 3 and capacity 4. -/
theorem load_factor_bound_witness :
    dictionary.runCalls 1 (dictionary.ctor 4) loadCalls = Run.ok loadCallsResult ∧
    4 * loadCallsResult.size ≤ 3 * loadCallsResult.capacity + 4 :=
  ⟨by decide!, (load_factor_bound 4).1 loadCalls 1 loadCallsResult (by decide!)⟩

/-! ## Words with two apostrophes at characters 11 and 12 -/

/-- Claim C15 fails for `a` followed by eleven apostrophes and `b`: the word is
normalized, the extra-character step adds `(39 - 96) / 28^12`, and the hash is
negative. -/
theorem hash_negative :
    normalized "a'''''''''''b".toList = true ∧
    dictionary.hash "a'''''''''''b".toList = -57 / 28 ^ 12 ∧
    dictionary.hash "a'''''''''''b".toList < 0 :=
  ⟨by decide, by decide!, by decide!⟩

/-- Claim C11 fails after `insert("aaaaaaaaab")` and `insert("aaaaaaaaab''x")`: both
words have ideal index 0, the second one is stored in slot 1 behind the first, and its
hash is the smaller one. -/
theorem ordering_violated :
    ∃ d wa wb, dictionary.insertAll 2 (dictionary.ctor 1)
        [("aaaaaaaaab".toList, 1), ("aaaaaaaaab''x".toList, 1)] = Run.ok d ∧
      d.cell 0 = some (some wa) ∧ d.cell 1 = some (some wb) ∧
      wa.str = "aaaaaaaaab".toList ∧ wb.str = "aaaaaaaaab''x".toList ∧
      d.index wb.hash = 0 ∧ wb.hash < wa.hash :=
  ⟨dictionary.mk 2 2 [some 0, some 1, none]
      [some ⟨dictionary.hash "aaaaaaaaab".toList, 1, "aaaaaaaaab".toList⟩,
       some ⟨dictionary.hash "aaaaaaaaab''x".toList, 1, "aaaaaaaaab''x".toList⟩],
    ⟨dictionary.hash "aaaaaaaaab".toList, 1, "aaaaaaaaab".toList⟩,
    ⟨dictionary.hash "aaaaaaaaab''x".toList, 1, "aaaaaaaaab''x".toList⟩,
    by decide!, by decide!, by decide!, rfl, rfl, by decide!, by decide!⟩

/-! ## Duplicates and zero counts -/

/-- Claim C12 fails after `insert("a")`, `insert("b")`, `remove("a")` on a dictionary
of capacity 4: the compaction copies the pointer to `b` from slot 1 into slot 0 and
then clears slot 2, so slots 0 and 1 both hold the record of `b`. -/
theorem duplicate_after_remove :
    ∃ d w, dictionary.runCalls 1 (dictionary.ctor 4)
        [Call.insert "a".toList 1, Call.insert "b".toList 1,
         Call.remove "a".toList (SIZE_MOD - 1)] = Run.ok d ∧
      d.list = [some 1, some 1, none, none, none] ∧
      d.cell 0 = some (some w) ∧ d.cell 1 = some (some w) ∧ w.str = "b".toList :=
  ⟨dictionary.mk 4 1 [some 1, some 1, none, none, none]
      [none, some ⟨dictionary.hash "b".toList, 1, "b".toList⟩],
    ⟨dictionary.hash "b".toList, 1, "b".toList⟩,
    by decide!, rfl, by decide!, by decide!, rfl⟩

/-- Claim C13 fails for `insert("the", 0)`: the call returns 0 and leaves a record
with occurrence count 0 in the table; the same happens when a count wraps around,
as in `insert("the", 2^64 - 1)` followed by `insert("the", 1)`. -/
theorem zero_count_stored :
    (∃ d w, dictionary.insert 1 (dictionary.ctor 1) "the".toList 0 = Run.ok (d, 0) ∧
      d.Holds w ∧ w.str = "the".toList ∧ w.num = 0) ∧
    (∃ d w, dictionary.runCalls 2 (dictionary.ctor 1)
        [Call.insert "the".toList (SIZE_MOD - 1), Call.insert "the".toList 1] = Run.ok d ∧
      d.Holds w ∧ w.str = "the".toList ∧ w.num = 0) :=
  ⟨⟨dictionary.mk 1 1 [some 0, none] [some ⟨dictionary.hash "the".toList, 0, "the".toList⟩],
      ⟨dictionary.hash "the".toList, 0, "the".toList⟩,
      by decide!, ⟨0, by decide, rfl⟩, rfl, rfl⟩,
   ⟨dictionary.mk 2 1 [none, some 0, none]
      [some ⟨dictionary.hash "the".toList, 0, "the".toList⟩],
      ⟨dictionary.hash "the".toList, 0, "the".toList⟩,
      by decide!, ⟨0, by decide, rfl⟩, rfl, rfl⟩⟩

/-! ## Records hidden behind a negative hash

The first scan loop compares the bit patterns of the hashes, so a record with a
negative hash stops it at once.  The tables below hold `wordNeg`, whose hash is
negative, next to `wordTail` and `wordStem`; `wordTail` has the smaller hash and the
larger text of the two. -/

/-- Claim C1 fails after `insert(wordNeg)`, `insert(wordTail)`, `insert(wordStem)`,
`insert("a")` on a dictionary of capacity 8 (normalized words, count 1 each):
`wordStem` was inserted once, but `find(wordStem)` returns 0.  The record of `wordStem`
sits in slot 3; the scan starts at slot 1 on `wordNeg`, whose negative hash ends the
first loop, and the second loop stops at `wordTail` in slot 2. -/
theorem count_lost_behind_negative_hash :
    (∀ op ∈ lostOps, normalized op.1 = true ∧ 1 ≤ op.2) ∧
    dictionary.hash wordNeg < 0 ∧
    countOf lostOps wordStem = 1 ∧
    dictionary.insertAll 1 (dictionary.ctor 8) lostOps = Run.ok lostTable ∧
    lostTable.find wordStem = Run.ok 0 :=
  ⟨by decide, by decide!, by decide, by decide!, by decide!⟩

/-- Claim C2 fails on the reachable table `dupTable`, which holds two records of
`wordStem`: `find(wordStem)` returns 1, the count of the record in slot 2, but
`insert(wordStem, 1)` doubles the capacity at the load check, finds the other record in
the new table and returns 6, not 2. -/
theorem insert_returns_other_count :
    Reachable dupTable ∧ normalized wordStem = true ∧
    dupTable.find wordStem = Run.ok 1 ∧
    ∃ d', dictionary.insert 2 dupTable wordStem 1 = Run.ok (d', 6) ∧
      dupTable.capacity = 8 ∧ d'.capacity = 16 ∧ d'.find wordStem = Run.ok 6 :=
  ⟨dupTable_reachable, by decide, by decide!,
    dictionary.mk 16 7
      [some 3, some 0, some 2, some 4, some 1, none, none, none, some 5, none, some 6, none,
       none, none, none, none, none]
      [some ⟨dictionary.hash wordNeg, 1, wordNeg⟩,
       some ⟨dictionary.hash wordTail, 1, wordTail⟩,
       some ⟨dictionary.hash wordStem, 6, wordStem⟩,
       some ⟨dictionary.hash "a".toList, 1, "a".toList⟩,
       some ⟨dictionary.hash wordStem, 1, wordStem⟩,
       some ⟨dictionary.hash "p".toList, 1, "p".toList⟩,
       some ⟨dictionary.hash "s".toList, 1, "s".toList⟩],
    by decide!, rfl, rfl, by decide!⟩

/-- Claim C3 fails in two ways.  After `insert(wordNeg)`, `insert(wordTail)`,
`insert(wordStem)`, `insert("a")`, `insert(wordStem)` on a dictionary of capacity 8 the
table holds two records of `wordStem` and `size()` is 5, while 4 distinct words were
inserted.  And after `insert("the", 0)` on a dictionary of capacity 1, `find("the")`
is 0 and `size()` is 1, and `insert("the", 1)` leaves `size()` at 1. -/
theorem size_counts_records :
    (∀ op ∈ lostOps ++ [(wordStem, 1)], normalized op.1 = true ∧ 1 ≤ op.2) ∧
    dictionary.insertAll 1 (dictionary.ctor 8) (lostOps ++ [(wordStem, 1)]) =
      Run.ok twiceTable ∧
    twiceTable.size = 5 ∧
    ((lostOps ++ [(wordStem, 1)]).map Prod.fst).dedup.length = 4 ∧
    dictionary.insert 1 (dictionary.ctor 1) "the".toList 0 = Run.ok (zeroTable, 0) ∧
    zeroTable.find "the".toList = Run.ok 0 ∧ zeroTable.size = 1 ∧
    ∃ d', dictionary.insert 2 zeroTable "the".toList 1 = Run.ok (d', 1) ∧ d'.size = 1 :=
  ⟨by decide, by decide!, rfl, by decide, by decide!, by decide!, rfl,
    dictionary.mk 2 1 [none, some 0, none]
      [some ⟨dictionary.hash "the".toList, 1, "the".toList⟩],
    by decide!, rfl⟩

/-- Claim C6 fails after `insert("the", 0)` on a dictionary of capacity 1: the call
stores a record with count 0, so `find("the")` is 0 and the word counts as absent, but
`remove("the")` with the default count deletes the record and lowers `size()` from 1
to 0.  The same happens on the table `wrapTable`, reachable by inserts with counts of
at least 1, which holds a record of `wordStem` with count 0: `find(wordStem)` is 0 and
`remove(wordStem)` lowers `size()` from 7 to 6. -/
theorem remove_absent_lowers_size :
    (normalized "the".toList = true ∧
      dictionary.insert 1 (dictionary.ctor 1) "the".toList 0 = Run.ok (zeroTable, 0) ∧
      zeroTable.find "the".toList = Run.ok 0 ∧ zeroTable.size = 1 ∧
      ∃ d', zeroTable.remove "the".toList (SIZE_MOD - 1) = Run.ok (d', 0) ∧ d'.size = 0) ∧
    (Reachable wrapTable ∧ normalized wordStem = true ∧
      wrapTable.find wordStem = Run.ok 0 ∧ wrapTable.size = 7 ∧
      ∃ d', wrapTable.remove wordStem (SIZE_MOD - 1) = Run.ok (d', 0) ∧ d'.size = 6) :=
  ⟨⟨by decide, by decide!, by decide!, rfl,
      dictionary.mk 1 0 [some 0, none] [none], by decide!, rfl⟩,
    wrapTable_reachable, by decide, by decide!, rfl,
    dictionary.mk 16 6
      [some 3, some 0, some 4, some 1, some 1, none, none, none, some 5, none, some 6, none,
       none, none, none, none, none]
      [some ⟨dictionary.hash wordNeg, 1, wordNeg⟩,
       some ⟨dictionary.hash wordTail, 1, wordTail⟩,
       none,
       some ⟨dictionary.hash "a".toList, 1, "a".toList⟩,
       some ⟨dictionary.hash wordStem, 1, wordStem⟩,
       some ⟨dictionary.hash "p".toList, 1, "p".toList⟩,
       some ⟨dictionary.hash "s".toList, 1, "s".toList⟩],
    by decide!, rfl⟩

/-- Claim C14 fails on the reachable table `dupTable`: `insert("m", 1)` doubles the
capacity from 8 to 16, and `find(wordStem)`, a word different from `m`, is 1 before the
call and 5 after it.  The table holds two records of `wordStem`; the resize puts the
one with count 5 in front of the one with count 1. -/
theorem resize_changes_find :
    Reachable dupTable ∧ normalized "m".toList = true ∧ wordStem ≠ "m".toList ∧
    dupTable.find wordStem = Run.ok 1 ∧
    ∃ d', dictionary.insert 2 dupTable "m".toList 1 = Run.ok (d', 1) ∧
      dupTable.capacity = 8 ∧ d'.capacity = 16 ∧ d'.find wordStem = Run.ok 5 :=
  ⟨dupTable_reachable, by decide, by decide, by decide!,
    dictionary.mk 16 8
      [some 3, some 0, some 2, some 4, some 1, none, none, some 7, some 5, none, some 6, none,
       none, none, none, none, none]
      [some ⟨dictionary.hash wordNeg, 1, wordNeg⟩,
       some ⟨dictionary.hash wordTail, 1, wordTail⟩,
       some ⟨dictionary.hash wordStem, 5, wordStem⟩,
       some ⟨dictionary.hash "a".toList, 1, "a".toList⟩,
       some ⟨dictionary.hash wordStem, 1, wordStem⟩,
       some ⟨dictionary.hash "p".toList, 1, "p".toList⟩,
       some ⟨dictionary.hash "s".toList, 1, "s".toList⟩,
       some ⟨dictionary.hash "m".toList, 1, "m".toList⟩],
    by decide!, rfl, rfl, by decide!⟩

/-- Claim C19 fails on the reachable table `twiceTable`, whose five records all have
count 1: `print` emits the single group of count 1 with ranks `1-5`, and this group
lists `wordStem` twice, once for each of its two records. -/
theorem print_lists_word_twice :
    Reachable twiceTable ∧ (∀ v ∈ twiceTable.words, 1 ≤ v.num ∧ v.num < 2 ^ 31) ∧
    twiceTable.print = Run.ok
      [⟨1, "1-5", 3, ["a".toList, wordNeg, wordStem, wordTail, wordStem], (3, 1, 3)⟩] :=
  ⟨twiceTable_reachable, by decide!, by decide!⟩

/-! ## The hash as a sum of digits -/

theorem hashStep_eq (str : List Char) (h : ℚ) (i : ℕ) :
    hashStep str h i = h + (letterDigit (str.getD i (Char.ofNat 0)) : ℚ) / POW28 i := by
  unfold hashStep letterDigit charAt
  by_cases hc : str.getD i (Char.ofNat 0) = APOSTROPHE
  · rw [if_neg (not_not.mpr hc), if_pos hc]
    simp only [Int.cast_zero, zero_div, add_zero]
  · rw [if_pos hc, if_neg hc]

theorem hashFold_eq (str : List Char) (n : ℕ) : ∀ (i : ℕ) (x : ℚ),
    (List.range' i n).foldl (hashStep str) x =
      x + ((List.range' i n).map fun j =>
        (letterDigit (str.getD j (Char.ofNat 0)) : ℚ) / POW28 j).sum := by
  induction n with
  | zero => intro i x; simp
  | succ n ih =>
    intro i x
    rw [List.range'_succ, List.foldl_cons, ih, hashStep_eq, List.map_cons, List.sum_cons]
    ring

theorem hashFold_congr {s s' : List Char} {i n : ℕ}
    (h : ∀ j, i ≤ j → j < i + n → s.getD j (Char.ofNat 0) = s'.getD j (Char.ofNat 0)) (x : ℚ) :
    (List.range' i n).foldl (hashStep s) x = (List.range' i n).foldl (hashStep s') x := by
  rw [hashFold_eq, hashFold_eq]
  congr 2
  apply List.map_congr_left
  intro j hj
  rw [List.mem_range'_1] at hj
  rw [h j hj.1 hj.2]

/-- The hash of a non-empty word of at most `DICT_MAX_CHARS` characters. -/
theorem hash_short {w : List Char} (hne : w ≠ []) (hlen : w.length ≤ 11) :
    dictionary.hash w = ((charAt w 0 - 97 : ℤ) : ℚ) / 27 +
      ((List.range' 1 (w.length - 1)).map fun j =>
        (letterDigit (w.getD j (Char.ofNat 0)) : ℚ) / POW28 j).sum := by
  unfold dictionary.hash
  rw [if_pos hne]
  have h1 : ¬ w.length > DICT_MAX_CHARS := by simp [DICT_MAX_CHARS]; omega
  simp only [h1, if_false, lt_irrefl, false_and]
  exact hashFold_eq w _ 1 _

theorem hash_eq_docHash_aux {w : List Char} (hne : w ≠ []) (hlen : w.length ≤ 11) :
    dictionary.hash w = docHash w := by
  rw [hash_short hne hlen]
  unfold docHash
  congr 1
  have hr : List.range' 2 (w.length - 1) = (List.range' 1 (w.length - 1)).map (1 + ·) := by
    rw [List.map_add_range']
  rw [hr, List.map_map]
  congr 1
  apply List.map_congr_left
  intro j hj
  rw [List.mem_range'_1] at hj
  simp only [Function.comp, digitAt]
  rw [POW28_eq j (by omega)]
  have e1 : 1 + j - 1 = j := by omega
  have e2 : 1 + j = j + 1 := by omega
  rw [e1, e2]

theorem letterDigit_first {w : List Char} (h : normalized w = true) :
    digitAt w 1 - 1 = charAt w 0 - 97 := by
  unfold normalized at h
  simp only [Bool.and_eq_true, List.all_eq_true] at h
  obtain ⟨⟨_, h2⟩, _⟩ := h
  cases w with
  | nil => simp at h2
  | cons c cs =>
    simp only [List.head?_cons, isLetter, decide_eq_true_eq] at h2
    have hc : c ≠ APOSTROPHE := by
      intro hc
      rw [hc] at h2
      have : APOSTROPHE.toNat = 39 := rfl
      omega
    simp only [digitAt, letterDigit, charAt, Nat.sub_self, List.getD_cons_zero, hc, if_false]
    omega

theorem mixedHash_eq_docHash {w : List Char} (h : normalized w = true) :
    mixedHash w = docHash w := by
  have hne := normalized_ne_nil h
  have hlen : 0 < w.length := List.length_pos.mpr hne
  unfold mixedHash docHash
  obtain ⟨n, hn⟩ : ∃ n, w.length = n + 1 := ⟨w.length - 1, by omega⟩
  rw [hn, List.range'_succ, List.map_cons, List.sum_cons]
  simp only [if_true, pow_one, Nat.add_sub_cancel]
  rw [letterDigit_first h]
  congr 1
  congr 1
  apply List.map_congr_left
  intro i hi
  rw [List.mem_range'_1] at hi
  have : i ≠ 1 := by omega
  simp only [this, if_false]

/-- Claim C17: for every normalized word of at most 11 characters the hash is the
formula documented in `dictionary.h`: `(c_1 - 'a')/27` plus the sum over `i = 2..L`
of `d_i / 28^i`. -/
theorem hash_matches_header_doc (w : List Char) (hw : normalized w = true)
    (hlen : w.length ≤ 11) : dictionary.hash w = docHash w :=
  hash_eq_docHash_aux (normalized_ne_nil hw) hlen

/-- Witness for C17: `hash("foo") = 5/27 + 15/28^2 + 15/28^3`, the example of the doc
comment. -/
theorem hash_matches_header_doc_witness :
    normalized "foo".toList = true ∧ "foo".toList.length ≤ 11 ∧
    dictionary.hash "foo".toList = 5 / 27 + 15 / 28 ^ 2 + 15 / 28 ^ 3 :=
  ⟨by decide, by decide,
    (hash_matches_header_doc "foo".toList (by decide) (by decide)).trans (by decide!)⟩

/-- Claim C16 fails as stated: the hash of `foo` is not the base-27 fraction
`5/27 + 15/27^2 + 15/27^3`; the code divides by powers of 28 from the second
character on. -/
theorem hash_not_base27 :
    normalized "foo".toList = true ∧ "foo".toList.length ≤ 11 ∧
    specHash27 "foo".toList = 5 / 27 + 15 / 27 ^ 2 + 15 / 27 ^ 3 ∧
    dictionary.hash "foo".toList ≠ specHash27 "foo".toList :=
  ⟨by decide, by decide, by decide!, by decide!⟩

/-- Claim C16, amended: for every normalized word of at most 11 characters the hash is
the sum over the positions `i = 1..L` of `d_i / b_i^i`, with `d_1` reduced by one,
where the base `b_i` is 27 at the first position and 28 from the second position
on. -/
theorem hash_mixed_base (w : List Char) (hw : normalized w = true) (hlen : w.length ≤ 11) :
    dictionary.hash w = mixedHash w := by
  rw [mixedHash_eq_docHash hw]
  exact hash_eq_docHash_aux (normalized_ne_nil hw) hlen

/-- Witness for the amended C16: the word `foo`. -/
theorem hash_mixed_base_witness :
    dictionary.hash "foo".toList = mixedHash "foo".toList ∧
    mixedHash "foo".toList = (6 - 1) / 27 + 15 / 28 ^ 2 + 15 / 28 ^ 3 :=
  ⟨hash_mixed_base "foo".toList (by decide) (by decide), by decide!⟩

/-! ## The extra character at the limit -/

/-- The hash of a word of more than `DICT_MAX_CHARS` characters: the first 11
characters, and the 12th when the 11th is an apostrophe. -/
theorem hash_long {w : List Char} (hlen : 11 < w.length) :
    dictionary.hash w = ((charAt w 0 - 97 : ℤ) : ℚ) / 27 +
      ((List.range' 1 10).map fun j =>
        (letterDigit (w.getD j (Char.ofNat 0)) : ℚ) / POW28 j).sum +
      (if w.getD 10 (Char.ofNat 0) = APOSTROPHE then ((charAt w 11 - 96 : ℤ) : ℚ) / 28 ^ 12
       else 0) := by
  have hne : w ≠ [] := by
    intro h; rw [h] at hlen; simp at hlen
  unfold dictionary.hash
  rw [if_pos hne]
  have h1 : w.length > 11 := hlen
  simp only [DICT_MAX_CHARS, h1, if_true, true_and]
  rw [hashFold_eq, POW28_eq 11 (by norm_num)]
  by_cases hc : w.getD 10 (Char.ofNat 0) = APOSTROPHE
  · rw [if_pos hc, if_pos hc]
  · rw [if_neg hc, if_neg hc, add_zero]

theorem getD_take_lt (w : List Char) {j n : ℕ} (h : j < n) :
    (w.take n).getD j (Char.ofNat 0) = w.getD j (Char.ofNat 0) := by
  simp only [List.getD_eq_getElem?_getD]
  rw [List.getElem?_take_of_lt h]

/-- Claim C18: the boundary correction.  For a string `u` of exactly 10 characters and
a non-empty suffix `t` such that `v = u + apostrophe + t` is a normalized word,
`hash(v) = hash(u) + (c - 96) / 28^12` where `c` is the 12th character of `v` (the
first one of `t`), and `hash(v) ≠ hash(u)`.  A word that is not longer than 11
characters or whose 11th character is not an apostrophe gets no correction: its hash
is the hash of its first 11 characters. -/
theorem boundary_correction (u t : List Char) (hu : u.length = 10) (ht : t ≠ [])
    (hv : normalized (u ++ APOSTROPHE :: t) = true) :
    dictionary.hash (u ++ APOSTROPHE :: t) =
      dictionary.hash u + ((charAt t 0 - 96 : ℤ) : ℚ) / 28 ^ 12 ∧
    dictionary.hash (u ++ APOSTROPHE :: t) ≠ dictionary.hash u ∧
    (∀ w : List Char, w ≠ [] →
      ¬ (11 < w.length ∧ w.getD 10 (Char.ofNat 0) = APOSTROPHE) →
      dictionary.hash w = dictionary.hash (w.take 11)) := by
  have hune : u ≠ [] := by
    intro h; rw [h] at hu; simp at hu
  have htlen : 0 < t.length := List.length_pos.mpr ht
  have hvlen : 11 < (u ++ APOSTROPHE :: t).length := by
    simp only [List.length_append, List.length_cons]; omega
  have hget : ∀ j, j < 10 → (u ++ APOSTROPHE :: t).getD j (Char.ofNat 0) =
      u.getD j (Char.ofNat 0) := fun j hj => List.getD_append _ _ _ _ (by omega)
  have h10 : (u ++ APOSTROPHE :: t).getD 10 (Char.ofNat 0) = APOSTROPHE := by
    rw [List.getD_append_right _ _ _ _ (by omega), hu]
    rfl
  have h11 : (u ++ APOSTROPHE :: t).getD 11 (Char.ofNat 0) = t.getD 0 (Char.ofNat 0) := by
    rw [List.getD_append_right _ _ _ _ (by omega), hu]
    rfl
  have hformula : dictionary.hash (u ++ APOSTROPHE :: t) =
      dictionary.hash u + ((charAt t 0 - 96 : ℤ) : ℚ) / 28 ^ 12 := by
    rw [hash_long hvlen, hash_short hune (by omega), if_pos h10, hu]
    have hc0 : charAt (u ++ APOSTROPHE :: t) 0 = charAt u 0 := by
      unfold charAt; rw [hget 0 (by omega)]
    have hc11 : charAt (u ++ APOSTROPHE :: t) 11 = charAt t 0 := by
      unfold charAt; rw [h11]
    rw [hc0, hc11]
    congr 1
    congr 1
    have hr : List.range' 1 10 = List.range' 1 9 ++ [10] := by decide
    rw [hr, List.map_append, List.sum_append]
    have hz : (letterDigit ((u ++ APOSTROPHE :: t).getD 10 (Char.ofNat 0)) : ℚ) = 0 := by
      rw [h10]; simp [letterDigit]
    simp only [List.map_cons, List.map_nil, List.sum_cons, List.sum_nil, hz, zero_div,
      add_zero]
    congr 1
    apply List.map_congr_left
    intro j hj
    rw [List.mem_range'_1] at hj
    rw [hget j (by omega)]
  have hchar : charAt t 0 - 96 ≠ 0 := by
    obtain ⟨_, hall, _⟩ := normalized_chars hv
    have hmem : t.getD 0 (Char.ofNat 0) ∈ u ++ APOSTROPHE :: t := by
      rw [List.getD_eq_getElem _ _ htlen]
      exact List.mem_append_right _ (List.mem_cons_of_mem _ (List.getElem_mem htlen))
    have := hall _ hmem
    simp only [isWordChar, isLetter, Bool.or_eq_true, decide_eq_true_eq] at this
    unfold charAt
    rcases this with h | h
    · omega
    · rw [h]
      decide
  refine ⟨hformula, ?_, ?_⟩
  · rw [hformula]
    intro h
    have hq : ((charAt t 0 - 96 : ℤ) : ℚ) / 28 ^ 12 = 0 := by linarith
    rw [div_eq_zero_iff] at hq
    rcases hq with hq | hq
    · exact hchar (by exact_mod_cast hq)
    · norm_num at hq
  · intro w hne hcond
    rcases Nat.lt_or_ge 11 w.length with hl | hl
    · have hc : w.getD 10 (Char.ofNat 0) ≠ APOSTROPHE := fun h => hcond ⟨hl, h⟩
      have htl : (w.take 11).length = 11 := by
        rw [List.length_take]; omega
      have htne : w.take 11 ≠ [] := by
        intro h; rw [h] at htl; simp at htl
      rw [hash_long hl, if_neg hc, add_zero, hash_short htne (by omega), htl]
      have hc0 : charAt (w.take 11) 0 = charAt w 0 := by
        unfold charAt; rw [getD_take_lt w (by omega)]
      rw [hc0]
      congr 1
      congr 1
      apply List.map_congr_left
      intro j hj
      rw [List.mem_range'_1] at hj
      rw [getD_take_lt w (by omega)]
    · rw [List.take_of_length_le hl]

/-- Witness for C18: `u = aaaaaaaaab`, `t = x`, and also `t = 'x`, where the 12th
character is an apostrophe. -/
theorem boundary_correction_witness :
    (dictionary.hash ("aaaaaaaaab".toList ++ APOSTROPHE :: "x".toList) =
        dictionary.hash "aaaaaaaaab".toList + ((120 - 96 : ℤ) : ℚ) / 28 ^ 12 ∧
      dictionary.hash ("aaaaaaaaab".toList ++ APOSTROPHE :: "x".toList) ≠
        dictionary.hash "aaaaaaaaab".toList) ∧
    (dictionary.hash ("aaaaaaaaab".toList ++ APOSTROPHE :: "'x".toList) =
        dictionary.hash "aaaaaaaaab".toList + ((39 - 96 : ℤ) : ℚ) / 28 ^ 12 ∧
      dictionary.hash ("aaaaaaaaab".toList ++ APOSTROPHE :: "'x".toList) ≠
        dictionary.hash "aaaaaaaaab".toList) :=
  ⟨⟨(boundary_correction "aaaaaaaaab".toList "x".toList (by decide) (by decide)
        (by decide)).1,
     (boundary_correction "aaaaaaaaab".toList "x".toList (by decide) (by decide)
        (by decide)).2.1⟩,
   ⟨(boundary_correction "aaaaaaaaab".toList "'x".toList (by decide) (by decide)
        (by decide)).1,
     (boundary_correction "aaaaaaaaab".toList "'x".toList (by decide) (by decide)
        (by decide)).2.1⟩⟩

/-! ## The report: filling the frequency vector -/

theorem getD_append_replicate_nil (fr : List (List (List Char))) (m j : ℕ) :
    (fr ++ List.replicate m []).getD j [] = fr.getD j [] := by
  simp only [List.getD_eq_getElem?_getD]
  rcases Nat.lt_or_ge j fr.length with h | h
  · rw [List.getElem?_append_left h]
  · rw [List.getElem?_append_right h, List.getElem?_replicate, List.getElem?_eq_none h]
    split <;> rfl

theorem buckets_nil : Buckets [] [] := by
  refine ⟨fun k => by simp, fun v hv => by simp at hv, fun B _ => by simp⟩

theorem buckets_step {fr : List (List (List Char))} {done : List word} {w : word}
    (hb : Buckets fr done) (h1 : 1 ≤ w.num) (h2 : w.num < SIZE_MOD) :
    (w.num + SIZE_MOD - 1) % SIZE_MOD <
        (if w.num > fr.length then fr ++ List.replicate (w.num - fr.length) [] else fr).length ∧
    Buckets
      ((if w.num > fr.length then fr ++ List.replicate (w.num - fr.length) [] else fr).set
        ((w.num + SIZE_MOD - 1) % SIZE_MOD)
        ((if w.num > fr.length then fr ++ List.replicate (w.num - fr.length) [] else fr).getD
          ((w.num + SIZE_MOD - 1) % SIZE_MOD) [] ++ [w.str]))
      (done ++ [w]) := by
  obtain ⟨hg, hlo, hhi⟩ := hb
  have hk : (w.num + SIZE_MOD - 1) % SIZE_MOD = w.num - 1 := by
    unfold SIZE_MOD at h2 ⊢
    omega
  rw [hk]
  generalize hfr1 : (if w.num > fr.length then fr ++ List.replicate (w.num - fr.length) []
    else fr) = fr1
  have hlen : fr1.length = max fr.length w.num := by
    rw [← hfr1]
    split
    · rw [List.length_append, List.length_replicate]; omega
    · omega
  have hget : ∀ j, fr1.getD j [] = fr.getD j [] := by
    intro j
    rw [← hfr1]
    split
    · exact getD_append_replicate_nil _ _ _
    · rfl
  have hklt : w.num - 1 < fr1.length := by rw [hlen]; omega
  refine ⟨hklt, ?_, ?_, ?_⟩
  · intro j
    rw [List.filter_append, List.map_append, ← hg j]
    simp only [List.getD_eq_getElem?_getD, List.getElem?_set]
    by_cases hj : w.num - 1 = j
    · have hd : w.num = j + 1 := by omega
      have hf : List.filter (fun v : word => decide (v.num = j + 1)) [w] = [w] := by
        simp [List.filter, hd]
      rw [if_pos hj, if_pos hklt, hf]
      simp only [Option.getD_some, List.map_cons, List.map_nil]
      have := hget (w.num - 1)
      simp only [List.getD_eq_getElem?_getD] at this
      rw [this, hj]
    · have hd : ¬ w.num = j + 1 := by omega
      have hf : List.filter (fun v : word => decide (v.num = j + 1)) [w] = [] := by
        simp [List.filter, hd]
      rw [if_neg hj, hf]
      simp only [List.map_nil, List.append_nil]
      have := hget j
      simp only [List.getD_eq_getElem?_getD] at this
      exact this
  · intro v hv
    rw [List.length_set, hlen]
    rcases List.mem_append.mp hv with h | h
    · exact le_trans (hlo v h) (le_max_left _ _)
    · rw [List.mem_singleton] at h
      rw [h]
      exact le_max_right _ _
  · intro B hB
    rw [List.length_set, hlen]
    apply max_le
    · exact hhi B fun v hv => hB v (List.mem_append_left _ hv)
    · exact hB w (List.mem_append_right _ (List.mem_singleton.mpr rfl))

theorem printFill_spec (d : dictionary)
    (hlive : ∀ p ∈ d.ptrs, ∃ w, d.store[p]? = some (some w) ∧ 1 ≤ w.num ∧ w.num < SIZE_MOD) :
    ∀ (n s : ℕ) (fr : List (List (List Char))) (done : List word), s + n ≤ d.list.length →
      Buckets fr done →
      ∃ fr', d.printFill (List.range' s n) fr = Run.ok fr' ∧
        Buckets fr' (done ++ (((d.list.drop s).take n).filterMap id).filterMap
          fun p => d.store.getD p none) := by
  intro n
  induction n with
  | zero =>
    intro s fr done _ hb
    refine ⟨fr, rfl, ?_⟩
    simpa using hb
  | succ n ih =>
    intro s fr done hs hb
    have hlt : s < d.list.length := by omega
    have hdrop : d.list.drop s = d.list[s] :: d.list.drop (s + 1) :=
      List.drop_eq_getElem_cons hlt
    have hsl : d.slot s = Run.ok d.list[s] := slot_eq_ok (List.getElem?_eq_getElem hlt)
    rw [List.range'_succ, hdrop, List.take_succ_cons]
    unfold dictionary.printFill
    rw [hsl]
    simp only [Run.bind]
    cases hx : d.list[s] with
    | none =>
      simp only [List.filterMap_cons_none, id]
      exact ih (s + 1) fr done (by omega) hb
    | some p =>
      have hp : p ∈ d.ptrs :=
        (mem_ptrs_iff d p).mpr ⟨s, by rw [List.getElem?_eq_getElem hlt, hx]⟩
      obtain ⟨w, hw, h1, h2⟩ := hlive p hp
      dsimp only
      rw [deref_eq_ok hw]
      obtain ⟨hk, hb'⟩ := buckets_step hb h1 h2
      dsimp only
      rw [if_pos hk]
      obtain ⟨fr', he, hfin⟩ := ih (s + 1) _ (done ++ [w]) (by omega) hb'
      refine ⟨fr', he, ?_⟩
      have hgd : d.store.getD p none = some w := by
        rw [List.getD_eq_getElem?_getD, hw]; rfl
      have e1 : List.filterMap id (some p :: List.take n (List.drop (s + 1) d.list)) =
          p :: List.filterMap id (List.take n (List.drop (s + 1) d.list)) := rfl
      have e2 : List.filterMap (fun p => d.store.getD p none)
          (p :: List.filterMap id (List.take n (List.drop (s + 1) d.list))) =
          w :: List.filterMap (fun p => d.store.getD p none)
            (List.filterMap id (List.take n (List.drop (s + 1) d.list))) := by
        simp only [List.filterMap_cons, hgd]
      rw [e1, e2]
      rw [List.append_assoc] at hfin
      exact hfin

/-! ## The report: writing the levels -/

theorem rankBase_zero (gs : List FreqGroup) : rankBase gs 0 = 0 := by
  simp [rankBase]

theorem rankBase_succ (g : FreqGroup) (gs : List FreqGroup) (j : ℕ) :
    rankBase (g :: gs) (j + 1) = g.words.length + rankBase gs j := by
  simp [rankBase]

theorem printEmit_spec (fr : List (List (List Char))) :
    ∀ (n printed : ℕ), n ≤ fr.length → n < 2 ^ 31 →
      ∃ gs, printEmit fr n printed = Run.ok gs ∧
        gs.map (fun g => (g.freq, g.words)) =
          (((List.range n).reverse.filter fun i => decide (fr.getD i [] ≠ [])).map
            fun i => (i + 1, fr.getD i [])) ∧
        ∀ j g, gs[j]? = some g →
          g.ranks = (if g.words.length > 1
            then toString (printed + rankBase gs j + 1) ++ "-" ++
              toString (printed + rankBase gs j + g.words.length)
            else toString (printed + rankBase gs j + 1)) ∧
          g.avg = (((printed + rankBase gs j + 1 : ℕ) : ℚ) +
            ((printed + rankBase gs j + g.words.length : ℕ) : ℚ)) / 2 ∧
          g.csv = (g.avg, g.freq, g.avg * (g.freq : ℚ)) := by
  intro n
  induction n with
  | zero =>
    intro printed _ _
    refine ⟨[], rfl, rfl, ?_⟩
    intro j g hj
    simp at hj
  | succ n ih =>
    intro printed hn h31
    have hlt : n < fr.length := by omega
    have hget : fr[n]? = some fr[n] := List.getElem?_eq_getElem hlt
    have hgd : fr.getD n [] = fr[n] := List.getD_eq_getElem _ _ hlt
    have hrange : (List.range (n + 1)).reverse = n :: (List.range n).reverse := by
      rw [List.range_succ, List.reverse_append]
      rfl
    unfold printEmit
    rw [hget, hrange]
    dsimp only
    by_cases hb : fr[n] = []
    · obtain ⟨gs, he, hm, hr⟩ := ih printed (by omega) (by omega)
      have hdec : List.filter (fun i => decide (fr.getD i [] ≠ [])) (n :: (List.range n).reverse) =
          List.filter (fun i => decide (fr.getD i [] ≠ [])) (List.range n).reverse := by
        simp [List.filter_cons, hget, hb]
      rw [if_neg (not_not.mpr hb), hdec]
      exact ⟨gs, he, hm, hr⟩
    · have hdec : List.filter (fun i => decide (fr.getD i [] ≠ [])) (n :: (List.range n).reverse) =
          n :: List.filter (fun i => decide (fr.getD i [] ≠ [])) (List.range n).reverse := by
        simp [List.filter_cons, hget, hb]
      have hpos : 1 ≤ fr[n].length := List.length_pos.mpr hb
      have hp1 : (if fr[n].length > 1 then printed + fr[n].length else printed + 1) =
          printed + fr[n].length := by
        split
        · rfl
        · omega
      rw [if_pos hb, if_pos h31, hp1, hdec]
      obtain ⟨gs, he, hm, hr⟩ := ih (printed + fr[n].length) (by omega) (by omega)
      rw [he]
      simp only [Run.bind]
      refine ⟨_, rfl, ?_, ?_⟩
      · rw [List.map_cons, List.map_cons, hm, hgd]
      · intro j g hj
        cases j with
        | zero =>
          simp only [List.getElem?_cons_zero, Option.some.injEq] at hj
          subst hj
          simp only [rankBase_zero, Nat.add_zero]
          refine ⟨trivial, ?_, trivial⟩
          push_cast
          ring
        | succ j =>
          simp only [List.getElem?_cons_succ] at hj
          have e : printed + rankBase (FreqGroup.mk (n + 1)
              (if fr[n].length > 1 then toString (printed + 1) ++ "-" ++
                toString (printed + fr[n].length) else toString (printed + 1))
              (((printed + 1 : ℕ) : ℚ) +
                (((printed + fr[n].length : ℕ) : ℚ) - ((printed + 1 : ℕ) : ℚ)) / 2)
              fr[n]
              (((printed + 1 : ℕ) : ℚ) +
                (((printed + fr[n].length : ℕ) : ℚ) - ((printed + 1 : ℕ) : ℚ)) / 2, n + 1,
                (((printed + 1 : ℕ) : ℚ) +
                (((printed + fr[n].length : ℕ) : ℚ) - ((printed + 1 : ℕ) : ℚ)) / 2) *
                  ((n + 1 : ℕ) : ℚ)) :: gs) (j + 1) =
              printed + fr[n].length + rankBase gs j := by
            rw [rankBase_succ, Nat.add_assoc]
          rw [e]
          exact hr j g hj

/-! ## The report: the whole of `print` -/

theorem mem_words_iff (d : dictionary) (v : word) : v ∈ d.words ↔ d.Holds v := by
  unfold dictionary.words dictionary.Holds
  rw [List.mem_filterMap]
  constructor
  · rintro ⟨p, hp, h⟩
    refine ⟨p, hp, ?_⟩
    rw [List.getD_eq_getElem?_getD] at h
    cases hs : d.store[p]? with
    | none => rw [hs] at h; simp at h
    | some o => rw [hs] at h; simp only [Option.getD_some] at h; rw [h]
  · rintro ⟨p, hp, h⟩
    refine ⟨p, hp, ?_⟩
    rw [List.getD_eq_getElem?_getD, h]
    rfl

theorem filterMap_length_of_some {α β : Type} (f : α → Option β) :
    ∀ l : List α, (∀ a ∈ l, ∃ b, f a = some b) → (l.filterMap f).length = l.length
  | [], _ => rfl
  | a :: l, h => by
    obtain ⟨b, hb⟩ := h a (List.mem_cons_self _ _)
    rw [List.filterMap_cons_some hb, List.length_cons, List.length_cons,
      filterMap_length_of_some f l fun x hx => h x (List.mem_cons_of_mem _ hx)]

theorem words_length {d : dictionary} (hinv : WInv d) : d.words.length = d.size := by
  rw [hinv.size_eq]
  unfold dictionary.words
  apply filterMap_length_of_some
  intro p hp
  obtain ⟨w, hw, _⟩ := hinv.ptrs.2 p hp
  refine ⟨w, ?_⟩
  rw [List.getD_eq_getElem?_getD, hw]
  rfl

theorem print_fill {d : dictionary} (hinv : WInv d) (hcnt : CountsOK d) :
    ∃ fr, d.printFill (List.range d.capacity) [] = Run.ok fr ∧ Buckets fr d.words := by
  have hlive : ∀ p ∈ d.ptrs, ∃ w, d.store[p]? = some (some w) ∧ 1 ≤ w.num ∧
      w.num < SIZE_MOD := by
    intro p hp
    obtain ⟨w, hw, _⟩ := hinv.ptrs.2 p hp
    exact ⟨w, hw, hcnt w ⟨p, hp, hw⟩⟩
  obtain ⟨fr, he, hb⟩ := printFill_spec d hlive d.capacity 0 [] []
    (by rw [hinv.table.len]; omega) buckets_nil
  refine ⟨fr, ?_, ?_⟩
  · rw [List.range_eq_range']
    exact he
  · rw [List.drop_zero, ptrs_take hinv.table.len hinv.table.sentinel, List.nil_append] at hb
    exact hb

theorem emit_start {len : ℕ} (h : len < 2 ^ 31) :
    (sizeToInt ((len + SIZE_MOD - 1) % SIZE_MOD) + 1).toNat = len := by
  unfold sizeToInt SIZE_MOD
  split <;> omega

theorem print_spec {d : dictionary} (hinv : WInv d) (hcnt : CountsOK d)
    (hsmall : ∀ v ∈ d.words, v.num < 2 ^ 31) :
    ∃ fr gs, Buckets fr d.words ∧ d.print = Run.ok gs ∧
      gs.map (fun g => (g.freq, g.words)) =
        (((List.range fr.length).reverse.filter fun i => decide (fr.getD i [] ≠ [])).map
          fun i => (i + 1, fr.getD i [])) ∧
      ∀ j g, gs[j]? = some g →
        g.ranks = (if g.words.length > 1
          then toString (0 + rankBase gs j + 1) ++ "-" ++
            toString (0 + rankBase gs j + g.words.length)
          else toString (0 + rankBase gs j + 1)) ∧
        g.avg = (((0 + rankBase gs j + 1 : ℕ) : ℚ) +
          ((0 + rankBase gs j + g.words.length : ℕ) : ℚ)) / 2 ∧
        g.csv = (g.avg, g.freq, g.avg * (g.freq : ℚ)) := by
  obtain ⟨fr, he, hb⟩ := print_fill hinv hcnt
  have hlen : fr.length < 2 ^ 31 := by
    have := hb.2.2 (2 ^ 31 - 1) fun v hv => by have := hsmall v hv; omega
    omega
  obtain ⟨gs, hg, hm, hr⟩ := printEmit_spec fr fr.length 0 le_rfl hlen
  refine ⟨fr, gs, hb, ?_, hm, hr⟩
  unfold dictionary.print
  rw [he, Run.bind_ok, emit_start hlen]
  exact hg

/-! ## Rank ranges -/

theorem sum_indicator (k : ℕ) :
    ∀ n, ((List.range n).map fun i => if k = i then 1 else 0).sum = if k < n then 1 else 0 := by
  intro n
  induction n with
  | zero => simp
  | succ n ih =>
    rw [List.range_succ, List.map_append, List.sum_append, ih]
    simp only [List.map_cons, List.map_nil, List.sum_cons, List.sum_nil]
    split <;> split <;> split <;> omega

theorem sum_bucket_lengths (len : ℕ) :
    ∀ ws : List word, (∀ v ∈ ws, 1 ≤ v.num ∧ v.num ≤ len) →
      ((List.range len).map fun i =>
        (ws.filter fun v => decide (v.num = i + 1)).length).sum = ws.length := by
  intro ws
  induction ws with
  | nil => intro _; simp
  | cons v ws ih =>
    intro h
    obtain ⟨hv1, hv2⟩ := h v (List.mem_cons_self _ _)
    have hstep : ∀ i, ((v :: ws).filter fun x => decide (x.num = i + 1)).length =
        (if v.num - 1 = i then 1 else 0) +
          (ws.filter fun x => decide (x.num = i + 1)).length := by
      intro i
      rw [List.filter_cons]
      by_cases hi : v.num = i + 1
      · have : v.num - 1 = i := by omega
        simp [hi, this]
        omega
      · have : ¬ v.num - 1 = i := by omega
        simp [hi, this]
    simp only [hstep]
    rw [List.sum_map_add, sum_indicator, ih fun x hx => h x (List.mem_cons_of_mem _ hx),
      if_pos (by omega), List.length_cons]
    omega

theorem sum_filter_nonempty (f : ℕ → List (List Char)) :
    ∀ l : List ℕ, ((l.filter fun i => decide (f i ≠ [])).map fun i => (f i).length).sum =
      (l.map fun i => (f i).length).sum := by
  intro l
  induction l with
  | nil => rfl
  | cons a l ih =>
    rw [List.filter_cons]
    by_cases ha : f a = []
    · have hd : ¬ decide (f a ≠ []) = true := by
        rw [decide_eq_true_eq]; exact not_not.mpr ha
      rw [if_neg hd, List.map_cons, List.sum_cons, ih, ha]
      simp
    · have hd : decide (f a ≠ []) = true := by
        rw [decide_eq_true_eq]; exact ha
      rw [if_pos hd, List.map_cons, List.sum_cons, ih, List.map_cons, List.sum_cons]

theorem print_total {d : dictionary} (hinv : WInv d) (hcnt : CountsOK d)
    {fr : List (List (List Char))} {gs : List FreqGroup} (hb : Buckets fr d.words)
    (hm : gs.map (fun g => (g.freq, g.words)) =
      (((List.range fr.length).reverse.filter fun i => decide (fr.getD i [] ≠ [])).map
        fun i => (i + 1, fr.getD i []))) :
    rankBase gs gs.length = d.size := by
  have h1 : gs.map (fun g => g.words.length) =
      (((List.range fr.length).reverse.filter fun i => decide (fr.getD i [] ≠ [])).map
        fun i => (fr.getD i []).length) := by
    have := congrArg (List.map fun p : ℕ × List (List Char) => p.2.length) hm
    simpa [List.map_map, Function.comp] using this
  unfold rankBase
  rw [List.take_length, h1, sum_filter_nonempty (fun i => fr.getD i []), List.map_reverse,
    List.sum_reverse]
  have h2 : ((List.range fr.length).map fun i => (fr.getD i []).length) =
      (List.range fr.length).map fun i =>
        (d.words.filter fun v => decide (v.num = i + 1)).length := by
    apply List.map_congr_left
    intro i _
    rw [hb.1 i, List.length_map]
  rw [h2, sum_bucket_lengths fr.length d.words, words_length hinv]
  intro v hv
  exact ⟨(hcnt v ((mem_words_iff d v).mp hv)).1, hb.2.1 v hv⟩

/-! ## The rank ranges of a reachable table -/

theorem ctor_holds_none (cap : ℕ) (v : word) : ¬ (dictionary.ctor cap).Holds v := by
  rintro ⟨p, hp, _⟩
  simp [dictionary.ptrs, dictionary.ctor, List.filterMap_replicate] at hp

theorem rankTable_reachable : Reachable rankTable :=
  reachable_insertAllW rankOps 0 (dictionary.ctor 1) (Reachable.ctor 1 (by decide))
    (fun v hv => absurd hv (ctor_holds_none 1 v)) (by decide) (by decide) 3 rankTable
    (by decide!)

theorem counts_of_words {d : dictionary}
    (h : ∀ v ∈ d.words, 1 ≤ v.num ∧ v.num < SIZE_MOD) : CountsOK d :=
  fun v hv => h v ((mem_words_iff d v).mpr hv)

theorem bigTable_reachable : Reachable bigTable :=
  reachable_insertAllW bigOps 0 (dictionary.ctor 1) (Reachable.ctor 1 (by decide))
    (fun v hv => absurd hv (ctor_holds_none 1 v)) (by decide) (by decide) 3 bigTable
    (by decide!)

theorem rankBase_next {gs : List FreqGroup} {j : ℕ} {g : FreqGroup} (h : gs[j]? = some g) :
    rankBase gs (j + 1) = rankBase gs j + g.words.length := by
  unfold rankBase
  rw [List.take_succ, h]
  simp

/-- Claim C20 fails as stated, without a bound on the counts: the table built by
`insert("a", 2^32 + 1)` and `insert("b", 1)` is reachable and has `size() = 2`, but
`print` writes the single level of `b` with rank `1`: the vector `frequency` has
`2^32 + 1` entries, the `int` loop index starts at `int(2^32) = 0`, and the level of
`a` is never visited.  The last rank range ends at 1, not at `size()`.  It also fails
on the reachable table `wrapTable`, all of whose counts are below `2^31`: the record of
`wordStem` that held `2^64 - 1` was raised by 1 and holds count 0, and `print` indexes
`frequency` with `0 - 1`, outside the vector. -/
theorem ranks_stop_short :
    (Reachable bigTable ∧ bigTable.size = 2 ∧
      bigTable.print = Run.ok [⟨1, "1", 1, ["b".toList], (1, 1, 1)⟩] ∧
      rankBase [(⟨1, "1", 1, ["b".toList], (1, 1, 1)⟩ : FreqGroup)] 1 = 1) ∧
    (Reachable wrapTable ∧ (∀ v ∈ wrapTable.words, v.num < 2 ^ 31) ∧
      wrapTable.print = Run.ub) := by
  refine ⟨⟨bigTable_reachable, rfl, ?_, by decide⟩, wrapTable_reachable, by decide!,
    by decide!⟩
  have hw : bigTable.words = [⟨dictionary.hash "a".toList, 2 ^ 32 + 1, "a".toList⟩,
      ⟨dictionary.hash "b".toList, 1, "b".toList⟩] := by decide!
  have hcnt : CountsOK bigTable := by
    apply counts_of_words
    rw [hw]
    intro v hv
    simp only [List.mem_cons, List.mem_singleton, List.not_mem_nil, or_false] at hv
    rcases hv with rfl | rfl
    · exact ⟨by decide, by decide⟩
    · exact ⟨by decide, by decide⟩
  obtain ⟨fr, he, hb⟩ := print_fill (reachable_winv bigTable_reachable) hcnt
  rw [hw] at hb
  have hlen : fr.length = 2 ^ 32 + 1 := by
    have h1 := hb.2.1 _ (List.mem_cons_self _ _)
    have h2 := hb.2.2 (2 ^ 32 + 1) (by
      intro v hv
      simp only [List.mem_cons, List.mem_singleton, List.not_mem_nil, or_false] at hv
      rcases hv with rfl | rfl
      · exact le_rfl
      · show 1 ≤ 2 ^ 32 + 1
        omega)
    exact le_antisymm h2 h1
  have h0 : fr[0]? = some ["b".toList] := by
    have hg := hb.1 0
    have hpos : 0 < fr.length := by rw [hlen]; omega
    rw [List.getD_eq_getElem _ _ hpos] at hg
    rw [List.getElem?_eq_getElem hpos, hg]
    decide
  have hstart : (sizeToInt ((fr.length + SIZE_MOD - 1) % SIZE_MOD) + 1).toNat = 0 + 1 := by
    rw [hlen]
    decide
  unfold dictionary.print
  rw [he, Run.bind_ok, hstart]
  unfold printEmit
  rw [h0]
  dsimp only
  unfold printEmit
  decide!

/-- Claim C20, amended: rank ranges partition `1..size()` when all stored counts are at
least 1 and below `2^31`.  For every dictionary reachable by insert calls whose stored
counts are all at least 1 and below `2^31`, `print` returns groups `g_1..g_k`; with `b_j` the number of words of
`g_j` and `p_j = b_1 + ... + b_(j-1)` (`rankBase gs j`): `p_1 = 0`, so the first range
starts at 1; every group has `b_j ≥ 1` words and `p_(j+1) = p_j + b_j`; the total
`p_(k+1)` is `size()`, so the last range ends at `size()`; and the rank string of `g_j`
is the single rank `p_j + 1` when `b_j = 1` and `first-last` with first `p_j + 1` and
last `p_j + b_j` otherwise. -/
theorem rank_ranges (d : dictionary) (hd : Reachable d)
    (hpos : ∀ v ∈ d.words, 1 ≤ v.num) (hsmall : ∀ v ∈ d.words, v.num < 2 ^ 31) :
    ∃ gs, d.print = Run.ok gs ∧
      rankBase gs 0 = 0 ∧ rankBase gs gs.length = d.size ∧
      ∀ j g, gs[j]? = some g →
        1 ≤ g.words.length ∧
        rankBase gs (j + 1) = rankBase gs j + g.words.length ∧
        g.ranks = (if g.words.length > 1
          then toString (rankBase gs j + 1) ++ "-" ++
            toString (rankBase gs j + g.words.length)
          else toString (rankBase gs j + 1)) := by
  have hinv := reachable_winv hd
  have hcnt : CountsOK d := counts_of_words fun v hv =>
    ⟨hpos v hv, lt_trans (hsmall v hv) (by decide)⟩
  obtain ⟨fr, gs, hb, he, hm, hr⟩ := print_spec hinv hcnt hsmall
  refine ⟨gs, he, rankBase_zero gs, print_total hinv hcnt hb hm, ?_⟩
  intro j g hj
  refine ⟨?_, rankBase_next hj, ?_⟩
  · have hg : g ∈ gs := List.getElem?_mem hj
    have hmem : (g.freq, g.words) ∈ gs.map (fun g => (g.freq, g.words)) :=
      List.mem_map.mpr ⟨g, hg, rfl⟩
    rw [hm] at hmem
    obtain ⟨i, hi, hig⟩ := List.mem_map.mp hmem
    have hne : fr.getD i [] ≠ [] := by
      have := (List.mem_filter.mp hi).2
      simpa using this
    have h2 : fr.getD i [] = g.words := congrArg Prod.snd hig
    rw [h2] at hne
    exact List.length_pos.mpr hne
  · have := (hr j g hj).1
    simp only [Nat.zero_add] at this
    exact this

/-- Witness for C20: the table holding `the` and `a` 5 times each and `quick` 3 times
gives the rank strings `1-2` and `3`, and the ranges end at `size() = 3`. -/
theorem rank_ranges_witness :
    Reachable rankTable ∧ (∀ v ∈ rankTable.words, 1 ≤ v.num) ∧
    (∀ v ∈ rankTable.words, v.num < 2 ^ 31) ∧
    rankTable.print = Run.ok
      [⟨5, "1-2", 3 / 2, ["a".toList, "the".toList], (3 / 2, 5, 15 / 2)⟩,
       ⟨3, "3", 3, ["quick".toList], (3, 3, 9)⟩] ∧
    ∃ gs, rankTable.print = Run.ok gs ∧
      rankBase gs 0 = 0 ∧ rankBase gs gs.length = rankTable.size ∧
      ∀ j g, gs[j]? = some g →
        1 ≤ g.words.length ∧
        rankBase gs (j + 1) = rankBase gs j + g.words.length ∧
        g.ranks = (if g.words.length > 1
          then toString (rankBase gs j + 1) ++ "-" ++
            toString (rankBase gs j + g.words.length)
          else toString (rankBase gs j + 1)) :=
  ⟨rankTable_reachable, by decide!, by decide!, by decide!,
    rank_ranges rankTable rankTable_reachable (by decide!) (by decide!)⟩

/-! ## What an insert leaves alone -/

theorem mem_texts_iff (d : dictionary) (s : List Char) :
    s ∈ d.words.map word.str ↔ ∃ x, d.Holds x ∧ x.str = s := by
  rw [List.mem_map]
  constructor
  · rintro ⟨x, hx, rfl⟩
    exact ⟨x, (mem_words_iff d x).mp hx, rfl⟩
  · rintro ⟨x, hx, rfl⟩
    exact ⟨x, (mem_words_iff d x).mpr hx, rfl⟩

theorem insert_frame {d d' : dictionary} {w : List Char} {n f r : ℕ} (hinv : DictInv d)
    (hw : normalized w = true) (hw0 : 0 ≤ dictionary.hash w)
    (hins : dictionary.insert f d w n = Run.ok (d', r)) :
    DictInv d' ∧ (∀ x : word, x.str ≠ w → (d'.Holds x ↔ d.Holds x)) ∧
      ∃ x, d'.Holds x ∧ x.str = w := by
  obtain ⟨hinv', _, hcase⟩ := insert_post hinv (normalized_ne_nil hw) (hash_bound hw) hw0 hins
  refine ⟨hinv', ?_⟩
  rcases hcase with ⟨p, w0, h1, h2, h3, _, h5, h6, _⟩ | ⟨_, _, h3, h4, _⟩
  · have hh := holds_found hinv.ptrs h1 h2 h5 h6
    refine ⟨fun x hx => ?_, ⟨_, (hh _).mpr (Or.inl rfl), h3⟩⟩
    rw [hh x]
    constructor
    · rintro (rfl | ⟨hx1, _⟩)
      · exact absurd h3 hx
      · exact hx1
    · intro hx1
      exact Or.inr ⟨hx1, by rw [h3]; exact hx⟩
  · have hh := holds_new hinv.ptrs h3 h4
    refine ⟨fun x hx => ?_, ⟨_, (hh _).mpr (Or.inl rfl), rfl⟩⟩
    rw [hh x]
    constructor
    · rintro (rfl | hx1)
      · exact absurd rfl hx
      · exact hx1
    · intro hx1
      exact Or.inr hx1

/-! ## Mean rank and Zipf product -/

theorem printEmit_sound (fr : List (List (List Char))) :
    ∀ (n printed : ℕ) (gs : List FreqGroup), printEmit fr n printed = Run.ok gs →
      ∀ j g, gs[j]? = some g →
        1 ≤ g.words.length ∧
        g.ranks = (if g.words.length > 1
          then toString (printed + rankBase gs j + 1) ++ "-" ++
            toString (printed + rankBase gs j + g.words.length)
          else toString (printed + rankBase gs j + 1)) ∧
        g.avg = (((printed + rankBase gs j + 1 : ℕ) : ℚ) +
          ((printed + rankBase gs j + g.words.length : ℕ) : ℚ)) / 2 ∧
        g.csv = (g.avg, g.freq, g.avg * (g.freq : ℚ)) := by
  intro n
  induction n with
  | zero =>
    intro printed gs h j g hj
    unfold printEmit at h
    obtain rfl : [] = gs := by simpa using h
    simp at hj
  | succ n ih =>
    intro printed gs h j g hj
    unfold printEmit at h
    cases hb : fr[n]? with
    | none => rw [hb] at h; simp at h
    | some b =>
      rw [hb] at h
      dsimp only at h
      by_cases hne : b = []
      · rw [if_neg (not_not.mpr hne)] at h
        exact ih printed gs h j g hj
      · rw [if_pos hne] at h
        by_cases h31 : n + 1 < 2 ^ 31
        · have hpos : 1 ≤ b.length := List.length_pos.mpr hne
          have hp1 : (if b.length > 1 then printed + b.length else printed + 1) =
              printed + b.length := by
            split
            · rfl
            · omega
          rw [if_pos h31, hp1] at h
          obtain ⟨gs1, he, hgs⟩ := Run.bind_eq_ok.mp h
          have hgs2 := Run.ok.inj hgs
          subst hgs2
          cases j with
          | zero =>
            simp only [List.getElem?_cons_zero, Option.some.injEq] at hj
            subst hj
            simp only [rankBase_zero, Nat.add_zero]
            refine ⟨hpos, trivial, ?_, trivial⟩
            push_cast
            ring
          | succ j =>
            simp only [List.getElem?_cons_succ] at hj
            rw [rankBase_succ]
            have := ih (printed + b.length) gs1 he j g hj
            simp only [Nat.add_assoc] at this ⊢
            exact this
        · rw [if_neg h31] at h
          simp at h

/-- Claim C21: mean rank and Zipf product.  For every dictionary and every list of
groups that `print` emits, the group `g_j` with rank range `[first, last]`, where
`first = p_j + 1`, `last = p_j + b_j`, `p_j` the number of words in the groups before
it and `b_j ≥ 1` its own number of words (the range C20 describes, written into the
rank string), and with occurrence count `c = g_j.freq`: the reported mean rank is
`(first + last) / 2` exactly, and the CSV row is `(meanRank, c, meanRank * c)`. -/
theorem mean_rank_product (d : dictionary) (gs : List FreqGroup)
    (h : d.print = Run.ok gs) (j : ℕ) (g : FreqGroup) (hj : gs[j]? = some g) :
    1 ≤ g.words.length ∧
    g.ranks = (if g.words.length > 1
      then toString (rankBase gs j + 1) ++ "-" ++ toString (rankBase gs j + g.words.length)
      else toString (rankBase gs j + 1)) ∧
    g.avg = (((rankBase gs j + 1 : ℕ) : ℚ) + ((rankBase gs j + g.words.length : ℕ) : ℚ)) / 2 ∧
    g.csv = (g.avg, g.freq, g.avg * (g.freq : ℚ)) := by
  unfold dictionary.print at h
  obtain ⟨fr, _, he⟩ := Run.bind_eq_ok.mp h
  have := printEmit_sound fr _ 0 gs he j g hj
  simp only [Nat.zero_add] at this
  exact this

/-- Witness for C21: the counts the:5, a:5, quick:3 give the group of count 5 with
range 1-2, mean 3/2 and product 15/2, and the group of count 3 with rank 3, mean 3
and product 9. -/
theorem mean_rank_product_witness :
    rankTable.print = Run.ok
      [⟨5, "1-2", 3 / 2, ["a".toList, "the".toList], (3 / 2, 5, 15 / 2)⟩,
       ⟨3, "3", 3, ["quick".toList], (3, 3, 9)⟩] ∧
    (3 / 2 : ℚ) = (((0 + 1 : ℕ) : ℚ) + ((0 + 2 : ℕ) : ℚ)) / 2 ∧
    (3 : ℚ) = (((2 + 1 : ℕ) : ℚ) + ((2 + 1 : ℕ) : ℚ)) / 2 :=
  have h : rankTable.print = Run.ok
      [⟨5, "1-2", 3 / 2, ["a".toList, "the".toList], (3 / 2, 5, 15 / 2)⟩,
       ⟨3, "3", 3, ["quick".toList], (3, 3, 9)⟩] := by decide!
  ⟨h, (mean_rank_product rankTable _ h 0 _ rfl).2.2.1,
    (mean_rank_product rankTable _ h 1 _ rfl).2.2.1⟩

/-! ## The empty dictionary -/

theorem ctor_ptrs (c : ℕ) : (dictionary.ctor c).ptrs = [] := by
  simp [dictionary.ptrs, dictionary.ctor, List.filterMap_replicate]

theorem find_ctor_zero {w : List Char} : (dictionary.ctor 0).find w = Run.ok 0 := by
  by_cases hw : w = []
  · simp [dictionary.find, hw]
  · simp [dictionary.find, hw, dictionary.locate, dictionary.index, slotIndex, dictionary.ctor,
      dictionary.scanHash, dictionary.scanStr, dictionary.slot, Run.bind]

theorem print_ctor (c : ℕ) : (dictionary.ctor c).print = Run.ok [] := by
  have hlive : ∀ p ∈ (dictionary.ctor c).ptrs, ∃ w,
      (dictionary.ctor c).store[p]? = some (some w) ∧ 1 ≤ w.num ∧ w.num < SIZE_MOD := by
    intro p hp
    rw [ctor_ptrs] at hp
    simp at hp
  obtain ⟨fr, he, hb⟩ := printFill_spec (dictionary.ctor c) hlive c 0 [] []
    (by simp [dictionary.ctor]) buckets_nil
  have hws : (((List.drop 0 (dictionary.ctor c).list).take c).filterMap id).filterMap
      (fun p => (dictionary.ctor c).store.getD p none) = [] := by
    simp [dictionary.ctor, List.take_replicate, List.filterMap_replicate]
  rw [hws] at hb
  have hlen : fr.length ≤ 0 := hb.2.2 0 (by simp)
  have hfr : fr = [] := List.length_eq_zero.mp (Nat.le_zero.mp hlen)
  subst hfr
  unfold dictionary.print
  have hcap : (dictionary.ctor c).capacity = c := rfl
  rw [hcap, List.range_eq_range', he, Run.bind_ok]
  rfl

/-- Claim C22: empty input.  A freshly constructed dictionary of any capacity `c ≥ 0`
has `size() = 0`, `find(w) = 0` for the empty string and for every normalized word `w`,
and `print` emits no frequency group (hence no CSV data row). -/
theorem empty_dictionary (c : ℕ) :
    (dictionary.ctor c).size = 0 ∧
    (dictionary.ctor c).find [] = Run.ok 0 ∧
    (∀ w, normalized w = true → (dictionary.ctor c).find w = Run.ok 0) ∧
    (dictionary.ctor c).print = Run.ok [] := by
  refine ⟨rfl, by simp [dictionary.find], ?_, print_ctor c⟩
  intro w hw
  rcases Nat.eq_zero_or_pos c with h0 | hpos
  · subst h0
    exact find_ctor_zero
  · rcases find_totalW (winv_ctor hpos) (normalized_ne_nil hw) (hash_bound hw) with
      g | ⟨v, hv, _⟩
    · exact g
    · exact absurd hv (ctor_holds_none c v)

/-- Witness for C22: capacity 0 and the word `the`, capacity 7 and the word `fox`. -/
theorem empty_dictionary_witness :
    (dictionary.ctor 0).find "the".toList = Run.ok 0 ∧
    (dictionary.ctor 7).find "fox".toList = Run.ok 0 ∧
    (dictionary.ctor 0).print = Run.ok [] ∧ (dictionary.ctor 7).print = Run.ok [] :=
  ⟨(empty_dictionary 0).2.2.1 "the".toList (by decide),
    (empty_dictionary 7).2.2.1 "fox".toList (by decide),
    (empty_dictionary 0).2.2.2, (empty_dictionary 7).2.2.2⟩

/-! ## Characters beyond the limit -/

theorem hash_eq_take {w : List Char}
    (hc : w.getD 10 (Char.ofNat 0) ≠ APOSTROPHE) :
    dictionary.hash w = dictionary.hash (w.take 11) := by
  rcases Nat.lt_or_ge 11 w.length with hl | hl
  · have htl : (w.take 11).length = 11 := by
      rw [List.length_take]; omega
    have htne : w.take 11 ≠ [] := by
      intro h; rw [h] at htl; simp at htl
    rw [hash_long hl, if_neg hc, add_zero, hash_short htne (by omega), htl]
    have hc0 : charAt (w.take 11) 0 = charAt w 0 := by
      unfold charAt; rw [getD_take_lt w (by omega)]
    rw [hc0]
    congr 1
    congr 1
    apply List.map_congr_left
    intro j hj
    rw [List.mem_range'_1] at hj
    rw [getD_take_lt w (by omega)]
  · rw [List.take_of_length_le hl]

/-- Claim C24: the hash ignores everything beyond the limit.  For any two normalized
words `u` and `v` of at least 11 characters that have the same first 11 characters and
whose 11th character is a letter, `hash(u) = hash(v)`. -/
theorem hash_ignores_tail (u v : List Char) (_hu : normalized u = true)
    (_hv : normalized v = true) (_hul : 11 ≤ u.length) (_hvl : 11 ≤ v.length)
    (hpre : u.take 11 = v.take 11) (hlet : isLetter (u.getD 10 (Char.ofNat 0)) = true) :
    dictionary.hash u = dictionary.hash v := by
  have hcu : u.getD 10 (Char.ofNat 0) ≠ APOSTROPHE := by
    intro h
    rw [h] at hlet
    exact absurd hlet (by decide)
  have hcv : v.getD 10 (Char.ofNat 0) ≠ APOSTROPHE := by
    rw [← getD_take_lt v (by omega : 10 < 11), ← hpre, getD_take_lt u (by omega : 10 < 11)]
    exact hcu
  rw [hash_eq_take hcu, hash_eq_take hcv, hpre]

/-- Witness for C24: `abcdefghijklm` and `abcdefghijkzz`. -/
theorem hash_ignores_tail_witness :
    "abcdefghijklm".toList ≠ "abcdefghijkzz".toList ∧
    dictionary.hash "abcdefghijklm".toList = dictionary.hash "abcdefghijkzz".toList :=
  ⟨by decide, hash_ignores_tail "abcdefghijklm".toList "abcdefghijkzz".toList (by decide)
    (by decide) (by decide) (by decide) (by decide) (by decide)⟩

/-! ## The probe of the code and the probe of the specification -/

/-- Claim C23 fails for the table holding `aaaaaaaaab` and the probe word
`aaaaaaaaab''x`: the table is reachable, the start index is 0, the occupant of slot 0
has a hash above the hash `h` of the probe word and a smaller text; the first loop of
the code stops at slot 0, the second loop steps over the occupant although its hash is
not `h`, and the two loops stop at slot 1, while the probe of the specification stops
at slot 0. -/
theorem probe_differs_from_spec :
    Reachable stemTable ∧ normalized "aaaaaaaaab''x".toList = true ∧
    stemTable.index (dictionary.hash "aaaaaaaaab''x".toList) = 0 ∧
    stemTable.cell 0 =
      some (some ⟨dictionary.hash "aaaaaaaaab".toList, 1, "aaaaaaaaab".toList⟩) ∧
    dictionary.hash "aaaaaaaaab''x".toList < dictionary.hash "aaaaaaaaab".toList ∧
    strLt "aaaaaaaaab".toList "aaaaaaaaab''x".toList = true ∧
    stemTable.scanHash (dictionary.hash "aaaaaaaaab''x".toList) 3 0 = Run.ok 0 ∧
    stemTable.locate (dictionary.hash "aaaaaaaaab''x".toList) "aaaaaaaaab''x".toList =
      Run.ok 1 ∧
    stemTable.specLocate (dictionary.hash "aaaaaaaaab''x".toList) "aaaaaaaaab''x".toList =
      Run.ok 0 :=
  ⟨Reachable.insert (dictionary.ctor 1) _ 1 "aaaaaaaaab".toList 1 1 0
      (Reachable.ctor 1 (by decide)) (by decide) (by decide) (by decide!) (by decide)
      (by decide!),
    by decide, by decide!, by decide!, by decide!, by decide, by decide!, by decide!,
    by decide!⟩

/-! ## The hash and the string order on words within the limit -/

theorem letterDigit_bounds {c : Char} (h : isWordChar c = true) :
    0 ≤ letterDigit c ∧ letterDigit c ≤ 26 := by
  unfold letterDigit
  simp only [isWordChar, isLetter, Bool.or_eq_true, decide_eq_true_eq] at h
  rcases h with h | h
  · split <;> omega
  · rw [if_pos h]; omega

theorem letterDigit_pos {c : Char} (h : isLetter c = true) : 1 ≤ letterDigit c := by
  unfold letterDigit
  simp only [isLetter, decide_eq_true_eq] at h
  have hne : c ≠ APOSTROPHE := by
    intro e
    rw [e] at h
    exact absurd h (by decide)
  rw [if_neg hne]
  omega

theorem char_lt_iff (a b : Char) : a < b ↔ a.toNat < b.toNat := Iff.rfl

theorem letterDigit_lt {a b : Char} (ha : isWordChar a = true) (hb : isWordChar b = true)
    (h : a < b) : letterDigit a + 1 ≤ letterDigit b := by
  rw [char_lt_iff] at h
  unfold letterDigit
  simp only [isWordChar, isLetter, Bool.or_eq_true, decide_eq_true_eq] at ha hb
  have hA : APOSTROPHE.toNat = 39 := rfl
  by_cases ea : a = APOSTROPHE
  · rw [if_pos ea]
    by_cases eb : b = APOSTROPHE
    · rw [ea, eb] at h; omega
    · rw [if_neg eb]
      rcases hb with hb | hb
      · omega
      · exact absurd hb eb
  · rw [if_neg ea]
    rcases ha with ha | ha
    · by_cases eb : b = APOSTROPHE
      · rw [eb, hA] at h; omega
      · rw [if_neg eb]; omega
    · exact absurd ha ea

theorem frac28_bounds : ∀ cs : List Char, (∀ c ∈ cs, isWordChar c = true) →
    0 ≤ frac28 cs ∧ frac28 cs * 27 ≤ 26
  | [], _ => by simp [frac28]
  | c :: cs, h => by
    obtain ⟨h0, h1⟩ := frac28_bounds cs fun x hx => h x (List.mem_cons_of_mem _ hx)
    obtain ⟨d0, d1⟩ := letterDigit_bounds (h c (List.mem_cons_self _ _))
    have e0 : (0 : ℚ) ≤ (letterDigit c : ℚ) := by exact_mod_cast d0
    have e1 : (letterDigit c : ℚ) ≤ 26 := by exact_mod_cast d1
    unfold frac28
    constructor
    · positivity
    · rw [div_mul_eq_mul_div, div_le_iff₀ (by norm_num)]
      linarith

theorem frac28_pos : ∀ cs : List Char, (∀ c ∈ cs, isWordChar c = true) → cs ≠ [] →
    (∀ c, cs.getLast? = some c → isLetter c = true) → 0 < frac28 cs
  | [], _, hne, _ => absurd rfl hne
  | [c], _, _, hl => by
    have := letterDigit_pos (hl c rfl)
    have e : (1 : ℚ) ≤ (letterDigit c : ℚ) := by exact_mod_cast this
    unfold frac28
    simp only [frac28, add_zero]
    positivity
  | c :: c2 :: cs, h, _, hl => by
    have ih := frac28_pos (c2 :: cs) (fun x hx => h x (List.mem_cons_of_mem _ hx))
      (List.cons_ne_nil _ _) (fun x hx => hl x (by rw [List.getLast?_cons_cons]; exact hx))
    obtain ⟨d0, _⟩ := letterDigit_bounds (h c (List.mem_cons_self _ _))
    have e0 : (0 : ℚ) ≤ (letterDigit c : ℚ) := by exact_mod_cast d0
    rw [frac28]
    positivity

theorem frac28_lt : ∀ cs ds : List Char, (∀ c ∈ cs, isWordChar c = true) →
    (∀ c ∈ ds, isWordChar c = true) → (∀ c, ds.getLast? = some c → isLetter c = true) →
    strLt cs ds = true → frac28 cs < frac28 ds
  | [], [], _, _, _, h => by simp [strLt] at h
  | [], d :: ds, _, hd, hl, _ => by
    have := frac28_pos (d :: ds) hd (List.cons_ne_nil _ _) hl
    simpa [frac28] using this
  | _ :: _, [], _, _, _, h => by simp [strLt] at h
  | c :: cs, d :: ds, hc, hd, hl, h => by
    have hcs := fun x hx => hc x (List.mem_cons_of_mem _ hx)
    have hds := fun x hx => hd x (List.mem_cons_of_mem _ hx)
    obtain ⟨c0, c1⟩ := frac28_bounds cs hcs
    obtain ⟨d0, _⟩ := frac28_bounds ds hds
    simp only [strLt] at h
    unfold frac28
    rw [div_lt_div_iff_of_pos_right (by norm_num)]
    by_cases hlt : c < d
    · have := letterDigit_lt (hc c (List.mem_cons_self _ _)) (hd d (List.mem_cons_self _ _)) hlt
      have e : (letterDigit c : ℚ) + 1 ≤ (letterDigit d : ℚ) := by exact_mod_cast this
      linarith
    · simp only [hlt, if_false] at h
      by_cases hgt : d < c
      · simp [hgt] at h
      · simp only [hgt, if_false] at h
        have e : c = d := le_antisymm (not_lt.mp hgt) (not_lt.mp hlt)
        subst e
        have hl2 : ∀ x, ds.getLast? = some x → isLetter x = true := by
          intro x hx
          cases ds with
          | nil => simp at hx
          | cons y ys => exact hl x (by rw [List.getLast?_cons_cons]; exact hx)
        have := frac28_lt cs ds hcs hds hl2 h
        linarith

theorem sum_eq_frac28 : ∀ (cs pre : List Char),
    ((List.range' pre.length cs.length).map fun j =>
      (letterDigit ((pre ++ cs).getD j (Char.ofNat 0)) : ℚ) / 28 ^ (j + 1)).sum =
      frac28 cs / 28 ^ pre.length
  | [], pre => by simp [frac28]
  | c :: cs, pre => by
    have ih := sum_eq_frac28 cs (pre ++ [c])
    have e1 : pre ++ [c] ++ cs = pre ++ c :: cs := by simp
    have e2 : (pre ++ [c]).length = pre.length + 1 := by simp
    rw [e1, e2] at ih
    rw [List.length_cons, List.range'_succ, List.map_cons, List.sum_cons, ih]
    have e3 : (pre ++ c :: cs).getD pre.length (Char.ofNat 0) = c := by
      rw [List.getD_append_right _ _ _ _ (le_refl _), Nat.sub_self]
      rfl
    rw [e3, frac28, div_div, ← add_div, pow_succ, mul_comm]

theorem hash_eq_frac28 (c : Char) (cs : List Char) (hlen : (c :: cs).length ≤ 11) :
    dictionary.hash (c :: cs) = (((c.toNat : ℤ) - 97 : ℤ) : ℚ) / 27 + frac28 cs / 28 := by
  rw [hash_short (List.cons_ne_nil _ _) hlen]
  have h0 : charAt (c :: cs) 0 = (c.toNat : ℤ) := rfl
  rw [h0]
  congr 1
  have hs := sum_eq_frac28 cs [c]
  simp only [List.length_singleton, pow_one, List.singleton_append] at hs
  rw [← hs]
  simp only [List.length_cons, Nat.add_sub_cancel]
  congr 1
  apply List.map_congr_left
  intro j hj
  rw [List.mem_range'_1] at hj
  simp only [List.length_cons] at hlen
  rw [POW28_eq j (by omega)]

theorem normalized_parts {c : Char} {cs : List Char} (h : normalized (c :: cs) = true) :
    isLetter c = true ∧ (∀ x ∈ c :: cs, isWordChar x = true) ∧
      (∀ x, (c :: cs).getLast? = some x → isLetter x = true) := by
  unfold normalized at h
  simp only [Bool.and_eq_true, List.all_eq_true, List.head?_cons] at h
  obtain ⟨⟨h1, h2⟩, h3⟩ := h
  refine ⟨h2, h1, fun x hx => ?_⟩
  rw [hx] at h3
  exact h3

/-- The hash of a normalized word of at most 11 characters is not negative. -/
theorem hash_nonneg {u : List Char} (hu : normalized u = true) (hul : u.length ≤ 11) :
    0 ≤ dictionary.hash u := by
  cases u with
  | nil => exact absurd rfl (normalized_ne_nil hu)
  | cons a us =>
    obtain ⟨ha, hau, _⟩ := normalized_parts hu
    obtain ⟨u0, _⟩ := frac28_bounds us fun x hx => hau x (List.mem_cons_of_mem _ hx)
    rw [hash_eq_frac28 a us hul]
    have e : (0 : ℚ) ≤ (((a.toNat : ℤ) - 97 : ℤ) : ℚ) := by
      have : (0 : ℤ) ≤ (a.toNat : ℤ) - 97 := by
        simp only [isLetter, decide_eq_true_eq] at ha
        omega
      exact_mod_cast this
    positivity

theorem hash_lt_of_strLt {u v : List Char} (hu : normalized u = true)
    (hv : normalized v = true) (hul : u.length ≤ 11) (hvl : v.length ≤ 11)
    (h : strLt u v = true) : dictionary.hash u < dictionary.hash v := by
  cases u with
  | nil => exact absurd rfl (normalized_ne_nil hu)
  | cons a us =>
    cases v with
    | nil => exact absurd rfl (normalized_ne_nil hv)
    | cons b vs =>
      obtain ⟨ha, hau, _⟩ := normalized_parts hu
      obtain ⟨hb, hbv, hlv⟩ := normalized_parts hv
      have hus := fun x hx => hau x (List.mem_cons_of_mem _ hx)
      have hvs := fun x hx => hbv x (List.mem_cons_of_mem _ hx)
      obtain ⟨u0, u1⟩ := frac28_bounds us hus
      obtain ⟨v0, _⟩ := frac28_bounds vs hvs
      rw [hash_eq_frac28 a us hul, hash_eq_frac28 b vs hvl]
      simp only [strLt] at h
      by_cases hlt : a < b
      · rw [char_lt_iff] at hlt
        have e : ((((a.toNat : ℤ) - 97 : ℤ) : ℚ)) + 1 ≤ (((b.toNat : ℤ) - 97 : ℤ) : ℚ) := by
          have : ((a.toNat : ℤ) - 97) + 1 ≤ (b.toNat : ℤ) - 97 := by omega
          exact_mod_cast this
        have e2 : frac28 us / 28 < 1 / 27 := by
          rw [div_lt_div_iff₀ (by norm_num) (by norm_num)]
          linarith
        have e3 : 0 ≤ frac28 vs / 28 := by positivity
        have e4 : (((a.toNat : ℤ) - 97 : ℤ) : ℚ) / 27 + 1 / 27 ≤
            (((b.toNat : ℤ) - 97 : ℤ) : ℚ) / 27 := by
          rw [← add_div]
          exact div_le_div_of_nonneg_right e (by norm_num)
        linarith
      · simp only [hlt, if_false] at h
        by_cases hgt : b < a
        · simp [hgt] at h
        · simp only [hgt, if_false] at h
          have e : a = b := le_antisymm (not_lt.mp hgt) (not_lt.mp hlt)
          subst e
          have hl2 : ∀ x, vs.getLast? = some x → isLetter x = true := by
            intro x hx
            cases vs with
            | nil => simp at hx
            | cons y ys => exact hlv x (by rw [List.getLast?_cons_cons]; exact hx)
          have := frac28_lt us vs hus hvs hl2 h
          have e5 : frac28 us / 28 < frac28 vs / 28 :=
            (div_lt_div_iff_of_pos_right (by norm_num)).mpr this
          linarith

/-- Claim C25: the hash is order-preserving, hence collision-free, on words within the
limit.  For all normalized words `u` and `v` of at most 11 characters, `u < v` under
the `operator <` of `dictionary.cpp` if and only if `hash(u) < hash(v)`, and
`hash(u) = hash(v)` only if `u = v`. -/
theorem hash_order_preserving (u v : List Char) (hu : normalized u = true)
    (hv : normalized v = true) (hul : u.length ≤ 11) (hvl : v.length ≤ 11) :
    (strLt u v = true ↔ dictionary.hash u < dictionary.hash v) ∧
    (dictionary.hash u = dictionary.hash v → u = v) := by
  have key : dictionary.hash u ≤ dictionary.hash v → strLt v u = false := by
    intro hle
    by_contra hc
    have := hash_lt_of_strLt hv hu hvl hul (by simpa using hc)
    linarith
  constructor
  · constructor
    · exact hash_lt_of_strLt hu hv hul hvl
    · intro hlt
      have hne : v ≠ u := by
        intro e
        rw [e] at hlt
        exact lt_irrefl _ hlt
      exact strLt_total (key (le_of_lt hlt)) hne
  · intro heq
    by_contra hne
    have h1 := key (le_of_eq heq)
    have h2 := strLt_total h1 (fun e => hne e.symm)
    have := hash_lt_of_strLt hu hv hul hvl h2
    linarith

/-- Witness for C25: `fox` and `fox's`, and `fox's` and `foxes`. -/
theorem hash_order_preserving_witness :
    (strLt "fox".toList "fox's".toList = true ∧
      dictionary.hash "fox".toList < dictionary.hash "fox's".toList) ∧
    (strLt "fox's".toList "foxes".toList = true ∧
      dictionary.hash "fox's".toList < dictionary.hash "foxes".toList) :=
  ⟨⟨by decide, (hash_order_preserving "fox".toList "fox's".toList (by decide) (by decide)
      (by decide) (by decide)).1.mp (by decide)⟩,
   ⟨by decide, (hash_order_preserving "fox's".toList "foxes".toList (by decide) (by decide)
      (by decide) (by decide)).1.mp (by decide)⟩⟩

/-! ## The invariant of insert-only runs -/

theorem insertAll_inv (ops : List (List Char × ℕ)) :
    ∀ d : dictionary, DictInv d →
      (∀ op ∈ ops, normalized op.1 = true ∧ 0 ≤ dictionary.hash op.1) →
      ∀ f d', dictionary.insertAll f d ops = Run.ok d' →
        DictInv d' ∧ ∀ x, d'.Holds x → d.Holds x ∨ ∃ op ∈ ops, op.1 = x.str := by
  induction ops with
  | nil =>
    intro d hinv _ f d' h
    simp only [dictionary.insertAll] at h
    obtain rfl : d = d' := by simpa using h
    exact ⟨hinv, fun x hx => Or.inl hx⟩
  | cons op rest ih =>
    intro d hinv hops f d' h
    simp only [dictionary.insertAll] at h
    obtain ⟨a, ha, hb⟩ := Run.bind_eq_ok.mp h
    obtain ⟨hn, hn0⟩ := hops op (List.mem_cons_self _ _)
    obtain ⟨hinv1, hframe, _⟩ := @insert_frame d a.1 op.1 op.2 f a.2 hinv hn hn0 ha
    obtain ⟨hinv', hh⟩ := ih a.1 hinv1 (fun o ho => hops o (List.mem_cons_of_mem _ ho)) f d' hb
    refine ⟨hinv', fun x hx => ?_⟩
    rcases hh x hx with h1 | ⟨o, ho, hoe⟩
    · by_cases hxs : x.str = op.1
      · exact Or.inr ⟨op, List.mem_cons_self _ _, hxs.symm⟩
      · exact Or.inl ((hframe x hxs).mp h1)
    · exact Or.inr ⟨o, List.mem_cons_of_mem _ ho, hoe⟩

theorem insertAll_total (ops : List (List Char × ℕ)) :
    ∀ d : dictionary, DictInv d →
      (∀ op ∈ ops, normalized op.1 = true ∧ 0 ≤ dictionary.hash op.1) →
      ∀ f, 26 * (d.size + ops.length + 1) + 1 ≤ f →
        ∃ d', dictionary.insertAll f d ops = Run.ok d' := by
  induction ops with
  | nil =>
    intro d _ _ f _
    exact ⟨d, rfl⟩
  | cons op rest ih =>
    intro d hinv hops f hf
    obtain ⟨hn, hn0⟩ := hops op (List.mem_cons_self _ _)
    simp only [List.length_cons] at hf
    obtain ⟨d1, r1, e1, hpost⟩ := insert_spec f d op.1 op.2 hinv (normalized_ne_nil hn)
      (hash_bound hn) hn0 (by omega) (by omega)
    have hsz : d1.size ≤ d.size + 1 := by
      rcases hpost.2.2 with ⟨_, _, _, _, _, _, _, _, h7⟩ | ⟨_, _, _, _, h5⟩ <;> omega
    obtain ⟨d2, e2⟩ := ih d1 hpost.1 (fun o ho => hops o (List.mem_cons_of_mem _ ho)) f
      (by omega)
    refine ⟨d2, ?_⟩
    simp only [dictionary.insertAll]
    rw [e1, Run.bind_ok]
    exact e2

theorem filterMap_id_length (l : List (Option ℕ)) :
    (l.filterMap id).length = l.countP fun s => s.isSome := by
  induction l with
  | nil => rfl
  | cons x l ih =>
    cases x with
    | none => simpa using ih
    | some p => simp [ih]

/-- Claim C27: the probe-reachability invariant.  For every dictionary constructed with
capacity at least 1 and every sequence of insert calls on normalized words (any counts,
resizes included), the run returns for a sufficient recursion budget, and in every
table it returns: a non-null slot points to a live record; every record `r` stored at
slot `j` satisfies `floor(hash(r) x capacity) ≤ j < capacity`, every slot from
`floor(hash(r) x capacity)` to `j` is occupied, and the hash stored in `r` is
`hash(r.text)`; and `size` is the number of occupied slots among the indices
`0..capacity-1`. -/
theorem probe_reachability (cap : ℕ) (hcap : 1 ≤ cap) (ops : List (List Char × ℕ))
    (hops : ∀ op ∈ ops, normalized op.1 = true) :
    (∃ f d, dictionary.insertAll f (dictionary.ctor cap) ops = Run.ok d) ∧
    ∀ f d, dictionary.insertAll f (dictionary.ctor cap) ops = Run.ok d →
      (∀ j p : ℕ, d.list[j]? = some (some p) → ∃ r, d.store[p]? = some (some r)) ∧
      (∀ (j p : ℕ) (r : word), d.list[j]? = some (some p) → d.store[p]? = some (some r) →
        d.index r.hash ≤ j ∧ j < d.capacity ∧
        (∀ k, d.index r.hash ≤ k → k ≤ j → ∃ q, d.list[k]? = some (some q)) ∧
        r.hash = dictionary.hash r.str) ∧
      d.size = (d.list.take d.capacity).countP fun s => s.isSome := by
  have hinv0 := winv_ctor hcap
  constructor
  · obtain ⟨d, hd⟩ := insertAll_totalW ops _ hinv0 hops _ (le_refl _)
    exact ⟨_, d, hd⟩
  · intro f d hd
    have hinv := insertAll_invW ops _ hinv0 hops f d hd
    refine ⟨?_, ?_, ?_⟩
    · intro j p hj
      obtain ⟨r, hr, _⟩ := hinv.ptrs.2 p ((mem_ptrs_iff d p).mpr ⟨j, hj⟩)
      exact ⟨r, hr⟩
    · intro j p r hj hr
      have hcell : d.cell j = some (some r) := (cell_some_iff d j r).mpr ⟨p, hj, hr⟩
      obtain ⟨c1, c2⟩ := hinv.table.contig j r hcell
      have hjl : j < d.list.length := cell_lt_length hcell
      have hjc : j ≠ d.capacity := by
        intro e
        rw [e, hinv.table.sentinel] at hj
        simp at hj
      obtain ⟨r', hr', hok⟩ := hinv.ptrs.2 p ((mem_ptrs_iff d p).mpr ⟨j, hj⟩)
      rw [hr] at hr'
      obtain rfl : r = r' := by simpa using hr'
      refine ⟨c1, ?_, ?_, hok.1⟩
      · rw [hinv.table.len] at hjl
        omega
      · intro k hk1 hk2
        unfold dictionary.index at hk1
        rcases Nat.lt_or_ge k j with h2 | h2
        · obtain ⟨w, hw⟩ := c2 k hk1 h2
          obtain ⟨q, hq, _⟩ := (cell_some_iff d k w).mp hw
          exact ⟨q, hq⟩
        · obtain rfl : k = j := by omega
          exact ⟨p, hj⟩
    · rw [← filterMap_id_length, ptrs_take hinv.table.len hinv.table.sentinel]
      exact hinv.size_eq

/-- Witness for C27: the six tokens of the end-to-end scenario on a dictionary of
capacity 1. -/
theorem probe_reachability_witness :
    (∃ f d, dictionary.insertAll f (dictionary.ctor 1) demoTokens = Run.ok d) ∧
    ∀ f d, dictionary.insertAll f (dictionary.ctor 1) demoTokens = Run.ok d →
      (∀ j p : ℕ, d.list[j]? = some (some p) → ∃ r, d.store[p]? = some (some r)) ∧
      (∀ (j p : ℕ) (r : word), d.list[j]? = some (some p) → d.store[p]? = some (some r) →
        d.index r.hash ≤ j ∧ j < d.capacity ∧
        (∀ k, d.index r.hash ≤ k → k ≤ j → ∃ q, d.list[k]? = some (some q)) ∧
        r.hash = dictionary.hash r.str) ∧
      d.size = (d.list.take d.capacity).countP fun s => s.isSome :=
  probe_reachability 1 (by decide) demoTokens (by decide)

/-! ## The whole table is sorted -/

theorem strLt_iff_hash_lt {u v : List Char} (hu : normalized u = true)
    (hv : normalized v = true) (hul : u.length ≤ 11) (hvl : v.length ≤ 11) :
    strLt u v = true ↔ dictionary.hash u < dictionary.hash v := by
  constructor
  · exact hash_lt_of_strLt hu hv hul hvl
  · intro hlt
    have hne : v ≠ u := by
      intro e
      rw [e] at hlt
      exact lt_irrefl _ hlt
    apply strLt_total _ hne
    by_contra hc
    have := hash_lt_of_strLt hv hu hvl hul (by simpa using hc)
    linarith

theorem pairwise_of_slots {R : word → word → Prop} (g : ℕ → Option word) :
    ∀ l : List (Option ℕ),
      (∀ (a b pa pb : ℕ) (wa wb : word), a < b → l[a]? = some (some pa) →
        l[b]? = some (some pb) → g pa = some wa → g pb = some wb → R wa wb) →
      ((l.filterMap id).filterMap g).Pairwise R := by
  intro l
  induction l with
  | nil => intro _; simp
  | cons x l ih =>
    intro h
    have ih' := ih fun a b pa pb wa wb hab ha hb hga hgb =>
      h (a + 1) (b + 1) pa pb wa wb (by omega) (by simpa using ha) (by simpa using hb) hga hgb
    cases x with
    | none => simpa using ih'
    | some p =>
      have e : List.filterMap id (some p :: l) = p :: List.filterMap id l := rfl
      rw [e]
      cases hg : g p with
      | none =>
        rw [List.filterMap_cons_none hg]
        exact ih'
      | some w =>
        rw [List.filterMap_cons_some hg, List.pairwise_cons]
        refine ⟨?_, ih'⟩
        intro w1 hw1
        obtain ⟨p1, hp1, hgp1⟩ := List.mem_filterMap.mp hw1
        obtain ⟨o, ho, hoe⟩ := List.mem_filterMap.mp hp1
        simp only [id] at hoe
        subst hoe
        obtain ⟨b, hb⟩ := List.mem_iff_getElem?.mp ho
        exact h 0 (b + 1) p p1 w w1 (by omega) (by simp) (by simpa using hb) hg hgp1

theorem slots_sorted {d : dictionary} (hinv : DictInv d)
    (hw : ∀ x, d.Holds x → normalized x.str = true ∧ x.str.length ≤ 11)
    {a b : ℕ} {wa wb : word} (hab : a < b) (ha : d.cell a = some (some wa))
    (hb : d.cell b = some (some wb)) :
    wa.hash < wb.hash ∧ strLt wa.str wb.str = true := by
  have hHa : d.Holds wa := (holds_iff_cell d wa).mpr ⟨a, ha⟩
  have hHb : d.Holds wb := (holds_iff_cell d wb).mpr ⟨b, hb⟩
  obtain ⟨na, la⟩ := hw wa hHa
  obtain ⟨nb, lb⟩ := hw wb hHb
  have ea : wa.hash = dictionary.hash wa.str := by
    obtain ⟨p, hp, hs⟩ := hHa
    obtain ⟨w, hw1, hok⟩ := hinv.ptrs.2.1 p hp
    rw [hs] at hw1
    obtain rfl : wa = w := by simpa using hw1
    exact hok.1
  have eb : wb.hash = dictionary.hash wb.str := by
    obtain ⟨p, hp, hs⟩ := hHb
    obtain ⟨w, hw1, hok⟩ := hinv.ptrs.2.1 p hp
    rw [hs] at hw1
    obtain rfl : wb = w := by simpa using hw1
    exact hok.1
  have hord := strLt_iff_hash_lt na nb la lb
  have key : wa.hash < wb.hash ∨ strLt wa.str wb.str = true := by
    obtain ⟨k1, s1, s2⟩ := hinv.table.sf b wb hb
    rcases Nat.lt_or_ge a (slotIndex d.capacity wb.hash) with h | h
    · left
      have := SF.index_le hinv.table.sf ha
      exact lt_of_slotIndex_lt (lt_of_le_of_lt this h)
    · rcases Nat.lt_or_ge a k1 with h1 | h1
      · left
        obtain ⟨w, hw1, hp⟩ := s1.2.1 a h h1
        rw [ha] at hw1
        obtain rfl : wa = w := by simpa using hw1
        simpa [passH] using hp
      · right
        obtain ⟨w, hw1, hp⟩ := s2.2.1 a h1 hab
        rw [ha] at hw1
        obtain rfl : wa = w := by simpa using hw1
        simpa [passS] using hp
  rw [ea, eb]
  rcases key with h | h
  · rw [ea, eb] at h
    exact ⟨h, hord.mpr h⟩
  · exact ⟨hord.mp h, h⟩

theorem words_sorted {d : dictionary} (hinv : DictInv d)
    (hw : ∀ x, d.Holds x → normalized x.str = true ∧ x.str.length ≤ 11) :
    d.words.Pairwise fun a b => a.hash < b.hash ∧ strLt a.str b.str = true := by
  unfold dictionary.words dictionary.ptrs
  apply pairwise_of_slots
  intro a b pa pb wa wb hab ha hb hga hgb
  have live : ∀ (p : ℕ) (w : word), d.store.getD p none = some w →
      d.store[p]? = some (some w) := by
    intro p w h
    rw [List.getD_eq_getElem?_getD] at h
    cases hs : d.store[p]? with
    | none => rw [hs] at h; simp at h
    | some o => rw [hs] at h; simp only [Option.getD_some] at h; rw [h]
  exact slots_sorted hinv hw hab ((cell_some_iff d a wa).mpr ⟨pa, ha, live pa wa hga⟩)
    ((cell_some_iff d b wb).mpr ⟨pb, hb, live pb wb hgb⟩)

theorem printFill_sub (d : dictionary) :
    ∀ (n s : ℕ) (fr : List (List (List Char))) (done : List word)
      (fr' : List (List (List Char))),
      d.printFill (List.range' s n) fr = Run.ok fr' →
      (∀ k, ∃ l : List word, l.Sublist done ∧ fr.getD k [] = l.map word.str) →
      ∀ k, ∃ l : List word,
        l.Sublist (done ++ (((d.list.drop s).take n).filterMap id).filterMap
          fun p => d.store.getD p none) ∧ fr'.getD k [] = l.map word.str := by
  intro n
  induction n with
  | zero =>
    intro s fr done fr' h hb
    simp only [List.range'_zero, dictionary.printFill] at h
    obtain rfl : fr = fr' := by simpa using h
    simpa using hb
  | succ n ih =>
    intro s fr done fr' h hb
    rw [List.range'_succ] at h
    unfold dictionary.printFill at h
    obtain ⟨sl, hsl, h2⟩ := Run.bind_eq_ok.mp h
    have hlist : d.list[s]? = some sl := by
      unfold dictionary.slot at hsl
      cases hl : d.list[s]? with
      | none => rw [hl] at hsl; simp at hsl
      | some o => rw [hl] at hsl; simp only [Run.ok.injEq] at hsl; rw [hsl]
    have hlt : s < d.list.length := by
      by_contra hc
      rw [List.getElem?_eq_none (by omega)] at hlist
      simp at hlist
    have hdrop : d.list.drop s = sl :: d.list.drop (s + 1) := by
      rw [List.drop_eq_getElem_cons hlt]
      congr 1
      rw [List.getElem?_eq_getElem hlt] at hlist
      simpa using hlist
    rw [hdrop, List.take_succ_cons]
    cases sl with
    | none =>
      dsimp only at h2
      simp only [List.filterMap_cons_none, id]
      exact ih (s + 1) fr done fr' h2 hb
    | some p =>
      dsimp only at h2
      obtain ⟨w, hw, h3⟩ := Run.bind_eq_ok.mp h2
      have hst := deref_ok_live hw
      have hgd : d.store.getD p none = some w := by
        rw [List.getD_eq_getElem?_getD, hst]; rfl
      have e1 : List.filterMap id (some p :: List.take n (List.drop (s + 1) d.list)) =
          p :: List.filterMap id (List.take n (List.drop (s + 1) d.list)) := rfl
      have e2 : List.filterMap (fun p => d.store.getD p none)
          (p :: List.filterMap id (List.take n (List.drop (s + 1) d.list))) =
          w :: List.filterMap (fun p => d.store.getD p none)
            (List.filterMap id (List.take n (List.drop (s + 1) d.list))) := by
        simp only [List.filterMap_cons, hgd]
      rw [e1, e2]
      generalize hfr1 : (if w.num > fr.length
        then fr ++ List.replicate (w.num - fr.length) [] else fr) = fr1 at h3
      have hget : ∀ j, fr1.getD j [] = fr.getD j [] := by
        intro j
        rw [← hfr1]
        split
        · exact getD_append_replicate_nil _ _ _
        · rfl
      by_cases hk : (w.num + SIZE_MOD - 1) % SIZE_MOD < fr1.length
      · rw [if_pos hk] at h3
        have hb' : ∀ k, ∃ l : List word, l.Sublist (done ++ [w]) ∧
            (fr1.set ((w.num + SIZE_MOD - 1) % SIZE_MOD)
              (fr1.getD ((w.num + SIZE_MOD - 1) % SIZE_MOD) [] ++ [w.str])).getD k [] =
              l.map word.str := by
          intro k
          obtain ⟨l, hl, hle⟩ := hb k
          simp only [List.getD_eq_getElem?_getD, List.getElem?_set]
          by_cases hkk : (w.num + SIZE_MOD - 1) % SIZE_MOD = k
          · rw [if_pos hkk, if_pos hk]
            refine ⟨l ++ [w], List.Sublist.append hl (List.Sublist.refl _), ?_⟩
            have := hget k
            simp only [List.getD_eq_getElem?_getD] at this hle
            rw [hkk, Option.getD_some, this, hle, List.map_append]
            rfl
          · rw [if_neg hkk]
            refine ⟨l, hl.trans (List.sublist_append_left _ _), ?_⟩
            have := hget k
            simp only [List.getD_eq_getElem?_getD] at this hle
            rw [this, hle]
        have := ih (s + 1) _ (done ++ [w]) fr' h3 hb'
        simpa [List.append_assoc] using this
      · rw [if_neg hk] at h3
        simp at h3

theorem printEmit_words (fr : List (List (List Char))) :
    ∀ (n printed : ℕ) (gs : List FreqGroup), printEmit fr n printed = Run.ok gs →
      ∀ g ∈ gs, ∃ i, fr.getD i [] = g.words := by
  intro n
  induction n with
  | zero =>
    intro printed gs h g hg
    unfold printEmit at h
    obtain rfl : [] = gs := by simpa using h
    simp at hg
  | succ n ih =>
    intro printed gs h g hg
    unfold printEmit at h
    cases hb : fr[n]? with
    | none => rw [hb] at h; simp at h
    | some b =>
      rw [hb] at h
      dsimp only at h
      by_cases hne : b = []
      · rw [if_neg (not_not.mpr hne)] at h
        exact ih printed gs h g hg
      · rw [if_pos hne] at h
        by_cases h31 : n + 1 < 2 ^ 31
        · rw [if_pos h31] at h
          obtain ⟨gs1, he, hgs⟩ := Run.bind_eq_ok.mp h
          have hgs2 := Run.ok.inj hgs
          subst hgs2
          rcases List.mem_cons.mp hg with rfl | hg1
          · refine ⟨n, ?_⟩
            rw [List.getD_eq_getElem?_getD, hb]
            rfl
          · exact ih _ gs1 he g hg1
        · rw [if_neg h31] at h
          simp at h

theorem insertAll_texts (ops : List (List Char × ℕ)) :
    ∀ d : dictionary, DictInv d →
      (∀ op ∈ ops, normalized op.1 = true ∧ 0 ≤ dictionary.hash op.1) →
      ∀ f d', dictionary.insertAll f d ops = Run.ok d' →
        ∀ s, (∃ x, d'.Holds x ∧ x.str = s) ↔
          ((∃ x, d.Holds x ∧ x.str = s) ∨ ∃ op ∈ ops, op.1 = s) := by
  induction ops with
  | nil =>
    intro d _ _ f d' h s
    simp only [dictionary.insertAll] at h
    obtain rfl : d = d' := by simpa using h
    simp
  | cons op rest ih =>
    intro d hinv hops f d' h s
    simp only [dictionary.insertAll] at h
    obtain ⟨a, ha, hb⟩ := Run.bind_eq_ok.mp h
    obtain ⟨hn, hn0⟩ := hops op (List.mem_cons_self _ _)
    obtain ⟨hinv1, hframe, x0, hx0, hx0s⟩ :=
      @insert_frame d a.1 op.1 op.2 f a.2 hinv hn hn0 ha
    rw [ih a.1 hinv1 (fun o ho => hops o (List.mem_cons_of_mem _ ho)) f d' hb s]
    constructor
    · rintro (⟨x, hx, rfl⟩ | ⟨o, ho, hoe⟩)
      · by_cases hxs : x.str = op.1
        · exact Or.inr ⟨op, List.mem_cons_self _ _, hxs.symm⟩
        · exact Or.inl ⟨x, (hframe x hxs).mp hx, rfl⟩
      · exact Or.inr ⟨o, List.mem_cons_of_mem _ ho, hoe⟩
    · rintro (⟨x, hx, rfl⟩ | ⟨o, ho, hoe⟩)
      · by_cases hxs : x.str = op.1
        · exact Or.inl ⟨x0, hx0, by rw [hx0s, hxs]⟩
        · exact Or.inl ⟨x, (hframe x hxs).mpr hx, rfl⟩
      · rcases List.mem_cons.mp ho with rfl | ho1
        · exact Or.inl ⟨x0, hx0, by rw [hx0s, hoe]⟩
        · exact Or.inr ⟨o, ho1, hoe⟩

theorem sorted_texts_unique {l1 l2 : List (List Char)}
    (h1 : l1.Pairwise fun a b => strLt a b = true)
    (h2 : l2.Pairwise fun a b => strLt a b = true) (hm : ∀ s, s ∈ l1 ↔ s ∈ l2) : l1 = l2 := by
  have irr : ∀ a : List Char, ¬ strLt a a = true := fun a h => by
    rw [strLt_irrefl] at h
    exact absurd h (by decide)
  have ne : ∀ a b : List Char, strLt a b = true → a ≠ b := by
    intro a b hab e
    rw [e] at hab
    exact irr b hab
  have n1 : l1.Nodup := by
    unfold List.Nodup
    exact h1.imp fun {a b} hab => ne a b hab
  have n2 : l2.Nodup := by
    unfold List.Nodup
    exact h2.imp fun {a b} hab => ne a b hab
  have hp : l1.Perm l2 := (List.perm_ext_iff_of_nodup n1 n2).mpr hm
  haveI : IsAntisymm (List Char) (fun a b => strLt a b = true) :=
    ⟨fun a b hab hba => absurd (strLt_trans hab hba) (irr a)⟩
  exact List.eq_of_perm_of_sorted hp h1 h2

/-- Claim C26: the whole table is sorted.  For every dictionary constructed with
capacity at least 1 and every sequence of insert calls on normalized words of at most
11 characters (any counts, resizes included): the run returns for a sufficient
recursion budget; in every table it returns, the stored records read in increasing slot
order (`d.words`) have strictly increasing hash and strictly increasing text; every
group that `print` emits lists its words in strictly increasing (alphabetical) order;
and the texts in slot order are the same for any other order of the calls and any
other initial capacity. -/
theorem table_sorted (cap : ℕ) (hcap : 1 ≤ cap) (ops : List (List Char × ℕ))
    (hops : ∀ op ∈ ops, normalized op.1 = true ∧ op.1.length ≤ 11) :
    (∃ f d, dictionary.insertAll f (dictionary.ctor cap) ops = Run.ok d) ∧
    ∀ f d, dictionary.insertAll f (dictionary.ctor cap) ops = Run.ok d →
      (d.words.Pairwise fun a b => a.hash < b.hash ∧ strLt a.str b.str = true) ∧
      (∀ gs, d.print = Run.ok gs → ∀ g ∈ gs,
        g.words.Pairwise fun a b => strLt a b = true) ∧
      (∀ cap2 ops2 f2 d2, 1 ≤ cap2 → ops2.Perm ops →
        dictionary.insertAll f2 (dictionary.ctor cap2) ops2 = Run.ok d2 →
        d2.words.map word.str = d.words.map word.str) := by
  have hnorm : ∀ op ∈ ops, normalized op.1 = true ∧ 0 ≤ dictionary.hash op.1 :=
    fun op h => ⟨(hops op h).1, hash_nonneg (hops op h).1 (hops op h).2⟩
  have sorted : ∀ (c : ℕ) (o : List (List Char × ℕ)) (f : ℕ) (d : dictionary), 1 ≤ c →
      (∀ op ∈ o, normalized op.1 = true ∧ op.1.length ≤ 11) →
      dictionary.insertAll f (dictionary.ctor c) o = Run.ok d →
      DictInv d ∧ d.words.Pairwise fun a b => a.hash < b.hash ∧ strLt a.str b.str = true := by
    intro c o f d hc ho hd
    obtain ⟨hinv, hsub⟩ := insertAll_inv o _ (tableOK_ctor hc)
      (fun op h => ⟨(ho op h).1, hash_nonneg (ho op h).1 (ho op h).2⟩) f d hd
    refine ⟨hinv, words_sorted hinv fun x hx => ?_⟩
    rcases hsub x hx with ⟨p, hp, _⟩ | ⟨op, hop, he⟩
    · rw [ctor_ptrs] at hp
      simp at hp
    · rw [← he]
      exact ho op hop
  have texts : ∀ (c : ℕ) (o : List (List Char × ℕ)) (f : ℕ) (d : dictionary), 1 ≤ c →
      (∀ op ∈ o, normalized op.1 = true ∧ 0 ≤ dictionary.hash op.1) →
      dictionary.insertAll f (dictionary.ctor c) o = Run.ok d →
      ∀ s, s ∈ d.words.map word.str ↔ ∃ op ∈ o, op.1 = s := by
    intro c o f d hc ho hd s
    rw [mem_texts_iff, insertAll_texts o _ (tableOK_ctor hc) ho f d hd s]
    constructor
    · rintro (⟨x, ⟨p, hp, _⟩, _⟩ | h)
      · rw [ctor_ptrs] at hp
        simp at hp
      · exact h
    · exact Or.inr
  constructor
  · obtain ⟨d, hd⟩ := insertAll_total ops _ (tableOK_ctor hcap) hnorm _ (le_refl _)
    exact ⟨_, d, hd⟩
  · intro f d hd
    obtain ⟨hinv, hs⟩ := sorted cap ops f d hcap hops hd
    refine ⟨hs, ?_, ?_⟩
    · intro gs hp g hg
      unfold dictionary.print at hp
      obtain ⟨fr, hfill, hemit⟩ := Run.bind_eq_ok.mp hp
      obtain ⟨i, hi⟩ := printEmit_words fr _ 0 gs hemit g hg
      rw [List.range_eq_range'] at hfill
      obtain ⟨l, hl, hle⟩ := printFill_sub d d.capacity 0 [] [] fr hfill
        (fun k => ⟨[], List.Sublist.refl _, by simp⟩) i
      rw [List.drop_zero, ptrs_take hinv.table.len hinv.table.sentinel,
        List.nil_append] at hl
      rw [← hi, hle, List.pairwise_map]
      exact (hs.sublist hl).imp fun h => h.2
    · intro cap2 ops2 f2 d2 hc2 hperm hd2
      have hops2 : ∀ op ∈ ops2, normalized op.1 = true ∧ op.1.length ≤ 11 :=
        fun op h => hops op (hperm.mem_iff.mp h)
      obtain ⟨_, hs2⟩ := sorted cap2 ops2 f2 d2 hc2 hops2 hd2
      apply sorted_texts_unique
      · rw [List.pairwise_map]
        exact hs2.imp fun h => h.2
      · rw [List.pairwise_map]
        exact hs.imp fun h => h.2
      · intro s
        rw [texts cap2 ops2 f2 d2 hc2
            (fun op h => ⟨(hops2 op h).1, hash_nonneg (hops2 op h).1 (hops2 op h).2⟩) hd2 s,
          texts cap ops f d hcap hnorm hd s]
        constructor
        · rintro ⟨op, hop, he⟩
          exact ⟨op, hperm.mem_iff.mp hop, he⟩
        · rintro ⟨op, hop, he⟩
          exact ⟨op, hperm.mem_iff.mpr hop, he⟩

/-- Witness for C26: the tokens the, quick, the, fox, the, quick on a dictionary of
capacity 1. -/
theorem table_sorted_witness :
    (∃ f d, dictionary.insertAll f (dictionary.ctor 1) demoTokens = Run.ok d) ∧
    ∀ f d, dictionary.insertAll f (dictionary.ctor 1) demoTokens = Run.ok d →
      (d.words.Pairwise fun a b => a.hash < b.hash ∧ strLt a.str b.str = true) ∧
      (∀ gs, d.print = Run.ok gs → ∀ g ∈ gs,
        g.words.Pairwise fun a b => strLt a b = true) :=
  have h := table_sorted 1 (by decide) demoTokens (by decide)
  ⟨h.1, fun f d hd => ⟨(h.2 f d hd).1, (h.2 f d hd).2.1⟩⟩

/-! ## Slot accesses stay inside the array -/

theorem Safe.ok {α : Type} {a : α} {P : α → Prop} (h : P a) : Safe (Run.ok a) P :=
  ⟨fun e => (by cases e), fun b e => (by cases e; exact h)⟩

theorem Safe.ub {α : Type} {P : α → Prop} : Safe (Run.ub : Run α) P :=
  ⟨fun e => (by cases e), fun b e => (by cases e)⟩

theorem Safe.fuel {α : Type} {P : α → Prop} : Safe (Run.fuel : Run α) P :=
  ⟨fun e => (by cases e), fun b e => (by cases e)⟩

theorem Safe.bind {α β : Type} {x : Run α} {f : α → Run β} {P : α → Prop} {Q : β → Prop}
    (hx : Safe x P) (hf : ∀ a, P a → Safe (f a) Q) : Safe (x.bind f) Q := by
  cases x with
  | ok a => exact hf a (hx.2 a rfl)
  | ub => exact Safe.ub
  | fuel => exact Safe.fuel
  | oob => exact absurd rfl hx.1

theorem Safe.mono {α : Type} {x : Run α} {P Q : α → Prop} (hx : Safe x P)
    (h : ∀ a, P a → Q a) : Safe x Q :=
  ⟨hx.1, fun a e => h a (hx.2 a e)⟩

theorem safe_slot {d : dictionary} {i : ℕ} (h : i < d.list.length) :
    Safe (d.slot i) fun s => d.list[i]? = some s := by
  unfold dictionary.slot
  rw [List.getElem?_eq_getElem h]
  exact Safe.ok rfl

theorem safe_deref (d : dictionary) (p : ℕ) :
    Safe (d.deref p) fun w => d.store[p]? = some (some w) := by
  unfold dictionary.deref
  cases h : d.store[p]? with
  | none => exact Safe.ub
  | some o =>
    cases o with
    | none => exact Safe.ub
    | some w => exact Safe.ok rfl

theorem safe_scanHash (d : dictionary) (H : ℚ) (c : ℕ) (hs : d.list[c]? = some none) :
    ∀ n loc, loc ≤ c → c < loc + n → Safe (d.scanHash H n loc) fun q => loc ≤ q ∧ q ≤ c := by
  have hc : c < d.list.length := by
    by_contra hc
    rw [List.getElem?_eq_none (by omega)] at hs
    simp at hs
  intro n
  induction n with
  | zero => intro loc h1 h2; omega
  | succ n ih =>
    intro loc h1 h2
    unfold dictionary.scanHash
    refine Safe.bind (safe_slot (by omega)) fun s hsl => ?_
    cases s with
    | none => exact Safe.ok ⟨le_refl _, h1⟩
    | some p =>
      have hne : loc ≠ c := by
        intro e
        rw [e, hs] at hsl
        simp at hsl
      refine Safe.bind (safe_deref d p) fun w _ => ?_
      split
      · exact (ih (loc + 1) (by omega) (by omega)).mono fun q hq => ⟨by omega, hq.2⟩
      · exact Safe.ok ⟨le_refl _, h1⟩

theorem safe_scanStr (d : dictionary) (str : List Char) (c : ℕ)
    (hs : d.list[c]? = some none) :
    ∀ n loc, loc ≤ c → c < loc + n →
      Safe (d.scanStr str n loc) fun q => loc ≤ q ∧ q ≤ c := by
  have hc : c < d.list.length := by
    by_contra hc
    rw [List.getElem?_eq_none (by omega)] at hs
    simp at hs
  intro n
  induction n with
  | zero => intro loc h1 h2; omega
  | succ n ih =>
    intro loc h1 h2
    unfold dictionary.scanStr
    refine Safe.bind (safe_slot (by omega)) fun s hsl => ?_
    cases s with
    | none => exact Safe.ok ⟨le_refl _, h1⟩
    | some p =>
      have hne : loc ≠ c := by
        intro e
        rw [e, hs] at hsl
        simp at hsl
      refine Safe.bind (safe_deref d p) fun w _ => ?_
      split
      · exact (ih (loc + 1) (by omega) (by omega)).mono fun q hq => ⟨by omega, hq.2⟩
      · exact Safe.ok ⟨le_refl _, h1⟩

theorem safe_locate {d : dictionary} (hb : Bounded d) {H : ℚ} (hH : H * 26 < 25)
    (str : List Char) : Safe (d.locate H str) fun q => q ≤ d.capacity := by
  obtain ⟨h1, h2, h3, _⟩ := hb
  have hidx : d.index H < d.capacity := by
    have := slotIndex_bound (by omega : 0 < d.capacity) hH
    unfold dictionary.index
    omega
  unfold dictionary.locate
  refine Safe.bind (safe_scanHash d H d.capacity h3 _ _ (by omega) (by omega)) fun l1 hl1 => ?_
  exact (safe_scanStr d str d.capacity h3 _ _ hl1.2 (by omega)).mono fun q hq => hq.2

theorem sentinel_lt {l : List (Option ℕ)} {c : ℕ} (hs : l[c]? = some none) : c < l.length := by
  by_contra hc
  rw [List.getElem?_eq_none (by omega)] at hs
  simp at hs

theorem safe_shift (c : ℕ) : ∀ (n : ℕ) (d : dictionary) (loc temp : ℕ),
    d.list[c]? = some none → loc ≤ c → c < loc + n →
    Safe (dictionary.shift n d loc temp) fun r =>
      r.2.1 ≤ c ∧ r.1.list.length = d.list.length ∧ r.1.list[c]? = some none ∧
        r.1.capacity = d.capacity ∧ r.1.store = d.store := by
  intro n
  induction n with
  | zero => intro d loc temp _ h1 h2; omega
  | succ n ih =>
    intro d loc temp hs h1 h2
    have hc := sentinel_lt hs
    unfold dictionary.shift
    refine Safe.bind (safe_slot (by omega)) fun s hsl => ?_
    cases s with
    | none => exact Safe.ok ⟨h1, rfl, hs, rfl, rfl⟩
    | some p =>
      have hne : loc ≠ c := by
        intro e
        rw [e, hs] at hsl
        simp at hsl
      have hs' : (d.setSlot loc (some temp)).list[c]? = some none := by
        unfold dictionary.setSlot
        rw [List.getElem?_set_ne hne]
        exact hs
      refine (ih (d.setSlot loc (some temp)) (loc + 1) p hs' (by omega) (by omega)).mono
        fun r hr => ?_
      obtain ⟨r1, r2, r3, r4, r5⟩ := hr
      refine ⟨r1, ?_, r3, r4, r5⟩
      rw [r2]
      simp [dictionary.setSlot]

theorem safe_compact (c : ℕ) : ∀ (n : ℕ) (d : dictionary) (loc : ℕ),
    d.list[c]? = some none → loc < c → c < loc + n →
    Safe (dictionary.compact n d loc) fun r =>
      r.2 < c ∧ r.1.list.length = d.list.length ∧ r.1.list[c]? = some none ∧
        r.1.capacity = d.capacity ∧ r.1.store = d.store := by
  intro n
  induction n with
  | zero => intro d loc _ h1 h2; omega
  | succ n ih =>
    intro d loc hs h1 h2
    have hc := sentinel_lt hs
    unfold dictionary.compact
    refine Safe.bind (safe_slot (by omega)) fun s hsl => ?_
    cases s with
    | none => exact Safe.ok ⟨h1, rfl, hs, rfl, rfl⟩
    | some q =>
      have hne : loc + 1 ≠ c := by
        intro e
        rw [e, hs] at hsl
        simp at hsl
      refine Safe.bind (safe_deref d q) fun w _ => ?_
      split
      · have hs' : (d.setSlot loc (some q)).list[c]? = some none := by
          unfold dictionary.setSlot
          rw [List.getElem?_set_ne (by omega)]
          exact hs
        refine (ih (d.setSlot loc (some q)) (loc + 1) hs' (by omega) (by omega)).mono
          fun r hr => ?_
        obtain ⟨r1, r2, r3, r4, r5⟩ := hr
        refine ⟨r1, ?_, r3, r4, r5⟩
        rw [r2]
        simp [dictionary.setSlot]
      · exact Safe.ok ⟨h1, rfl, hs, rfl, rfl⟩

theorem bounded_setSlot {d : dictionary} (hb : Bounded d) {i : ℕ} (hi : i ≠ d.capacity)
    (s : Option ℕ) : Bounded (d.setSlot i s) := by
  obtain ⟨h1, h2, h3, h4⟩ := hb
  refine ⟨h1, ?_, ?_, h4⟩
  · simp [dictionary.setSlot, h2]
  · show (d.list.set i s)[d.capacity]? = some none
    rw [List.getElem?_set_ne hi]
    exact h3

theorem bounded_of_shape {d d' : dictionary} (hb : Bounded d) (hc : d'.capacity = d.capacity)
    (hl : d'.list.length = d.list.length) (hs : d'.list[d.capacity]? = some none)
    (hst : ∀ (p : ℕ) (w : word), d'.store[p]? = some (some w) → w.hash * 26 < 25) :
    Bounded d' := by
  obtain ⟨h1, h2, _, _⟩ := hb
  exact ⟨by omega, by rw [hl, h2, hc], by rw [hc]; exact hs, hst⟩

theorem store_append_ok {store : List (Option word)} {w : word}
    (h : ∀ (p : ℕ) (v : word), store[p]? = some (some v) → v.hash * 26 < 25)
    (hw : w.hash * 26 < 25) :
    ∀ (p : ℕ) (v : word), (store ++ [some w])[p]? = some (some v) → v.hash * 26 < 25 := by
  intro p v hv
  rcases Nat.lt_or_ge p store.length with hp | hp
  · rw [List.getElem?_append_left hp] at hv
    exact h p v hv
  · rw [List.getElem?_append_right hp] at hv
    have : v ∈ ([some w] : List (Option word)).filterMap id := by
      apply List.mem_filterMap.mpr
      exact ⟨some v, List.getElem?_mem hv, rfl⟩
    simp at this
    rw [this]
    exact hw

theorem store_set_ok {store : List (Option word)} {q : ℕ} {o : Option word}
    (h : ∀ (p : ℕ) (v : word), store[p]? = some (some v) → v.hash * 26 < 25)
    (ho : ∀ v, o = some v → v.hash * 26 < 25) :
    ∀ (p : ℕ) (v : word), (store.set q o)[p]? = some (some v) → v.hash * 26 < 25 := by
  intro p v hv
  by_cases hpq : q = p
  · subst hpq
    rw [List.getElem?_set_self'] at hv
    cases hq : store[q]? with
    | none => rw [hq] at hv; simp at hv
    | some x =>
      rw [hq] at hv
      simp at hv
      exact ho v hv
  · rw [List.getElem?_set_ne hpq] at hv
    exact h p v hv

theorem safe_moveAll {ins : dictionary → ℕ → Run (dictionary × ℕ)}
    (hins : ∀ d W, Bounded d → Safe (ins d W) fun r => Bounded r.1) :
    ∀ (rest : List (Option ℕ)) (d : dictionary), Bounded d →
      Safe (dictionary.moveAll ins rest d) Bounded := by
  intro rest
  induction rest with
  | nil => intro d hb; exact Safe.ok hb
  | cons x rest ih =>
    intro d hb
    cases x with
    | none => exact ih d hb
    | some p =>
      unfold dictionary.moveAll
      exact Safe.bind (hins d p hb) fun r hr => ih r.1 hr

theorem safe_resizeWith {ins : dictionary → ℕ → Run (dictionary × ℕ)}
    (hins : ∀ d W, Bounded d → Safe (ins d W) fun r => Bounded r.1)
    {d : dictionary} (hb : Bounded d) :
    Safe (dictionary.resizeWith ins d (d.capacity <<< 1)) Bounded := by
  unfold dictionary.resizeWith
  apply safe_moveAll hins
  obtain ⟨h1, _, _, h4⟩ := hb
  have hcap : d.capacity <<< 1 = 2 * d.capacity := by
    rw [Nat.shiftLeft_eq]; omega
  refine ⟨?_, ?_, ?_, h4⟩
  · show 1 ≤ d.capacity <<< 1
    omega
  · simp
  · show (List.replicate (d.capacity <<< 1 + 1) (none : Option ℕ))[d.capacity <<< 1]? = some none
    rw [List.getElem?_replicate]
    simp

theorem safe_insertW (f : ℕ) :
    ∀ d W, Bounded d → Safe (dictionary.insertW f d W) fun r => Bounded r.1 := by
  induction f with
  | zero => intro d W _; exact Safe.fuel
  | succ f ih =>
    intro d W hb
    unfold dictionary.insertW
    split
    · exact Safe.bind (safe_resizeWith ih hb) fun d1 hb1 => ih d1 W hb1
    · refine Safe.bind (safe_deref d W) fun w hw => ?_
      refine Safe.bind (safe_locate hb (hb.2.2.2 W w hw) w.str) fun loc hloc => ?_
      refine Safe.bind (safe_slot (by rw [hb.2.1]; omega)) fun s hsl => ?_
      cases s with
      | none =>
        dsimp only
        split
        · exact Safe.bind (safe_resizeWith ih hb) fun d1 hb1 => ih d1 W hb1
        · next hne => exact Safe.ok (bounded_setSlot hb hne _)
      | some p =>
        dsimp only
        refine Safe.bind (safe_shift d.capacity _ d loc W hb.2.2.1 hloc
          (by have := hb.2.1; omega)) fun r hr => ?_
        obtain ⟨r1, r2, r3, r4, r5⟩ := hr
        have hbr : Bounded r.1 :=
          bounded_of_shape hb r4 r2 r3 (by rw [r5]; exact hb.2.2.2)
        split
        · refine Safe.bind (safe_resizeWith ih hbr) fun d2 hb2 => ?_
          exact Safe.bind (ih d2 r.2.2 hb2) fun r3 hr3 => Safe.ok hr3
        · next hne => exact Safe.ok (bounded_setSlot hbr hne _)

theorem safe_insert (f : ℕ) : ∀ (d : dictionary) (str : List Char) (num : ℕ), Bounded d →
    dictionary.hash str * 26 < 25 →
    Safe (dictionary.insert f d str num) fun r => Bounded r.1 := by
  induction f with
  | zero =>
    intro d str num hb _
    unfold dictionary.insert
    split
    · exact Safe.fuel
    · exact Safe.ok hb
  | succ f ih =>
    intro d str num hb hH
    have hW := safe_insertW f
    unfold dictionary.insert
    split
    · split
      · unfold dictionary.resize
        exact Safe.bind (safe_resizeWith hW hb) fun d1 hb1 => ih d1 str num hb1 hH
      · dsimp only
        refine Safe.bind (safe_locate hb hH str) fun loc hloc => ?_
        refine Safe.bind (safe_slot (by rw [hb.2.1]; omega)) fun s hsl => ?_
        cases s with
        | none =>
          dsimp only
          split
          · unfold dictionary.resize
            refine Safe.bind (safe_resizeWith hW hb) fun d1 hb1 => ?_
            apply hW
            unfold dictionary.alloc
            exact bounded_of_shape hb1 rfl rfl hb1.2.2.1
              (store_append_ok hb1.2.2.2 hH)
          · next hne =>
            apply Safe.ok
            unfold dictionary.alloc
            refine bounded_of_shape hb rfl (by simp [dictionary.setSlot]) ?_
              (store_append_ok hb.2.2.2 hH)
            show (d.list.set loc _)[d.capacity]? = some none
            rw [List.getElem?_set_ne hne]
            exact hb.2.2.1
        | some p =>
          dsimp only
          refine Safe.bind (safe_deref d p) fun w hw => ?_
          split
          · apply Safe.ok
            exact bounded_of_shape hb rfl rfl hb.2.2.1
              (store_set_ok hb.2.2.2 fun v hv => by
                cases hv
                exact hb.2.2.2 p w hw)
          · have hba : Bounded { (d.alloc ⟨dictionary.hash str, num, str⟩).1 with
                size := d.size + 1 } := by
              unfold dictionary.alloc
              exact bounded_of_shape hb rfl rfl hb.2.2.1 (store_append_ok hb.2.2.2 hH)
            refine Safe.bind (safe_shift d.capacity _ _ loc _ hba.2.2.1 hloc
              (by show d.capacity < loc + (d.list.length + 1 - loc)
                  have := hb.2.1
                  omega)) fun r hr => ?_
            obtain ⟨r1, r2, r3, r4, r5⟩ := hr
            have hbr : Bounded r.1 :=
              bounded_of_shape hba r4 r2 r3 (by rw [r5]; exact hba.2.2.2)
            split
            · unfold dictionary.resize
              refine Safe.bind (safe_resizeWith hW hbr) fun d2 hb2 => ?_
              exact Safe.bind (hW d2 r.2.2 hb2) fun r3 hr3 => Safe.ok hr3
            · next hne => exact Safe.ok (bounded_setSlot hbr hne _)
    · exact Safe.ok hb

theorem safe_find {d : dictionary} (hb : Bounded d) {str : List Char}
    (hH : dictionary.hash str * 26 < 25) : Safe (d.find str) fun _ => True := by
  unfold dictionary.find
  split
  · dsimp only
    refine Safe.bind (safe_locate hb hH str) fun loc hloc => ?_
    refine Safe.bind (safe_slot (by rw [hb.2.1]; omega)) fun s hsl => ?_
    cases s with
    | none => exact Safe.ok trivial
    | some p =>
      dsimp only
      refine Safe.bind (safe_deref d p) fun w _ => ?_
      split <;> exact Safe.ok trivial
  · exact Safe.ok trivial

theorem safe_remove {d : dictionary} (hb : Bounded d) {str : List Char}
    (hH : dictionary.hash str * 26 < 25) (num : ℕ) :
    Safe (d.remove str num) fun r => Bounded r.1 := by
  unfold dictionary.remove
  split
  · dsimp only
    refine Safe.bind (safe_locate hb hH str) fun loc hloc => ?_
    refine Safe.bind (safe_slot (by rw [hb.2.1]; omega)) fun s hsl => ?_
    cases s with
    | none => exact Safe.ok hb
    | some p =>
      dsimp only
      have hne : loc ≠ d.capacity := by
        intro e
        rw [e, hb.2.2.1] at hsl
        simp at hsl
      refine Safe.bind (safe_deref d p) fun w hw => ?_
      split
      · split
        · have hb1 : Bounded { d with store := d.store.set p none } :=
            bounded_of_shape hb rfl rfl hb.2.2.1
              (store_set_ok hb.2.2.2 fun v hv => by cases hv)
          refine Safe.bind (safe_compact d.capacity _ _ loc hb1.2.2.1 (by omega)
            (by show d.capacity < loc + (d.list.length + 1 - loc); rw [hb.2.1]; omega))
            fun r hr => ?_
          obtain ⟨r1, r2, r3, r4, r5⟩ := hr
          have hbr : Bounded r.1 :=
            bounded_of_shape hb1 r4 r2 r3 (by rw [r5]; exact hb1.2.2.2)
          refine Safe.bind (safe_slot (by rw [hbr.2.1, r4]; show r.2 + 1 < d.capacity + 1; omega))
            fun _ _ => ?_
          apply Safe.ok
          refine bounded_of_shape hbr rfl (by simp [dictionary.setSlot]) ?_ hbr.2.2.2
          show (r.1.list.set (r.2 + 1) none)[r.1.capacity]? = some none
          by_cases he : r.2 + 1 = r.1.capacity
          · rw [he, List.getElem?_set_self (by rw [hbr.2.1]; omega)]
          · rw [List.getElem?_set_ne he]
            exact hbr.2.2.1
        · apply Safe.ok
          exact bounded_of_shape hb rfl rfl hb.2.2.1
            (store_set_ok hb.2.2.2 fun v hv => by
              cases hv
              exact hb.2.2.2 p w hw)
      · exact Safe.ok hb
  · exact Safe.ok hb

theorem safe_runCalls (f : ℕ) : ∀ (calls : List Call) (d : dictionary), Bounded d →
    (∀ c ∈ calls, normalized c.word = true) →
    Safe (dictionary.runCalls f d calls) Bounded := by
  intro calls
  induction calls with
  | nil => intro d hb _; exact Safe.ok hb
  | cons c rest ih =>
    intro d hb hc
    have hn := hc c (List.mem_cons_self _ _)
    have hrest := fun x hx => hc x (List.mem_cons_of_mem _ hx)
    cases c with
    | insert w n =>
      unfold dictionary.runCalls
      exact Safe.bind (safe_insert f d w n hb (hash_bound hn)) fun r hr => ih r.1 hr hrest
    | remove w n =>
      unfold dictionary.runCalls
      exact Safe.bind (safe_remove hb (hash_bound hn) n) fun r hr => ih r.1 hr hrest

theorem bounded_ctor {cap : ℕ} (h : 1 ≤ cap) : Bounded (dictionary.ctor cap) := by
  refine ⟨h, by simp [dictionary.ctor], by simp [dictionary.ctor, List.getElem?_replicate], ?_⟩
  intro p w hw
  simp [dictionary.ctor] at hw

/-- Claim C28: scans stay inside the array.  For every dictionary constructed with
capacity at least 1, every sequence of `insert` and `remove` calls on normalized words
of at most 11 characters and every recursion budget: the run never reads or writes a
slot outside the `capacity + 1` allocated slots (it never ends in `oob`; every write of
the model is to a slot that the same call has read before); and in every state `d`
between two calls (after any prefix of the calls that returned) the capacity is at
least 1, the array has `capacity + 1` slots and the sentinel slot at index `capacity`
is empty, and for every normalized word `w` of at most 11 characters the scan starts at
an index below `capacity`, stops at an index of at most `capacity` when it returns, and
`find`, `insert` and `remove` on `w` access no slot outside the array.  A run that
dereferences a deleted object (the defect of `remove`, C4) ends in `ub` at that
point. -/
theorem scans_stay_inside (cap : ℕ) (hcap : 1 ≤ cap) (calls : List Call)
    (hcalls : ∀ c ∈ calls, normalized c.word = true ∧ c.word.length ≤ 11) (f : ℕ) :
    dictionary.runCalls f (dictionary.ctor cap) calls ≠ Run.oob ∧
    ∀ pre post d, calls = pre ++ post →
      dictionary.runCalls f (dictionary.ctor cap) pre = Run.ok d →
      (1 ≤ d.capacity ∧ d.list.length = d.capacity + 1 ∧ d.list[d.capacity]? = some none) ∧
      ∀ w, normalized w = true → w.length ≤ 11 →
        d.index (dictionary.hash w) < d.capacity ∧
        (∀ q, d.locate (dictionary.hash w) w = Run.ok q → q ≤ d.capacity) ∧
        d.locate (dictionary.hash w) w ≠ Run.oob ∧ d.find w ≠ Run.oob ∧
        (∀ n, dictionary.insert f d w n ≠ Run.oob) ∧ (∀ n, d.remove w n ≠ Run.oob) := by
  have hb0 := bounded_ctor hcap
  refine ⟨(safe_runCalls f calls _ hb0 fun c hc => (hcalls c hc).1).1, ?_⟩
  intro pre post d hsplit hd
  have hpre : ∀ c ∈ pre, normalized c.word = true := fun c hc =>
    (hcalls c (by rw [hsplit]; exact List.mem_append_left _ hc)).1
  have hb : Bounded d := (safe_runCalls f pre _ hb0 hpre).2 d hd
  refine ⟨⟨hb.1, hb.2.1, hb.2.2.1⟩, fun w hw _ => ?_⟩
  have hH := hash_bound hw
  have hloc := safe_locate hb hH w
  refine ⟨?_, hloc.2, hloc.1, (safe_find hb hH).1, fun n => (safe_insert f d w n hb hH).1,
    fun n => (safe_remove hb hH n).1⟩
  have := slotIndex_bound (by have := hb.1; omega : 0 < d.capacity) hH
  unfold dictionary.index
  omega

/-- Witness for C28: the four inserts and the removal of the load-factor scenario stay
inside the array and return; `insert("the")`, `remove("the")`, `insert("the")` stays
inside the array too, and ends with the dereference of the deleted object. -/
theorem scans_stay_inside_witness :
    dictionary.runCalls 1 (dictionary.ctor 4) loadCalls = Run.ok loadCallsResult ∧
    dictionary.runCalls 1 (dictionary.ctor 4) loadCalls ≠ Run.oob ∧
    dictionary.runCalls 1 (dictionary.ctor 1) reuseCalls = Run.ub ∧
    dictionary.runCalls 1 (dictionary.ctor 1) reuseCalls ≠ Run.oob :=
  ⟨by decide!, (scans_stay_inside 4 (by decide) loadCalls (by decide) 1).1, by decide!,
    (scans_stay_inside 1 (by decide) reuseCalls (by decide) 1).1⟩
